import Mathlib

/-!
Verification of the normalized multi-value persistence and reconciliation
engine of sqlite-containers (KeyMultiValueDB and its helpers).

The embedding models the three persistent tables (keys, values,
key-value-with-count), the two temporary staging tables, and the private
db_* operations of KeyMultiValueDB.hpp as pure functions over an explicit
database state.  Surrogate ids are Int (int64_t in the source); counts are
Nat (size_t).  SQLite statements that can observe an externally mutated or
busy database are parameterised by a Faults record: a faulted lookup
returns -1 ("not found") exactly as db_get_key_id / db_get_value_id do when
their single step() call does not yield a row.  Operations that can throw
return Except, with the error payload carrying the database state at the
moment of the throw (statement-level effects persist when no transaction is
active).
-/

namespace SqliteContainers

variable {K V : Type} [DecidableEq K] [DecidableEq V]

/-- Database state: rows of the keys table, the values table, the
key-value junction table (key_id, value_id, value_count), the two
connection-scoped temporary staging tables, and the AUTOINCREMENT
counters for the two id columns. -/
structure DBState (K V : Type) where
  keys : List (Int × K)
  vals : List (Int × V)
  assoc : List (Int × Int × Nat)
  tempKeys : List K
  tempVals : List V
  nextKeyId : Int
  nextValId : Int
  deriving DecidableEq

/-- Fresh database, as created by db_create_table: all tables empty,
AUTOINCREMENT counters start at 1. -/
def emptyDB (K V : Type) : DBState K V :=
  ⟨[], [], [], [], [], 1, 1⟩

/-- Fault model for id lookups.  A true entry makes the corresponding
SELECT-id statement report "no row" (hence the -1 sentinel) even when the
row is present, modelling a concurrent external mutation or a busy result
from the single step() call of db_get_key_id / db_get_value_id. -/
structure Faults (K V : Type) where
  failKey : K → Bool
  failVal : V → Bool

/-- Fault-free execution: every lookup sees the actual table content. -/
def noFaults (K V : Type) : Faults K V :=
  ⟨fun _ => false, fun _ => false⟩

/-- First row of SELECT id FROM t WHERE key = k (the key column is UNIQUE,
so at most one row matches). -/
def lookupIdByKey : List (Int × K) → K → Option Int
  | [], _ => none
  | r :: rs, k => if r.2 = k then some r.1 else lookupIdByKey rs k

/-- First row of SELECT key FROM t WHERE id = i (id is the primary key). -/
def lookupKeyById : List (Int × K) → Int → Option K
  | [], _ => none
  | r :: rs, i => if r.1 = i then some r.2 else lookupKeyById rs i

/-- INSERT OR IGNORE INTO t (key) VALUES (k): appends a fresh row with the
next surrogate id unless a row with this key already exists. -/
def insertIgnore (t : List (Int × K)) (next : Int) (k : K) :
    List (Int × K) × Int :=
  match lookupIdByKey t k with
  | some _ => (t, next)
  | none => (t ++ [(next, k)], next + 1)

/-- Result of SELECT value_count FROM key_value WHERE key_id = ? AND
value_id = ?, defaulting to 0 when no row matches (db_get_value_count). -/
def getCountById : List (Int × Int × Nat) → Int → Int → Nat
  | [], _, _ => 0
  | r :: rs, ki, vi =>
      if r.1 = ki ∧ r.2.1 = vi then r.2.2 else getCountById rs ki vi

/-- Effect of UPDATE key_value SET value_count = c WHERE key_id = ? AND
value_id = ? (db_set_value_count): a no-op when no row matches. -/
def setCountById (a : List (Int × Int × Nat)) (ki vi : Int) (c : Nat) :
    List (Int × Int × Nat) :=
  a.map (fun r => if r.1 = ki ∧ r.2.1 = vi then (ki, vi, c) else r)

/-- Membership test for an id among the rows of an id-keyed table. -/
def memId (t : List (Int × K)) (i : Int) : Bool :=
  (lookupKeyById t i).isSome

/-- Keys of the keys table (the key column). -/
def keySetOf (db : DBState K V) : List K :=
  db.keys.map (fun r => r.2)

/-- Values of the values table (the value column). -/
def valSetOf (db : DBState K V) : List V :=
  db.vals.map (fun r => r.2)

/-- Operation db_insert_key: INSERT OR IGNORE INTO keys_table (key). -/
def db_insert_key (db : DBState K V) (k : K) : DBState K V :=
  let p := insertIgnore db.keys db.nextKeyId k
  { db with keys := p.1, nextKeyId := p.2 }

/-- Operation db_insert_value: INSERT OR IGNORE INTO values_table (value). -/
def db_insert_value (db : DBState K V) (v : V) : DBState K V :=
  let p := insertIgnore db.vals db.nextValId v
  { db with vals := p.1, nextValId := p.2 }

/-- Operation db_get_key_id: one step of SELECT id FROM keys WHERE
key = ?, returning the id of the row, or -1 when no row is produced
(key absent, or the step faulted). -/
def db_get_key_id (f : Faults K V) (db : DBState K V) (k : K) : Int :=
  if f.failKey k then -1
  else
    match lookupIdByKey db.keys k with
    | some i => i
    | none => -1

/-- Operation db_get_value_id, the value-table counterpart. -/
def db_get_value_id (f : Faults K V) (db : DBState K V) (v : V) : Int :=
  if f.failVal v then -1
  else
    match lookupIdByKey db.vals v with
    | some i => i
    | none => -1

/-- Operation db_get_value_count: value_count of the (key_id, value_id)
row, or 0 when the row is absent. -/
def db_get_value_count (db : DBState K V) (ki vi : Int) : Nat :=
  getCountById db.assoc ki vi

/-- Operation db_set_value_count: UPDATE of the value_count column. -/
def db_set_value_count (db : DBState K V) (ki vi : Int) (c : Nat) :
    DBState K V :=
  { db with assoc := setCountById db.assoc ki vi c }

/-- Operation db_insert_key_value: INSERT INTO key_value (key_id,
value_id); the value_count column takes its DEFAULT of 1.  Every call
site guards this with db_get_value_count = 0, so the PRIMARY KEY
constraint of the junction table cannot fire. -/
def db_insert_key_value (db : DBState K V) (ki vi : Int) : DBState K V :=
  { db with assoc := db.assoc ++ [(ki, vi, 1)] }

/-- Operation db_insert_key_temp: INSERT OR IGNORE into the temporary
keys table (its id column is never read, so only the key set is kept). -/
def db_insert_key_temp (db : DBState K V) (k : K) : DBState K V :=
  if k ∈ db.tempKeys then db else { db with tempKeys := db.tempKeys ++ [k] }

/-- Operation db_insert_value_temp, the temporary values counterpart. -/
def db_insert_value_temp (db : DBState K V) (v : V) : DBState K V :=
  if v ∈ db.tempVals then db else { db with tempVals := db.tempVals ++ [v] }

/-- Operation db_clear_temp_tables: DELETE FROM both staging tables. -/
def db_clear_temp_tables (db : DBState K V) : DBState K V :=
  { db with tempKeys := [], tempVals := [] }

/-- Operation db_purge_old_data: DELETE FROM keys WHERE key NOT IN
(SELECT key FROM temp_keys), then the same for values.  ON DELETE CASCADE
removes every junction row whose key_id or value_id no longer resolves. -/
def db_purge_old_data (db : DBState K V) : DBState K V :=
  let keys' := db.keys.filter (fun r => decide (r.2 ∈ db.tempKeys))
  let assoc1 := db.assoc.filter (fun r => memId keys' r.1)
  let vals' := db.vals.filter (fun r => decide (r.2 ∈ db.tempVals))
  let assoc2 := assoc1.filter (fun r => memId vals' r.2.1)
  { db with keys := keys', vals := vals', assoc := assoc2 }

/-- Rows produced by the m_stmt_load join: for every junction row whose
two ids resolve, the (key, value, value_count) triple. -/
def readAll (db : DBState K V) : List (K × V × Nat) :=
  db.assoc.filterMap (fun r =>
    match lookupKeyById db.keys r.1, lookupKeyById db.vals r.2.1 with
    | some k, some v => some (k, v, r.2.2)
    | _, _ => none)

/-- Total stored multiplicity of the pair (k, v) in a read-back row list
(the count of the unique matching row, summed for robustness). -/
def loadCount (rows : List (K × V × Nat)) (k : K) (v : V) : Nat :=
  (rows.filter (fun r => decide (r.1 = k ∧ r.2.1 = v))).foldr
    (fun r acc => r.2.2 + acc) 0

/-- Multiplicity of the pair (k, v) in a flat source container. -/
def multPair (S : List (K × V)) (k : K) (v : V) : Nat :=
  (S.filter (fun p => decide (p.1 = k ∧ p.2 = v))).length

/-- Count stored for (key, value) resolved through both id lookups, the
denotation of db_get_value_count_key_value: 0 when either row is absent. -/
def countKV (db : DBState K V) (k : K) (v : V) : Nat :=
  match lookupIdByKey db.keys k, lookupIdByKey db.vals v with
  | some ki, some vi => getCountById db.assoc ki vi
  | _, _ => 0

/-- Step of find_or_insert followed by the it->second++ of the flat
db_reconcile: an occurrence of the value bumps its counter, a new value is
appended with counter 1 (inserted with 0, then incremented). -/
def bumpValue : List (V × Nat) → V → List (V × Nat)
  | [], v => [(v, 1)]
  | p :: ps, v => if p.1 = v then (p.1, p.2 + 1) :: ps else p :: bumpValue ps v

/-- Update of one source pair in the flat overload's frequency map:
operator[] creates the entry for a new key (empty vector), then
find_or_insert plus increment counts the value occurrence. -/
def updateEntry : List (K × List (V × Nat)) → K → V → List (K × List (V × Nat))
  | [], k, v => [(k, bumpValue [] v)]
  | e :: es, k, v =>
      if e.1 = k then (e.1, bumpValue e.2 v) :: es
      else e :: updateEntry es k v

/-- Frequency map built by the flat db_reconcile overload.  Entries are
kept in first-occurrence order (the C++ unordered_map order is
unspecified; the engine's contract is order independent). -/
def buildFreq (S : List (K × V)) : List (K × List (V × Nat)) :=
  S.foldl (fun acc p => updateEntry acc p.1 p.2) []

/-- Assignment temp_container[key][value] = 1 of the map-of-collections
db_reconcile overload: overwrites the counter with 1, or appends (v, 1). -/
def assignOne : List (V × Nat) → V → List (V × Nat)
  | [], v => [(v, 1)]
  | p :: ps, v => if p.1 = v then (p.1, 1) :: ps else p :: assignOne ps v

/-- Entry update of the map-of-collections frequency builder when the key
was already present before the inner loop: each value is bumped (absent
value set to 1, present value incremented). -/
def applyFound : List (K × List (V × Nat)) → K → List V → List (K × List (V × Nat))
  | [], _, _ => []
  | e :: es, k, vs =>
      if e.1 = k then (e.1, vs.foldl bumpValue e.2) :: es
      else e :: applyFound es k vs

/-- Membership of a key among the frequency-map entries. -/
def freqFound (acc : List (K × List (V × Nat))) (k : K) : Bool :=
  acc.any (fun e => decide (e.1 = k))

/-- One outer-loop iteration of the map-of-collections frequency
builder.  The iterator it_key = temp_container.find(pair.first) is
computed before the inner loop, so when the key is new every value
executes temp_container[key][value] = 1: duplicates inside one collection
entry of a new key all land on count 1, and an empty collection creates
no entry at all. -/
def buildFreqMapStep (acc : List (K × List (V × Nat))) (e : K × List V) :
    List (K × List (V × Nat)) :=
  if freqFound acc e.1 then applyFound acc e.1 e.2
  else if e.2.isEmpty then acc
  else acc ++ [(e.1, e.2.foldl assignOne [])]

/-- Frequency map built by the map-of-collections db_reconcile
overload. -/
def buildFreqMap (S : List (K × List V)) : List (K × List (V × Nat)) :=
  S.foldl buildFreqMapStep []

/-- Value upsert loop of the key upsert phase: every value of one
frequency entry goes into the values table and the temp values table. -/
def insertValuesPhase (db : DBState K V) (vs : List (V × Nat)) : DBState K V :=
  vs.foldl (fun d p => db_insert_value_temp (db_insert_value d p.1) p.1) db

/-- Key upsert loop shared by both db_reconcile overloads: every frequency
entry's key goes into the keys table and the temp keys table, every value
under it into the values table and the temp values table. -/
def insertFreqEntry (db : DBState K V) (e : K × List (V × Nat)) : DBState K V :=
  insertValuesPhase (db_insert_key_temp (db_insert_key db e.1) e.1) e.2

/-- Fold of insertFreqEntry over the whole frequency map. -/
def insertFreq (freq : List (K × List (V × Nat))) (db : DBState K V) :
    DBState K V :=
  freq.foldl insertFreqEntry db

/-- Association-insert phase of the flat db_reconcile overload: for every
source pair, resolve both ids -- a -1 result throws ("Failed to retrieve
key ID / value ID ... during reconciliation") -- and insert the junction
row when db_get_value_count reports 0. -/
def assocInsertFlat (f : Faults K V) :
    List (K × V) → DBState K V → Except (DBState K V) (DBState K V)
  | [], db => .ok db
  | p :: ps, db =>
      let kid := db_get_key_id f db p.1
      if kid = -1 then .error db
      else
        let vid := db_get_value_id f db p.2
        if vid = -1 then .error db
        else
          let db' := if db_get_value_count db kid vid = 0
                     then db_insert_key_value db kid vid else db
          assocInsertFlat f ps db'

/-- One iteration of the inner value loop of the map-of-collections
association-insert phase: a -1 value id or a non-zero existing count is
skipped with continue. -/
def assocInsertMapStep (f : Faults K V) (ki : Int) (d : DBState K V)
    (v : V) : DBState K V :=
  let vid := db_get_value_id f d v
  if vid = -1 then d
  else if db_get_value_count d ki vid ≠ 0 then d
  else db_insert_key_value d ki vid

/-- Inner value loop of the map-of-collections association-insert
phase. -/
def assocInsertMapVals (f : Faults K V) (ki : Int) (db : DBState K V)
    (vs : List V) : DBState K V :=
  vs.foldl (assocInsertMapStep f ki) db

/-- One iteration of the association-insert phase of the
map-of-collections db_reconcile overload: a -1 key id skips the whole
entry with continue. -/
def assocInsertMapEntry (f : Faults K V) (d : DBState K V)
    (e : K × List V) : DBState K V :=
  let kid := db_get_key_id f d e.1
  if kid = -1 then d
  else assocInsertMapVals f kid d e.2

/-- Association-insert phase of the map-of-collections db_reconcile
overload: a -1 id is skipped with continue, never thrown. -/
def assocInsertMap (f : Faults K V) (S : List (K × List V))
    (db : DBState K V) : DBState K V :=
  S.foldl (assocInsertMapEntry f) db

/-- One iteration of the inner value loop of the count-set phase: set
one value's count to its frequency-map multiplicity, skipping a -1 value
id with continue. -/
def setCountsStep (f : Faults K V) (ki : Int) (d : DBState K V)
    (p : V × Nat) : DBState K V :=
  let vid := db_get_value_id f d p.1
  if vid = -1 then d
  else db_set_value_count d ki vid p.2

/-- Inner value loop of the count-set phase. -/
def setCountsVals (f : Faults K V) (ki : Int) (db : DBState K V)
    (vs : List (V × Nat)) : DBState K V :=
  vs.foldl (setCountsStep f ki) db

/-- Final count-set phase shared by both db_reconcile overloads: resolve
ids (skipping an entry on -1 with continue) and set value_count to the
frequency-map multiplicity. -/
def setCountsEntry (f : Faults K V) (db : DBState K V)
    (e : K × List (V × Nat)) : DBState K V :=
  let kid := db_get_key_id f db e.1
  if kid = -1 then db
  else setCountsVals f kid db e.2

/-- Fold of setCountsEntry over the whole frequency map. -/
def setCounts (f : Faults K V) (freq : List (K × List (V × Nat)))
    (db : DBState K V) : DBState K V :=
  freq.foldl (setCountsEntry f) db

/-- Operation db_reconcile for a flat container of pairs: build the
frequency map, clear staging, upsert keys and values into the main and
staging tables, insert missing junction rows (throwing on a failed id
lookup), purge keys and values absent from staging (cascading to junction
rows), clear staging, and set the final counts.  The error payload is the
database state at the throw: without an enclosing transaction those
effects persist. -/
def db_reconcile_flat (f : Faults K V) (S : List (K × V))
    (db : DBState K V) : Except (DBState K V) (DBState K V) :=
  let freq := buildFreq S
  let db1 := insertFreq freq (db_clear_temp_tables db)
  match assocInsertFlat f S db1 with
  | .error d => .error d
  | .ok db2 =>
      .ok (setCounts f freq (db_clear_temp_tables (db_purge_old_data db2)))

/-- Operation db_reconcile for a map-of-collections container.  Its body
has no throw of its own: failed id lookups are skipped with continue, so
the operation always succeeds in this model. -/
def db_reconcile_map (f : Faults K V) (S : List (K × List V))
    (db : DBState K V) : Except (DBState K V) (DBState K V) :=
  let freq := buildFreqMap S
  let db1 := insertFreq freq (db_clear_temp_tables db)
  let db2 := assocInsertMap f S db1
  .ok (setCounts f freq (db_clear_temp_tables (db_purge_old_data db2)))

/-- Two leading upserts of the db_append loop body: db_insert_key then
db_insert_value for one source pair. -/
def upsertPair (db : DBState K V) (p : K × V) : DBState K V :=
  db_insert_value (db_insert_key db p.1) p.2

/-- Loop body of db_append for one source pair: upsert the key and value
rows, resolve ids (a -1 skips the rest of the body with continue), then
either bump an existing junction row's count by one or insert a fresh row
with the DEFAULT count of 1. -/
def db_append_step (f : Faults K V) (db : DBState K V) (p : K × V) :
    DBState K V :=
  let db1 := upsertPair db p
  let kid := db_get_key_id f db1 p.1
  if kid = -1 then db1
  else
    let vid := db_get_value_id f db1 p.2
    if vid = -1 then db1
    else
      let c := db_get_value_count db1 kid vid
      if c ≠ 0 then db_set_value_count db1 kid vid (c + 1)
      else db_insert_key_value db1 kid vid

/-- Operation db_append for a flat container: the loop body applied to
every source pair in order.  Nothing is ever purged. -/
def db_append_flat (f : Faults K V) :
    List (K × V) → DBState K V → DBState K V
  | [], db => db
  | p :: ps, db => db_append_flat f ps (db_append_step f db p)

/-- Three BEGIN modes prepared by BaseDB (lazy/deferred, write-immediate,
exclusive). -/
inductive TransactionMode where
  | DEFERRED
  | IMMEDIATE
  | EXCLUSIVE
  deriving DecidableEq

/-- Operation BaseDB::execute_in_transaction: BEGIN mode, run the body,
COMMIT; on any exception ROLLBACK restores the pre-transaction state and
the (normalised) exception propagates. -/
def execute_in_transaction
    (body : DBState K V → Except (DBState K V) (DBState K V))
    (_mode : TransactionMode) (db : DBState K V) :
    Except (DBState K V) (DBState K V) :=
  match body db with
  | .ok d => .ok d
  | .error _ => .error db

/-- Public overload reconcile(container, mode): db_reconcile wrapped in
execute_in_transaction. -/
def reconcile_with_mode (f : Faults K V) (S : List (K × V))
    (mode : TransactionMode) (db : DBState K V) :
    Except (DBState K V) (DBState K V) :=
  execute_in_transaction (db_reconcile_flat f S) mode db

/-- Public overload reconcile(container): only the instance mutex is
taken; db_reconcile runs with no BEGIN/COMMIT around it, so the effects
already applied at the moment of a throw persist. -/
def reconcile_no_mode (f : Faults K V) (S : List (K × V))
    (db : DBState K V) : Except (DBState K V) (DBState K V) :=
  db_reconcile_flat f S db

/-- Rows appended into the caller's container by db_load / db_find: each
row is replicated value_count times by add_value. -/
def expandRows (rows : List (V × Nat)) (c : List V) : List V :=
  rows.foldl (fun acc r => acc ++ List.replicate r.2 r.1) c

/-- Operation db_load into a flat pair container: every joined
(key, value, value_count) row appends value_count copies of the pair to
the container handed in by the caller, which is never cleared. -/
def db_load_flat (db : DBState K V) (c : List (K × V)) : List (K × V) :=
  (readAll db).foldl
    (fun acc r => acc ++ List.replicate r.2.2 (r.1, r.2.1)) c

/-- Rows of the m_stmt_find join for one key: the values associated with
the key together with their counts. -/
def findRows (db : DBState K V) (k : K) : List (V × Nat) :=
  db.assoc.filterMap (fun r =>
    match lookupKeyById db.keys r.1, lookupKeyById db.vals r.2.1 with
    | some k2, some v => if k2 = k then some (v, r.2.2) else none
    | _, _ => none)

/-- Operation db_find: append the key's values (replicated by count) to
the caller's container and return the negation of container.empty(). -/
def db_find (db : DBState K V) (k : K) (c : List V) : List V × Bool :=
  let c' := expandRows (findRows db k) c
  (c', !c'.isEmpty)

/-- Test whether some junction row belongs to the given key, i.e. the key
has at least one association in the database. -/
def hasAssocB (db : DBState K V) (k : K) : Bool :=
  db.assoc.any (fun r => decide (lookupKeyById db.keys r.1 = some k))

/-- Well-formedness maintained by the engine and enforced by the schema:
unique surrogate ids and unique payloads in the keys and values tables,
the (key_id, value_id) primary key of the junction table, both foreign
keys resolving, ids positive and below the AUTOINCREMENT counter, and
every stored count at least 1. -/
def WF (db : DBState K V) : Prop :=
  (db.keys.map (fun r => r.1)).Nodup ∧
  (db.keys.map (fun r => r.2)).Nodup ∧
  (db.vals.map (fun r => r.1)).Nodup ∧
  (db.vals.map (fun r => r.2)).Nodup ∧
  (db.assoc.map (fun r => (r.1, r.2.1))).Nodup ∧
  (∀ r ∈ db.assoc, memId db.keys r.1 = true) ∧
  (∀ r ∈ db.assoc, memId db.vals r.2.1 = true) ∧
  (∀ e ∈ db.keys, 1 ≤ e.1 ∧ e.1 < db.nextKeyId) ∧
  (∀ e ∈ db.vals, 1 ≤ e.1 ∧ e.1 < db.nextValId) ∧
  (∀ r ∈ db.assoc, 1 ≤ r.2.2) ∧
  1 ≤ db.nextKeyId ∧ 1 ≤ db.nextValId

instance decidableWF {K V : Type} [DecidableEq K] [DecidableEq V]
    (db : DBState K V) : Decidable (WF db) := by
  unfold WF
  infer_instance

/-- Result of a single sqlite3_step call, as dispatched on by the source. -/
inductive StepResult where
  | row (x : Int)
  | done
  | busy
  | full
  | ioerr
  | err (code : Nat)
  deriving DecidableEq

/-- Operation execute(sqlite3_stmt*) of Utils.hpp over the sequence of
results that successive step() calls would return: rows are drained, DONE
succeeds, BUSY sleeps for the fixed delay and retries, SQLITE_FULL (13),
SQLITE_IOERR (10) and every other code throw.  The none result stands for
a script that ended before the statement finished. -/
def executeSteps : List StepResult → Option (Except Nat Unit)
  | [] => none
  | .row _ :: rest => executeSteps rest
  | .done :: _ => some (.ok ())
  | .busy :: rest => executeSteps rest
  | .full :: _ => some (.error 13)
  | .ioerr :: _ => some (.error 10)
  | .err c :: _ => some (.error c)

/-- Operation db_get_key_id at the statement level: a single step() call,
extracting the id on SQLITE_ROW and returning -1 on any other result --
including SQLITE_BUSY, which is neither retried nor surfaced. -/
def db_get_key_id_step (first : StepResult) : Int :=
  match first with
  | .row i => i
  | _ => -1

/-- Operation db_get_value_count at the statement level: a single step()
call, extracting the count on SQLITE_ROW and returning 0 otherwise --
including on SQLITE_BUSY. -/
def db_get_value_count_step (first : StepResult) : Nat :=
  match first with
  | .row c => c.toNat
  | _ => 0

/-- Successful payload of an Except, with a default. -/
def okD {α β : Type} (r : Except α β) (d : β) : β :=
  match r with
  | .ok x => x
  | .error _ => d

/-- Test for the error (thrown) outcome of an operation. -/
def isErr {ε α : Type} (r : Except ε α) : Bool :=
  match r with
  | .error _ => true
  | .ok _ => false

instance {ε α : Type} [DecidableEq ε] [DecidableEq α] :
    DecidableEq (Except ε α) := fun a b =>
  match a, b with
  | .ok x, .ok y =>
      if h : x = y then isTrue (by rw [h])
      else isFalse (fun hc => h (Except.ok.inj hc))
  | .ok _, .error _ => isFalse (fun hc => Except.noConfusion hc)
  | .error _, .ok _ => isFalse (fun hc => Except.noConfusion hc)
  | .error x, .error y =>
      if h : x = y then isTrue (by rw [h])
      else isFalse (fun hc => h (Except.error.inj hc))

/-- Lookup fault on the key 1 (a concurrent external deletion of that key
row, or a busy step in db_get_key_id, between its insertion and its id
lookup). -/
def faultKey1 : Faults Nat Nat :=
  ⟨fun k => decide (k = 1), fun _ => false⟩

/-- First source multiset for the stale-association scenario: key 1 is
paired with values 10 and 20, key 2 with value 20. -/
def c1Source0 : List (Nat × Nat) := [(1, 10), (2, 20), (1, 20)]

/-- Second source multiset: the pair (1, 20) is gone, but key 1 still
occurs (with 10) and value 20 still occurs (under 2). -/
def c1Source1 : List (Nat × Nat) := [(1, 10), (2, 20)]

/-- Database after reconciling the first source into a fresh database. -/
def c1Mid : DBState Nat Nat :=
  okD (db_reconcile_flat (noFaults Nat Nat) c1Source0 (emptyDB Nat Nat))
    (emptyDB Nat Nat)

/-- Database after then reconciling the second source. -/
def c1Final : DBState Nat Nat :=
  okD (db_reconcile_flat (noFaults Nat Nat) c1Source1 c1Mid)
    (emptyDB Nat Nat)

/-- State persisted by the no-transaction reconcile overload at the moment
the key-id lookup for key 1 throws: the key and value rows and both
staging rows inserted before the throw are still there. -/
def c2ErrState : DBState Nat Nat :=
  ⟨[(1, 1)], [(1, 10)], [], [1], [10], 2, 2⟩

/-- Final state of the map-of-collections reconcile under the key-1
lookup fault: the key and value rows exist but no junction row was ever
created for them, and no exception was raised. -/
def c3OkState : DBState Nat Nat :=
  ⟨[(1, 1)], [(1, 10)], [], [], [], 2, 2⟩

/-- Stored multiplicity of a value in one frequency-map entry. -/
def vcount : List (V × Nat) → V → Nat
  | [], _ => 0
  | p :: ps, v => if p.1 = v then p.2 else vcount ps v

/-- Stored multiplicity of a pair in a frequency map. -/
def freqCount (freq : List (K × List (V × Nat))) (k : K) (v : V) : Nat :=
  match freq with
  | [] => 0
  | e :: es => if e.1 = k then vcount e.2 v else freqCount es k v

/-- Small database used to instantiate theorems with hypotheses: key 1
(id 1), value 10 (id 1), one junction row with count 2. -/
def c10DB : DBState Nat Nat :=
  ⟨[(1, 1)], [(1, 10)], [(1, 1, 2)], [], [], 2, 2⟩

/-- Source container mapping key 7 to an empty value collection and
key 2 to one value. -/
def c7Src : List (Nat × List Nat) := [(7, []), (2, [5])]

/-- Flat source with a repeated pair, used to instantiate the reconcile
idempotence theorem. -/
def c5Src : List (Nat × Nat) := [(1, 10), (1, 10), (2, 20)]

/-- Database already holding a key row for key 7. -/
def c7DB : DBState Nat Nat :=
  ⟨[(1, 7)], [], [], [], [], 2, 1⟩

/-!
Theorems.
-/

/-- C1: the bijection law fails on the code.  Reconciling c1Source0 and
then c1Source1 from a fresh database succeeds, yet the read-back of the
final state still stores the pair (1, 20) with count 1 although its
multiplicity in c1Source1 is 0: the purge step only deletes key and value
rows absent from staging, so a junction row whose key and value each still
occur in the source survives reconciliation with its old count. -/
theorem reconcile_stale_association_survives :
    (db_reconcile_flat (noFaults Nat Nat) c1Source1 c1Mid).isOk = true ∧
    loadCount (readAll c1Final) 1 20 = 1 ∧
    multPair c1Source1 1 20 = 0 := by decide

/-- C2 counterexample: the no-mode public overload reconcile(container)
runs db_reconcile with no BEGIN/COMMIT around it, so when the body throws
(here: a faulted key-id lookup) the rows inserted before the throw
persist -- the resulting state differs from the state before the call,
contradicting the claim that every public overload is transactional. -/
theorem reconcile_no_mode_partial_write :
    reconcile_no_mode faultKey1 [(1, 10)] (emptyDB Nat Nat) =
      Except.error c2ErrState ∧
    c2ErrState ≠ emptyDB Nat Nat := by decide

/-- C2 amended: the overloads that take a TransactionMode run the body
inside BEGIN/COMMIT via execute_in_transaction, and any exception rolls
the transaction back before propagating, so the persisted state carried by
the error equals the state before the call. -/
theorem execute_in_transaction_rollback {K V : Type} [DecidableEq K]
    [DecidableEq V]
    (body : DBState K V → Except (DBState K V) (DBState K V))
    (mode : TransactionMode) (db e : DBState K V)
    (h : execute_in_transaction body mode db = Except.error e) : e = db := by
  unfold execute_in_transaction at h
  cases hb : body db with
  | ok d => rw [hb] at h; exact absurd h (by simp)
  | error d => rw [hb] at h; exact (Except.error.inj h).symm

/-- C2 witness: the transactional reconcile overload, failing on the
faulted lookup, reports the pre-transaction state unchanged. -/
theorem execute_in_transaction_rollback_witness :
    execute_in_transaction (db_reconcile_flat faultKey1 [(1, 10)])
      TransactionMode.DEFERRED (emptyDB Nat Nat) =
      Except.error (emptyDB Nat Nat) ∧
    emptyDB Nat Nat = emptyDB Nat Nat :=
  ⟨by decide,
   execute_in_transaction_rollback (db_reconcile_flat faultKey1 [(1, 10)])
     TransactionMode.DEFERRED (emptyDB Nat Nat) (emptyDB Nat Nat)
     (by decide)⟩

/-- C3 counterexample: in the map-of-collections reconcile overload, a
key-id lookup returning not-found for the key just inserted (key 1) is
silently skipped with continue: the call returns normally (no exception)
and the pair (1, 10) is simply missing from the read-back. -/
theorem reconcile_map_lookup_fault_skipped :
    db_reconcile_map faultKey1 [(1, [10])] (emptyDB Nat Nat) =
      Except.ok c3OkState ∧
    readAll c3OkState = [] := by decide

/-- C4 counterexample: the single-step lookups convert a busy result
instead of retrying it.  db_get_key_id performs one step() and returns -1
on SQLITE_BUSY, indistinguishable from not-found, although the execute
helper applied to the same statement would have retried and succeeded;
db_get_value_count likewise returns a zero count on SQLITE_BUSY. -/
theorem get_key_id_busy_converted :
    db_get_key_id_step StepResult.busy = -1 ∧
    db_get_key_id_step (StepResult.row 5) = 5 ∧
    db_get_value_count_step StepResult.busy = 0 ∧
    executeSteps [StepResult.busy, StepResult.done] =
      some (Except.ok ()) := by decide

/-- Helper: a lookup by payload fails exactly when the payload is absent
from the table. -/
theorem lookupIdByKey_eq_none {K : Type} [DecidableEq K]
    (t : List (Int × K)) (k : K) :
    lookupIdByKey t k = none ↔ k ∉ t.map (fun r => r.2) := by
  induction t with
  | nil => simp [lookupIdByKey]
  | cons r rs ih =>
      rw [lookupIdByKey]
      by_cases h : r.2 = k
      · simp [h]
      · rw [if_neg h, ih, List.map_cons]
        simp only [List.mem_cons]
        constructor
        · intro hn hc
          rcases hc with hc | hc
          · exact h hc.symm
          · exact hn hc
        · intro hn hc
          exact hn (Or.inr hc)

/-- Helper: a lookup by payload succeeds exactly when the payload occurs
in the table. -/
theorem lookupIdByKey_isSome_iff {K : Type} [DecidableEq K]
    (t : List (Int × K)) (k : K) :
    (lookupIdByKey t k).isSome = true ↔ k ∈ t.map (fun r => r.2) := by
  rw [Option.isSome_iff_ne_none]
  constructor
  · intro h
    by_contra hc
    exact h ((lookupIdByKey_eq_none t k).mpr hc)
  · intro h hc
    exact (lookupIdByKey_eq_none t k).mp hc h

/-- Helper: a successful lookup returns an actual row of the table. -/
theorem lookupIdByKey_mem {K : Type} [DecidableEq K]
    (t : List (Int × K)) (k : K) (i : Int)
    (h : lookupIdByKey t k = some i) : (i, k) ∈ t := by
  induction t with
  | nil => simp [lookupIdByKey] at h
  | cons r rs ih =>
      by_cases hk : r.2 = k
      · rw [lookupIdByKey, if_pos hk] at h
        have : r = (i, k) := by
          have h1 := Option.some.inj h
          calc r = (r.1, r.2) := rfl
          _ = (i, k) := by rw [h1, hk]
        rw [← this]; exact List.mem_cons_self r rs
      · rw [lookupIdByKey, if_neg hk] at h
        exact List.mem_cons_of_mem r (ih h)

/-- Helper: a lookup over an appended table first scans the left part. -/
theorem lookupIdByKey_append {K : Type} [DecidableEq K]
    (t u : List (Int × K)) (k : K) :
    lookupIdByKey (t ++ u) k =
      match lookupIdByKey t k with
      | some i => some i
      | none => lookupIdByKey u k := by
  induction t with
  | nil => simp [lookupIdByKey]
  | cons r rs ih =>
      by_cases h : r.2 = k
      · simp [lookupIdByKey, h]
      · simp [lookupIdByKey, h, ih]

/-- Helper: under unique payloads, a table row is found by its payload. -/
theorem lookupIdByKey_of_mem {K : Type} [DecidableEq K]
    (t : List (Int × K)) (k : K) (i : Int)
    (hnd : (t.map (fun r => r.2)).Nodup) (hm : (i, k) ∈ t) :
    lookupIdByKey t k = some i := by
  induction t with
  | nil => simp at hm
  | cons r rs ih =>
      rw [List.map_cons, List.nodup_cons] at hnd
      rcases List.mem_cons.mp hm with he | hm2
      · rw [← he, lookupIdByKey, if_pos rfl]
      · have hk : r.2 ≠ k := by
          intro hc
          exact hnd.1 (hc ▸ (List.mem_map.mpr ⟨(i, k), hm2, rfl⟩))
        rw [lookupIdByKey, if_neg hk]
        exact ih hnd.2 hm2

/-- Helper: under unique ids, two payloads resolving to the same id are
the same payload. -/
theorem lookupIdByKey_inj {K : Type} [DecidableEq K]
    (t : List (Int × K)) (k1 k2 : K) (i : Int)
    (hnd : (t.map (fun r => r.1)).Nodup)
    (h1 : lookupIdByKey t k1 = some i) (h2 : lookupIdByKey t k2 = some i) :
    k1 = k2 := by
  have hm1 := lookupIdByKey_mem t k1 i h1
  have hm2 := lookupIdByKey_mem t k2 i h2
  have := List.inj_on_of_nodup_map hnd hm1 hm2 rfl
  exact congrArg Prod.snd this

/-- Helper: a lookup by id fails exactly when the id is absent. -/
theorem lookupKeyById_eq_none {K : Type} [DecidableEq K]
    (t : List (Int × K)) (i : Int) :
    lookupKeyById t i = none ↔ i ∉ t.map (fun r => r.1) := by
  induction t with
  | nil => simp [lookupKeyById]
  | cons r rs ih =>
      rw [lookupKeyById]
      by_cases h : r.1 = i
      · simp [h]
      · rw [if_neg h, ih, List.map_cons]
        simp only [List.mem_cons]
        constructor
        · intro hn hc
          rcases hc with hc | hc
          · exact h hc.symm
          · exact hn hc
        · intro hn hc
          exact hn (Or.inr hc)

/-- Helper: a lookup by id succeeds exactly when the id occurs. -/
theorem lookupKeyById_isSome_iff {K : Type} [DecidableEq K]
    (t : List (Int × K)) (i : Int) :
    (lookupKeyById t i).isSome = true ↔ i ∈ t.map (fun r => r.1) := by
  rw [Option.isSome_iff_ne_none]
  constructor
  · intro h
    by_contra hc
    exact h ((lookupKeyById_eq_none t i).mpr hc)
  · intro h hc
    exact (lookupKeyById_eq_none t i).mp hc h

/-- Helper: a successful lookup by id returns an actual row. -/
theorem lookupKeyById_mem {K : Type} [DecidableEq K]
    (t : List (Int × K)) (i : Int) (k : K)
    (h : lookupKeyById t i = some k) : (i, k) ∈ t := by
  induction t with
  | nil => simp [lookupKeyById] at h
  | cons r rs ih =>
      by_cases hi : r.1 = i
      · rw [lookupKeyById, if_pos hi] at h
        have : r = (i, k) := by
          have h1 := Option.some.inj h
          calc r = (r.1, r.2) := rfl
          _ = (i, k) := by rw [h1, hi]
        rw [← this]; exact List.mem_cons_self r rs
      · rw [lookupKeyById, if_neg hi] at h
        exact List.mem_cons_of_mem r (ih h)

/-- Helper: a lookup by id over an appended table scans the left first. -/
theorem lookupKeyById_append {K : Type} [DecidableEq K]
    (t u : List (Int × K)) (i : Int) :
    lookupKeyById (t ++ u) i =
      match lookupKeyById t i with
      | some k => some k
      | none => lookupKeyById u i := by
  induction t with
  | nil => simp [lookupKeyById]
  | cons r rs ih =>
      by_cases h : r.1 = i
      · simp [lookupKeyById, h]
      · simp [lookupKeyById, h, ih]

/-- Helper: under unique ids, a row is found by its id. -/
theorem lookupKeyById_of_mem {K : Type} [DecidableEq K]
    (t : List (Int × K)) (i : Int) (k : K)
    (hnd : (t.map (fun r => r.1)).Nodup) (hm : (i, k) ∈ t) :
    lookupKeyById t i = some k := by
  induction t with
  | nil => simp at hm
  | cons r rs ih =>
      rw [List.map_cons, List.nodup_cons] at hnd
      rcases List.mem_cons.mp hm with he | hm2
      · rw [← he, lookupKeyById, if_pos rfl]
      · have hi : r.1 ≠ i := by
          intro hc
          exact hnd.1 (hc ▸ (List.mem_map.mpr ⟨(i, k), hm2, rfl⟩))
        rw [lookupKeyById, if_neg hi]
        exact ih hnd.2 hm2

/-- Helper: the stored count is zero exactly when no junction row matches,
provided all stored counts are positive. -/
theorem getCountById_eq_zero_iff (a : List (Int × Int × Nat)) (ki vi : Int)
    (hpos : ∀ r ∈ a, 1 ≤ r.2.2) :
    getCountById a ki vi = 0 ↔ ∀ r ∈ a, ¬(r.1 = ki ∧ r.2.1 = vi) := by
  induction a with
  | nil => simp [getCountById]
  | cons r rs ih =>
      have hr := hpos r (List.mem_cons_self r rs)
      have hrs : ∀ r ∈ rs, 1 ≤ r.2.2 :=
        fun r hm => hpos r (List.mem_cons_of_mem _ hm)
      by_cases h : r.1 = ki ∧ r.2.1 = vi
      · rw [getCountById, if_pos h]
        constructor
        · intro hc; omega
        · intro hc; exact absurd h (hc r (List.mem_cons_self r rs))
      · rw [getCountById, if_neg h]
        rw [ih hrs]
        constructor
        · intro hc q hq
          rcases List.mem_cons.mp hq with he | hm
          · rw [he]; exact h
          · exact hc q hm
        · intro hc q hq
          exact hc q (List.mem_cons_of_mem r hq)

/-- Helper: junction rows that do not match are transparent to the count
lookup. -/
theorem getCountById_append_no_match (a b : List (Int × Int × Nat))
    (ki vi : Int) (h : ∀ r ∈ a, ¬(r.1 = ki ∧ r.2.1 = vi)) :
    getCountById (a ++ b) ki vi = getCountById b ki vi := by
  induction a with
  | nil => simp
  | cons r rs ih =>
      have hr := h r (List.mem_cons_self r rs)
      rw [List.cons_append, getCountById, if_neg hr]
      exact ih (fun q hq => h q (List.mem_cons_of_mem r hq))

/-- Helper: appending a junction row for a different pair does not change
the count of a pair. -/
theorem getCountById_append_other (a : List (Int × Int × Nat))
    (ki vi : Int) (c : Nat) (ki' vi' : Int)
    (h : ¬(ki' = ki ∧ vi' = vi)) :
    getCountById (a ++ [(ki, vi, c)]) ki' vi' = getCountById a ki' vi' := by
  induction a with
  | nil =>
      simp only [List.nil_append, getCountById]
      exact if_neg (fun hc => h ⟨hc.1.symm, hc.2.symm⟩)
  | cons r rs ih =>
      by_cases hm : r.1 = ki' ∧ r.2.1 = vi'
      · rw [List.cons_append, getCountById, if_pos hm, getCountById, if_pos hm]
      · rw [List.cons_append, getCountById, if_neg hm, getCountById, if_neg hm]
        exact ih

/-- Helper: no junction row carries a fresh key id, so its count is 0. -/
theorem getCountById_zero_of_no_key (a : List (Int × Int × Nat))
    (n vi : Int) (h : ∀ r ∈ a, r.1 ≠ n) : getCountById a n vi = 0 := by
  induction a with
  | nil => rfl
  | cons r rs ih =>
      have hr := h r (List.mem_cons_self r rs)
      rw [getCountById, if_neg (fun hc => hr hc.1)]
      exact ih (fun q hq => h q (List.mem_cons_of_mem r hq))

/-- Helper: no junction row carries a fresh value id, so its count is 0. -/
theorem getCountById_zero_of_no_val (a : List (Int × Int × Nat))
    (ki n : Int) (h : ∀ r ∈ a, r.2.1 ≠ n) : getCountById a ki n = 0 := by
  induction a with
  | nil => rfl
  | cons r rs ih =>
      have hr := h r (List.mem_cons_self r rs)
      rw [getCountById, if_neg (fun hc => hr hc.2)]
      exact ih (fun q hq => h q (List.mem_cons_of_mem r hq))

/-- Helper: the count UPDATE rewrites the count of a matching row. -/
theorem getCountById_setCountById_self (a : List (Int × Int × Nat))
    (ki vi : Int) (c : Nat) (h : ∃ r ∈ a, r.1 = ki ∧ r.2.1 = vi) :
    getCountById (setCountById a ki vi c) ki vi = c := by
  induction a with
  | nil => obtain ⟨r, hr, _⟩ := h; simp at hr
  | cons r rs ih =>
      by_cases hm : r.1 = ki ∧ r.2.1 = vi
      · rw [setCountById, List.map_cons, if_pos hm, getCountById,
          if_pos ⟨rfl, rfl⟩]
      · rw [setCountById, List.map_cons, if_neg hm, getCountById, if_neg hm]
        obtain ⟨q, hq, hqm⟩ := h
        rcases List.mem_cons.mp hq with he | hmem
        · exact absurd (he ▸ hqm) hm
        · exact ih ⟨q, hmem, hqm⟩

/-- Helper: the count UPDATE is transparent to other pairs. -/
theorem getCountById_setCountById_other (a : List (Int × Int × Nat))
    (ki vi : Int) (c : Nat) (ki' vi' : Int)
    (h : ¬(ki' = ki ∧ vi' = vi)) :
    getCountById (setCountById a ki vi c) ki' vi' =
      getCountById a ki' vi' := by
  induction a with
  | nil => rfl
  | cons r rs ih =>
      by_cases hm : r.1 = ki ∧ r.2.1 = vi
      · have hnm : ¬(ki = ki' ∧ vi = vi') := fun hc =>
          h ⟨hc.1.symm, hc.2.symm⟩
        have hrm : ¬(r.1 = ki' ∧ r.2.1 = vi') := by
          rw [hm.1, hm.2]; exact hnm
        rw [setCountById, List.map_cons, if_pos hm, getCountById,
          if_neg hnm, getCountById, if_neg hrm]
        exact ih
      · rw [setCountById, List.map_cons, if_neg hm]
        by_cases hrm : r.1 = ki' ∧ r.2.1 = vi'
        · rw [getCountById, if_pos hrm, getCountById, if_pos hrm]
        · rw [getCountById, if_neg hrm, getCountById, if_neg hrm]
          exact ih

/-- Helper: the count UPDATE is the identity when nothing matches. -/
theorem setCountById_no_match (a : List (Int × Int × Nat)) (ki vi : Int)
    (c : Nat) (h : ∀ r ∈ a, ¬(r.1 = ki ∧ r.2.1 = vi)) :
    setCountById a ki vi c = a := by
  induction a with
  | nil => rfl
  | cons r rs ih =>
      rw [setCountById, List.map_cons,
        if_neg (h r (List.mem_cons_self r rs))]
      have := ih (fun q hq => h q (List.mem_cons_of_mem r hq))
      rw [setCountById] at this
      rw [this]

/-- Helper: under the junction primary key, setting a pair's count to the
value it already has is the identity. -/
theorem setCountById_self_eq (a : List (Int × Int × Nat)) (ki vi : Int)
    (c : Nat) (hnd : (a.map (fun r => (r.1, r.2.1))).Nodup)
    (hc : getCountById a ki vi = c) :
    setCountById a ki vi c = a := by
  induction a with
  | nil => rfl
  | cons r rs ih =>
      rw [List.map_cons, List.nodup_cons] at hnd
      by_cases hm : r.1 = ki ∧ r.2.1 = vi
      · rw [getCountById, if_pos hm] at hc
        have hr : r = (ki, vi, c) := by
          calc r = (r.1, r.2.1, r.2.2) := rfl
          _ = (ki, vi, c) := by rw [hm.1, hm.2, hc]
        have hrest : ∀ q ∈ rs, ¬(q.1 = ki ∧ q.2.1 = vi) := by
          intro q hq hqm
          exact hnd.1 (by
            rw [hm.1, hm.2]
            exact List.mem_map.mpr ⟨q, hq, by rw [hqm.1, hqm.2]⟩)
        rw [setCountById, List.map_cons, if_pos hm]
        have h2 := setCountById_no_match rs ki vi c hrest
        rw [setCountById] at h2
        rw [h2, ← hr]
      · rw [getCountById, if_neg hm] at hc
        rw [setCountById, List.map_cons, if_neg hm]
        have h2 := ih hnd.2 hc
        rw [setCountById] at h2
        rw [h2]

/-- Helper: the count UPDATE leaves the (key_id, value_id) projection of
the junction table unchanged. -/
theorem setCountById_pairs (a : List (Int × Int × Nat)) (ki vi : Int)
    (c : Nat) :
    (setCountById a ki vi c).map (fun r => (r.1, r.2.1)) =
      a.map (fun r => (r.1, r.2.1)) := by
  induction a with
  | nil => rfl
  | cons r rs ih =>
      by_cases hm : r.1 = ki ∧ r.2.1 = vi
      · rw [setCountById, List.map_cons, if_pos hm, List.map_cons,
          List.map_cons]
        have := ih
        rw [setCountById] at this
        rw [this, hm.1, hm.2]
      · rw [setCountById, List.map_cons, if_neg hm, List.map_cons,
          List.map_cons]
        have := ih
        rw [setCountById] at this
        rw [this]

/-- Helper: every row of an updated junction table is an original row or
the freshly written one. -/
theorem mem_setCountById (a : List (Int × Int × Nat)) (ki vi : Int)
    (c : Nat) (r : Int × Int × Nat) (h : r ∈ setCountById a ki vi c) :
    r ∈ a ∨ r = (ki, vi, c) := by
  unfold setCountById at h
  obtain ⟨q, hq, he⟩ := List.mem_map.mp h
  by_cases hm : q.1 = ki ∧ q.2.1 = vi
  · rw [if_pos hm] at he; right; exact he.symm
  · rw [if_neg hm] at he; left; exact he ▸ hq

/-- Helper: membership of an id survives appending rows. -/
theorem memId_append_left {K : Type} [DecidableEq K]
    (t u : List (Int × K)) (i : Int) (h : memId t i = true) :
    memId (t ++ u) i = true := by
  unfold memId at h ⊢
  rw [lookupKeyById_append]
  cases hl : lookupKeyById t i with
  | none => rw [hl] at h; simp at h
  | some k => rfl

/-- Helper: form of db_insert_key when the key is already stored. -/
theorem db_insert_key_present {K V : Type} [DecidableEq K] [DecidableEq V]
    (db : DBState K V) (k : K) (i : Int)
    (h : lookupIdByKey db.keys k = some i) : db_insert_key db k = db := by
  unfold db_insert_key insertIgnore
  rw [h]

/-- Helper: form of db_insert_key when the key is new. -/
theorem db_insert_key_absent {K V : Type} [DecidableEq K] [DecidableEq V]
    (db : DBState K V) (k : K) (h : lookupIdByKey db.keys k = none) :
    db_insert_key db k =
      { db with keys := db.keys ++ [(db.nextKeyId, k)],
                nextKeyId := db.nextKeyId + 1 } := by
  unfold db_insert_key insertIgnore
  rw [h]

/-- Helper: form of db_insert_value when the value is already stored. -/
theorem db_insert_value_present {K V : Type} [DecidableEq K] [DecidableEq V]
    (db : DBState K V) (v : V) (i : Int)
    (h : lookupIdByKey db.vals v = some i) : db_insert_value db v = db := by
  unfold db_insert_value insertIgnore
  rw [h]

/-- Helper: form of db_insert_value when the value is new. -/
theorem db_insert_value_absent {K V : Type} [DecidableEq K] [DecidableEq V]
    (db : DBState K V) (v : V) (h : lookupIdByKey db.vals v = none) :
    db_insert_value db v =
      { db with vals := db.vals ++ [(db.nextValId, v)],
                nextValId := db.nextValId + 1 } := by
  unfold db_insert_value insertIgnore
  rw [h]

/-- Helper: countKV through two successful lookups. -/
theorem countKV_eq_get {K V : Type} [DecidableEq K] [DecidableEq V]
    (db : DBState K V) (k : K) (v : V) (ki vi : Int)
    (hk : lookupIdByKey db.keys k = some ki)
    (hv : lookupIdByKey db.vals v = some vi) :
    countKV db k v = getCountById db.assoc ki vi := by
  unfold countKV
  rw [hk, hv]

/-- Helper: countKV is zero when the key does not resolve. -/
theorem countKV_eq_zero_left {K V : Type} [DecidableEq K] [DecidableEq V]
    (db : DBState K V) (k : K) (v : V)
    (hk : lookupIdByKey db.keys k = none) : countKV db k v = 0 := by
  unfold countKV
  rw [hk]

/-- Helper: countKV is zero when the value does not resolve. -/
theorem countKV_eq_zero_right {K V : Type} [DecidableEq K] [DecidableEq V]
    (db : DBState K V) (k : K) (v : V)
    (hv : lookupIdByKey db.vals v = none) : countKV db k v = 0 := by
  unfold countKV
  rw [hv]
  cases hk : lookupIdByKey db.keys k <;> rfl

/-- Helper: every junction key id is strictly below the key counter. -/
theorem assoc_key_id_lt {K V : Type} [DecidableEq K] [DecidableEq V]
    (db : DBState K V) (hfk : ∀ r ∈ db.assoc, memId db.keys r.1 = true)
    (hkb : ∀ e ∈ db.keys, 1 ≤ e.1 ∧ e.1 < db.nextKeyId) :
    ∀ r ∈ db.assoc, r.1 ≠ db.nextKeyId := by
  intro r hr hc
  have hm := hfk r hr
  unfold memId at hm
  rw [lookupKeyById_isSome_iff] at hm
  obtain ⟨e, he, hei⟩ := List.mem_map.mp hm
  have hb := hkb e he
  rw [hei, hc] at hb
  omega

/-- Helper: every junction value id is strictly below the value counter. -/
theorem assoc_val_id_lt {K V : Type} [DecidableEq K] [DecidableEq V]
    (db : DBState K V) (hfv : ∀ r ∈ db.assoc, memId db.vals r.2.1 = true)
    (hvb : ∀ e ∈ db.vals, 1 ≤ e.1 ∧ e.1 < db.nextValId) :
    ∀ r ∈ db.assoc, r.2.1 ≠ db.nextValId := by
  intro r hr hc
  have hm := hfv r hr
  unfold memId at hm
  rw [lookupKeyById_isSome_iff] at hm
  obtain ⟨e, he, hei⟩ := List.mem_map.mp hm
  have hb := hvb e he
  rw [hei, hc] at hb
  omega

/-- Helper: db_insert_key leaves every stored count unchanged: for a key
already stored nothing changes, and a fresh key row gets an id no
junction row can reference yet. -/
theorem countKV_db_insert_key {K V : Type} [DecidableEq K] [DecidableEq V]
    (db : DBState K V) (k0 k : K) (v : V) (hwf : WF db) :
    countKV (db_insert_key db k0) k v = countKV db k v := by
  obtain ⟨hk1, hk2, hv1, hv2, ha, hfk, hfv, hkb, hvb, hcnt, hnk, hnv⟩ := hwf
  cases h : lookupIdByKey db.keys k0 with
  | some i => rw [db_insert_key_present db k0 i h]
  | none =>
      rw [db_insert_key_absent db k0 h]
      set db2 : DBState K V :=
        { db with keys := db.keys ++ [(db.nextKeyId, k0)],
                  nextKeyId := db.nextKeyId + 1 }
      have hkeys2 : db2.keys = db.keys ++ [(db.nextKeyId, k0)] := rfl
      have hvals2 : db2.vals = db.vals := rfl
      have hassoc2 : db2.assoc = db.assoc := rfl
      by_cases hk : k = k0
      · subst hk
        have hl : lookupIdByKey db2.keys k = some db.nextKeyId := by
          rw [hkeys2, lookupIdByKey_append, h]
          simp [lookupIdByKey]
        rw [countKV_eq_zero_left db k v h]
        cases hv : lookupIdByKey db.vals v with
        | none =>
            exact countKV_eq_zero_right db2 k v (by rw [hvals2]; exact hv)
        | some vi =>
            rw [countKV_eq_get db2 k v db.nextKeyId vi hl
              (by rw [hvals2]; exact hv), hassoc2]
            exact getCountById_zero_of_no_key db.assoc db.nextKeyId vi
              (assoc_key_id_lt db hfk hkb)
      · have hl : lookupIdByKey db2.keys k = lookupIdByKey db.keys k := by
          rw [hkeys2, lookupIdByKey_append]
          cases h2 : lookupIdByKey db.keys k with
          | some i => rfl
          | none =>
              have hk2 : ¬ k0 = k := fun hc => hk hc.symm
              simp [lookupIdByKey, hk2]
        cases h2 : lookupIdByKey db.keys k with
        | none =>
            rw [countKV_eq_zero_left db k v h2]
            exact countKV_eq_zero_left db2 k v (by rw [hl]; exact h2)
        | some ki =>
            cases hv : lookupIdByKey db.vals v with
            | none =>
                rw [countKV_eq_zero_right db k v hv]
                exact countKV_eq_zero_right db2 k v (by rw [hvals2]; exact hv)
            | some vi =>
                rw [countKV_eq_get db2 k v ki vi (by rw [hl]; exact h2)
                  (by rw [hvals2]; exact hv), hassoc2,
                  countKV_eq_get db k v ki vi h2 hv]

/-- Helper: db_insert_value leaves every stored count unchanged. -/
theorem countKV_db_insert_value {K V : Type} [DecidableEq K] [DecidableEq V]
    (db : DBState K V) (v0 : V) (k : K) (v : V) (hwf : WF db) :
    countKV (db_insert_value db v0) k v = countKV db k v := by
  obtain ⟨hk1, hk2, hv1, hv2, ha, hfk, hfv, hkb, hvb, hcnt, hnk, hnv⟩ := hwf
  cases h : lookupIdByKey db.vals v0 with
  | some i => rw [db_insert_value_present db v0 i h]
  | none =>
      rw [db_insert_value_absent db v0 h]
      set db2 : DBState K V :=
        { db with vals := db.vals ++ [(db.nextValId, v0)],
                  nextValId := db.nextValId + 1 }
      have hkeys2 : db2.keys = db.keys := rfl
      have hvals2 : db2.vals = db.vals ++ [(db.nextValId, v0)] := rfl
      have hassoc2 : db2.assoc = db.assoc := rfl
      by_cases hv : v = v0
      · subst hv
        have hl : lookupIdByKey db2.vals v = some db.nextValId := by
          rw [hvals2, lookupIdByKey_append, h]
          simp [lookupIdByKey]
        rw [countKV_eq_zero_right db k v h]
        cases hkk : lookupIdByKey db.keys k with
        | none =>
            exact countKV_eq_zero_left db2 k v (by rw [hkeys2]; exact hkk)
        | some ki =>
            rw [countKV_eq_get db2 k v ki db.nextValId
              (by rw [hkeys2]; exact hkk) hl, hassoc2]
            exact getCountById_zero_of_no_val db.assoc ki db.nextValId
              (assoc_val_id_lt db hfv hvb)
      · have hl : lookupIdByKey db2.vals v = lookupIdByKey db.vals v := by
          rw [hvals2, lookupIdByKey_append]
          cases h2 : lookupIdByKey db.vals v with
          | some i => rfl
          | none =>
              have hv2 : ¬ v0 = v := fun hc => hv hc.symm
              simp [lookupIdByKey, hv2]
        cases h2 : lookupIdByKey db.vals v with
        | none =>
            rw [countKV_eq_zero_right db k v h2]
            exact countKV_eq_zero_right db2 k v (by rw [hl]; exact h2)
        | some vi =>
            cases hkk : lookupIdByKey db.keys k with
            | none =>
                rw [countKV_eq_zero_left db k v hkk]
                exact countKV_eq_zero_left db2 k v (by rw [hkeys2]; exact hkk)
            | some ki =>
                rw [countKV_eq_get db2 k v ki vi (by rw [hkeys2]; exact hkk)
                  (by rw [hl]; exact h2), hassoc2,
                  countKV_eq_get db k v ki vi hkk h2]

/-- Helper: db_insert_key preserves well-formedness. -/
theorem WF_db_insert_key {K V : Type} [DecidableEq K] [DecidableEq V]
    (db : DBState K V) (k : K) (hwf : WF db) : WF (db_insert_key db k) := by
  obtain ⟨hk1, hk2, hv1, hv2, ha, hfk, hfv, hkb, hvb, hcnt, hnk, hnv⟩ := hwf
  cases h : lookupIdByKey db.keys k with
  | some i =>
      rw [db_insert_key_present db k i h]
      exact ⟨hk1, hk2, hv1, hv2, ha, hfk, hfv, hkb, hvb, hcnt, hnk, hnv⟩
  | none =>
      rw [db_insert_key_absent db k h]
      refine ⟨?_, ?_, hv1, hv2, ha, ?_, hfv, ?_, hvb, hcnt, ?_, hnv⟩
      · show (List.map (fun r => r.1)
          (db.keys ++ [(db.nextKeyId, k)])).Nodup
        rw [List.map_append, List.nodup_append]
        refine ⟨hk1, List.nodup_singleton _, ?_⟩
        intro a hma hmb
        obtain ⟨e, he, hei⟩ := List.mem_map.mp hma
        simp only [List.map_cons, List.map_nil, List.mem_singleton] at hmb
        have hb := hkb e he
        rw [hei, hmb] at hb
        omega
      · show (List.map (fun r => r.2)
          (db.keys ++ [(db.nextKeyId, k)])).Nodup
        rw [List.map_append, List.nodup_append]
        refine ⟨hk2, List.nodup_singleton _, ?_⟩
        intro a hma hmb
        simp only [List.map_cons, List.map_nil, List.mem_singleton] at hmb
        rw [hmb] at hma
        exact (lookupIdByKey_eq_none db.keys k).mp h hma
      · intro r hr
        exact memId_append_left db.keys [(db.nextKeyId, k)] r.1 (hfk r hr)
      · intro e he
        rcases List.mem_append.mp he with hm | hm
        · have hb := hkb e hm
          constructor
          · exact hb.1
          · dsimp only
            omega
        · simp only [List.mem_singleton] at hm
          rw [hm]
          constructor
          · exact hnk
          · dsimp only
            omega
      · show (1 : Int) ≤ db.nextKeyId + 1
        omega

/-- Helper: db_insert_value preserves well-formedness. -/
theorem WF_db_insert_value {K V : Type} [DecidableEq K] [DecidableEq V]
    (db : DBState K V) (v : V) (hwf : WF db) : WF (db_insert_value db v) := by
  obtain ⟨hk1, hk2, hv1, hv2, ha, hfk, hfv, hkb, hvb, hcnt, hnk, hnv⟩ := hwf
  cases h : lookupIdByKey db.vals v with
  | some i =>
      rw [db_insert_value_present db v i h]
      exact ⟨hk1, hk2, hv1, hv2, ha, hfk, hfv, hkb, hvb, hcnt, hnk, hnv⟩
  | none =>
      rw [db_insert_value_absent db v h]
      refine ⟨hk1, hk2, ?_, ?_, ha, hfk, ?_, hkb, ?_, hcnt, hnk, ?_⟩
      · show (List.map (fun r => r.1)
          (db.vals ++ [(db.nextValId, v)])).Nodup
        rw [List.map_append, List.nodup_append]
        refine ⟨hv1, List.nodup_singleton _, ?_⟩
        intro a hma hmb
        obtain ⟨e, he, hei⟩ := List.mem_map.mp hma
        simp only [List.map_cons, List.map_nil, List.mem_singleton] at hmb
        have hb := hvb e he
        rw [hei, hmb] at hb
        omega
      · show (List.map (fun r => r.2)
          (db.vals ++ [(db.nextValId, v)])).Nodup
        rw [List.map_append, List.nodup_append]
        refine ⟨hv2, List.nodup_singleton _, ?_⟩
        intro a hma hmb
        simp only [List.map_cons, List.map_nil, List.mem_singleton] at hmb
        rw [hmb] at hma
        exact (lookupIdByKey_eq_none db.vals v).mp h hma
      · intro r hr
        exact memId_append_left db.vals [(db.nextValId, v)] r.2.1 (hfv r hr)
      · intro e he
        rcases List.mem_append.mp he with hm | hm
        · have hb := hvb e hm
          constructor
          · exact hb.1
          · dsimp only
            omega
        · simp only [List.mem_singleton] at hm
          rw [hm]
          constructor
          · exact hnv
          · dsimp only
            omega
      · show (1 : Int) ≤ db.nextValId + 1
        omega

/-- Helper: after the key upsert the key resolves. -/
theorem lookup_insert_key_self {K V : Type} [DecidableEq K] [DecidableEq V]
    (db : DBState K V) (k : K) :
    ∃ i, lookupIdByKey (db_insert_key db k).keys k = some i := by
  cases h : lookupIdByKey db.keys k with
  | some i => exact ⟨i, by rw [db_insert_key_present db k i h]; exact h⟩
  | none =>
      refine ⟨db.nextKeyId, ?_⟩
      rw [db_insert_key_absent db k h]
      show lookupIdByKey (db.keys ++ [(db.nextKeyId, k)]) k =
        some db.nextKeyId
      rw [lookupIdByKey_append, h]
      simp [lookupIdByKey]

/-- Helper: after the value upsert the value resolves. -/
theorem lookup_insert_value_self {K V : Type} [DecidableEq K] [DecidableEq V]
    (db : DBState K V) (v : V) :
    ∃ i, lookupIdByKey (db_insert_value db v).vals v = some i := by
  cases h : lookupIdByKey db.vals v with
  | some i => exact ⟨i, by rw [db_insert_value_present db v i h]; exact h⟩
  | none =>
      refine ⟨db.nextValId, ?_⟩
      rw [db_insert_value_absent db v h]
      show lookupIdByKey (db.vals ++ [(db.nextValId, v)]) v =
        some db.nextValId
      rw [lookupIdByKey_append, h]
      simp [lookupIdByKey]

/-- Helper: a resolved key id sits inside the id bounds. -/
theorem lookup_key_id_bounds {K V : Type} [DecidableEq K] [DecidableEq V]
    (db : DBState K V) (k : K) (i : Int) (hwf : WF db)
    (h : lookupIdByKey db.keys k = some i) : 1 ≤ i ∧ i < db.nextKeyId := by
  obtain ⟨hk1, hk2, hv1, hv2, ha, hfk, hfv, hkb, hvb, hcnt, hnk, hnv⟩ := hwf
  exact hkb (i, k) (lookupIdByKey_mem db.keys k i h)

/-- Helper: a resolved value id sits inside the id bounds. -/
theorem lookup_val_id_bounds {K V : Type} [DecidableEq K] [DecidableEq V]
    (db : DBState K V) (v : V) (i : Int) (hwf : WF db)
    (h : lookupIdByKey db.vals v = some i) : 1 ≤ i ∧ i < db.nextValId := by
  obtain ⟨hk1, hk2, hv1, hv2, ha, hfk, hfv, hkb, hvb, hcnt, hnk, hnv⟩ := hwf
  exact hvb (i, v) (lookupIdByKey_mem db.vals v i h)

/-- Helper: a non-zero stored count exhibits a matching junction row. -/
theorem getCountById_ne_zero_match (a : List (Int × Int × Nat)) (ki vi : Int)
    (h : getCountById a ki vi ≠ 0) :
    ∃ r ∈ a, r.1 = ki ∧ r.2.1 = vi := by
  induction a with
  | nil => exact absurd rfl h
  | cons r rs ih =>
      by_cases hm : r.1 = ki ∧ r.2.1 = vi
      · exact ⟨r, List.mem_cons_self r rs, hm⟩
      · rw [getCountById, if_neg hm] at h
        obtain ⟨q, hq, hqm⟩ := ih h
        exact ⟨q, List.mem_cons_of_mem r hq, hqm⟩

/-- Helper: a resolved id occurs in the id column. -/
theorem memId_of_lookup {K : Type} [DecidableEq K]
    (t : List (Int × K)) (k : K) (i : Int)
    (h : lookupIdByKey t k = some i) : memId t i = true := by
  unfold memId
  rw [lookupKeyById_isSome_iff]
  exact List.mem_map.mpr ⟨(i, k), lookupIdByKey_mem t k i h, rfl⟩

/-- Helper: inserting a junction row for resolved ids of an absent pair
preserves well-formedness. -/
theorem WF_db_insert_key_value {K V : Type} [DecidableEq K] [DecidableEq V]
    (db : DBState K V) (k0 : K) (v0 : V) (ki vi : Int) (hwf : WF db)
    (hk0 : lookupIdByKey db.keys k0 = some ki)
    (hv0 : lookupIdByKey db.vals v0 = some vi)
    (hz : getCountById db.assoc ki vi = 0) :
    WF (db_insert_key_value db ki vi) := by
  obtain ⟨hk1, hk2, hv1, hv2, ha, hfk, hfv, hkb, hvb, hcnt, hnk, hnv⟩ := hwf
  refine ⟨hk1, hk2, hv1, hv2, ?_, ?_, ?_, hkb, hvb, ?_, hnk, hnv⟩
  · show (List.map (fun r => (r.1, r.2.1))
      (db.assoc ++ [(ki, vi, 1)])).Nodup
    rw [List.map_append, List.nodup_append]
    refine ⟨ha, List.nodup_singleton _, ?_⟩
    intro a hma hmb
    simp only [List.map_cons, List.map_nil, List.mem_singleton] at hmb
    obtain ⟨r, hr, hpair⟩ := List.mem_map.mp hma
    have hnm := (getCountById_eq_zero_iff db.assoc ki vi hcnt).mp hz r hr
    rw [hmb] at hpair
    exact hnm ⟨congrArg Prod.fst hpair, congrArg Prod.snd hpair⟩
  · intro r hr
    rcases List.mem_append.mp hr with hm | hm
    · exact hfk r hm
    · simp only [List.mem_singleton] at hm
      rw [hm]
      exact memId_of_lookup db.keys k0 ki hk0
  · intro r hr
    rcases List.mem_append.mp hr with hm | hm
    · exact hfv r hm
    · simp only [List.mem_singleton] at hm
      rw [hm]
      exact memId_of_lookup db.vals v0 vi hv0
  · intro r hr
    rcases List.mem_append.mp hr with hm | hm
    · exact hcnt r hm
    · simp only [List.mem_singleton] at hm
      rw [hm]

/-- Helper: updating a count to a positive value preserves
well-formedness. -/
theorem WF_db_set_value_count {K V : Type} [DecidableEq K] [DecidableEq V]
    (db : DBState K V) (k0 : K) (v0 : V) (ki vi : Int) (c : Nat)
    (hwf : WF db)
    (hk0 : lookupIdByKey db.keys k0 = some ki)
    (hv0 : lookupIdByKey db.vals v0 = some vi)
    (hc : 1 ≤ c) :
    WF (db_set_value_count db ki vi c) := by
  obtain ⟨hk1, hk2, hv1, hv2, ha, hfk, hfv, hkb, hvb, hcnt, hnk, hnv⟩ := hwf
  refine ⟨hk1, hk2, hv1, hv2, ?_, ?_, ?_, hkb, hvb, ?_, hnk, hnv⟩
  · show (List.map (fun r => (r.1, r.2.1))
      (setCountById db.assoc ki vi c)).Nodup
    rw [setCountById_pairs]
    exact ha
  · intro r hr
    rcases mem_setCountById db.assoc ki vi c r hr with hm | hm
    · exact hfk r hm
    · rw [hm]
      exact memId_of_lookup db.keys k0 ki hk0
  · intro r hr
    rcases mem_setCountById db.assoc ki vi c r hr with hm | hm
    · exact hfv r hm
    · rw [hm]
      exact memId_of_lookup db.vals v0 vi hv0
  · intro r hr
    rcases mem_setCountById db.assoc ki vi c r hr with hm | hm
    · exact hcnt r hm
    · rw [hm]
      exact hc

/-- Helper: inserting a junction row with the DEFAULT count of 1 adds
exactly one occurrence of its pair and nothing else. -/
theorem countKV_db_insert_key_value {K V : Type} [DecidableEq K]
    [DecidableEq V] (db : DBState K V) (k0 : K) (v0 : V) (k : K) (v : V)
    (ki vi : Int) (hwf : WF db)
    (hk0 : lookupIdByKey db.keys k0 = some ki)
    (hv0 : lookupIdByKey db.vals v0 = some vi)
    (hz : getCountById db.assoc ki vi = 0) :
    countKV (db_insert_key_value db ki vi) k v =
      countKV db k v + (if k = k0 ∧ v = v0 then 1 else 0) := by
  obtain ⟨hk1, hk2, hv1, hv2, ha, hfk, hfv, hkb, hvb, hcnt, hnk, hnv⟩ := hwf
  by_cases hkv : k = k0 ∧ v = v0
  · obtain ⟨h1, h2⟩ := hkv
    subst h1
    subst h2
    rw [if_pos ⟨rfl, rfl⟩]
    rw [countKV_eq_get db k v ki vi hk0 hv0, hz]
    rw [countKV_eq_get (db_insert_key_value db ki vi) k v ki vi hk0 hv0]
    show getCountById (db.assoc ++ [(ki, vi, 1)]) ki vi = 0 + 1
    rw [getCountById_append_no_match db.assoc _ ki vi
      ((getCountById_eq_zero_iff db.assoc ki vi hcnt).mp hz)]
    simp [getCountById]
  · rw [if_neg hkv, Nat.add_zero]
    cases hk : lookupIdByKey db.keys k with
    | none =>
        rw [countKV_eq_zero_left db k v hk,
          countKV_eq_zero_left (db_insert_key_value db ki vi) k v hk]
    | some ki' =>
        cases hv : lookupIdByKey db.vals v with
        | none =>
            rw [countKV_eq_zero_right db k v hv,
              countKV_eq_zero_right (db_insert_key_value db ki vi) k v hv]
        | some vi' =>
            rw [countKV_eq_get db k v ki' vi' hk hv,
              countKV_eq_get (db_insert_key_value db ki vi) k v ki' vi' hk hv]
            show getCountById (db.assoc ++ [(ki, vi, 1)]) ki' vi' =
              getCountById db.assoc ki' vi'
            apply getCountById_append_other
            intro hc
            exact hkv ⟨lookupIdByKey_inj db.keys k k0 ki hk1
                (hc.1 ▸ hk) hk0,
              lookupIdByKey_inj db.vals v v0 vi hv1 (hc.2 ▸ hv) hv0⟩

/-- Helper: the count UPDATE for resolved ids of a present pair rewrites
exactly that pair's count. -/
theorem countKV_db_set_value_count {K V : Type} [DecidableEq K]
    [DecidableEq V] (db : DBState K V) (k0 : K) (v0 : V) (k : K) (v : V)
    (ki vi : Int) (c : Nat) (hwf : WF db)
    (hk0 : lookupIdByKey db.keys k0 = some ki)
    (hv0 : lookupIdByKey db.vals v0 = some vi)
    (hex : ∃ r ∈ db.assoc, r.1 = ki ∧ r.2.1 = vi) :
    countKV (db_set_value_count db ki vi c) k v =
      if k = k0 ∧ v = v0 then c else countKV db k v := by
  obtain ⟨hk1, hk2, hv1, hv2, ha, hfk, hfv, hkb, hvb, hcnt, hnk, hnv⟩ := hwf
  by_cases hkv : k = k0 ∧ v = v0
  · obtain ⟨h1, h2⟩ := hkv
    subst h1
    subst h2
    rw [if_pos ⟨rfl, rfl⟩]
    rw [countKV_eq_get (db_set_value_count db ki vi c) k v ki vi hk0 hv0]
    show getCountById (setCountById db.assoc ki vi c) ki vi = c
    exact getCountById_setCountById_self db.assoc ki vi c hex
  · rw [if_neg hkv]
    cases hk : lookupIdByKey db.keys k with
    | none =>
        rw [countKV_eq_zero_left db k v hk,
          countKV_eq_zero_left (db_set_value_count db ki vi c) k v hk]
    | some ki' =>
        cases hv : lookupIdByKey db.vals v with
        | none =>
            rw [countKV_eq_zero_right db k v hv,
              countKV_eq_zero_right (db_set_value_count db ki vi c) k v hv]
        | some vi' =>
            rw [countKV_eq_get db k v ki' vi' hk hv,
              countKV_eq_get (db_set_value_count db ki vi c) k v ki' vi'
                hk hv]
            show getCountById (setCountById db.assoc ki vi c) ki' vi' =
              getCountById db.assoc ki' vi'
            apply getCountById_setCountById_other
            intro hc
            exact hkv ⟨lookupIdByKey_inj db.keys k k0 ki hk1
                (hc.1 ▸ hk) hk0,
              lookupIdByKey_inj db.vals v v0 vi hv1 (hc.2 ▸ hv) hv0⟩

/-- Helper: the key upsert only ever grows the key column. -/
theorem keySetOf_insert_key_mono {K V : Type} [DecidableEq K]
    [DecidableEq V] (db : DBState K V) (k0 k : K)
    (h : k ∈ keySetOf db) : k ∈ keySetOf (db_insert_key db k0) := by
  cases hl : lookupIdByKey db.keys k0 with
  | some i => rw [db_insert_key_present db k0 i hl]; exact h
  | none =>
      rw [db_insert_key_absent db k0 hl]
      show k ∈ (db.keys ++ [(db.nextKeyId, k0)]).map (fun r => r.2)
      rw [List.map_append]
      exact List.mem_append_left _ h

/-- Helper: the value upsert only ever grows the value column. -/
theorem valSetOf_insert_value_mono {K V : Type} [DecidableEq K]
    [DecidableEq V] (db : DBState K V) (v0 v : V)
    (h : v ∈ valSetOf db) : v ∈ valSetOf (db_insert_value db v0) := by
  cases hl : lookupIdByKey db.vals v0 with
  | some i => rw [db_insert_value_present db v0 i hl]; exact h
  | none =>
      rw [db_insert_value_absent db v0 hl]
      show v ∈ (db.vals ++ [(db.nextValId, v0)]).map (fun r => r.2)
      rw [List.map_append]
      exact List.mem_append_left _ h

/-- Helper: pair multiplicity in a cons source. -/
theorem multPair_cons {K V : Type} [DecidableEq K] [DecidableEq V]
    (p : K × V) (S : List (K × V)) (k : K) (v : V) :
    multPair (p :: S) k v =
      (if p.1 = k ∧ p.2 = v then 1 else 0) + multPair S k v := by
  unfold multPair
  rw [List.filter_cons]
  by_cases h : p.1 = k ∧ p.2 = v
  · simp [h, Nat.add_comm]
  · simp [h]

/-- Helper: the pair upsert preserves well-formedness. -/
theorem WF_upsertPair {K V : Type} [DecidableEq K] [DecidableEq V]
    (db : DBState K V) (p : K × V) (hwf : WF db) : WF (upsertPair db p) :=
  WF_db_insert_value (db_insert_key db p.1) p.2
    (WF_db_insert_key db p.1 hwf)

/-- Helper: the pair upsert changes no stored count. -/
theorem countKV_upsertPair {K V : Type} [DecidableEq K] [DecidableEq V]
    (db : DBState K V) (p : K × V) (k : K) (v : V) (hwf : WF db) :
    countKV (upsertPair db p) k v = countKV db k v := by
  unfold upsertPair
  rw [countKV_db_insert_value (db_insert_key db p.1) p.2 k v
    (WF_db_insert_key db p.1 hwf)]
  exact countKV_db_insert_key db p.1 k v hwf

/-- Helper: after the pair upsert its key resolves. -/
theorem lookup_upsertPair_key {K V : Type} [DecidableEq K] [DecidableEq V]
    (db : DBState K V) (p : K × V) :
    ∃ i, lookupIdByKey (upsertPair db p).keys p.1 = some i := by
  obtain ⟨i, hi⟩ := lookup_insert_key_self db p.1
  exact ⟨i, hi⟩

/-- Helper: after the pair upsert its value resolves. -/
theorem lookup_upsertPair_val {K V : Type} [DecidableEq K] [DecidableEq V]
    (db : DBState K V) (p : K × V) :
    ∃ i, lookupIdByKey (upsertPair db p).vals p.2 = some i :=
  lookup_insert_value_self (db_insert_key db p.1) p.2

/-- Helper: one db_append loop body is well-formed-preserving, adds
exactly one occurrence of its pair to the stored counts, and removes no
key or value row. -/
theorem db_append_step_spec {K V : Type} [DecidableEq K] [DecidableEq V]
    (db : DBState K V) (p : K × V) (hwf : WF db) :
    WF (db_append_step (noFaults K V) db p) ∧
    (∀ k v, countKV (db_append_step (noFaults K V) db p) k v =
      countKV db k v + (if p.1 = k ∧ p.2 = v then 1 else 0)) ∧
    (∀ k, k ∈ keySetOf db →
      k ∈ keySetOf (db_append_step (noFaults K V) db p)) ∧
    (∀ v, v ∈ valSetOf db →
      v ∈ valSetOf (db_append_step (noFaults K V) db p)) := by
  have hwf1 : WF (upsertPair db p) := WF_upsertPair db p hwf
  obtain ⟨ki, hki⟩ := lookup_upsertPair_key db p
  obtain ⟨vi, hvi⟩ := lookup_upsertPair_val db p
  have hkib := lookup_key_id_bounds (upsertPair db p) p.1 ki hwf1 hki
  have hvib := lookup_val_id_bounds (upsertPair db p) p.2 vi hwf1 hvi
  have e1 : db_get_key_id (noFaults K V) (upsertPair db p) p.1 = ki := by
    simp [db_get_key_id, noFaults, hki]
  have e2 : db_get_value_id (noFaults K V) (upsertPair db p) p.2 = vi := by
    simp [db_get_value_id, noFaults, hvi]
  have hkiN : ¬(ki = -1) := by omega
  have hviN : ¬(vi = -1) := by omega
  have hstep : db_append_step (noFaults K V) db p =
      (if db_get_value_count (upsertPair db p) ki vi ≠ 0
       then db_set_value_count (upsertPair db p) ki vi
         (db_get_value_count (upsertPair db p) ki vi + 1)
       else db_insert_key_value (upsertPair db p) ki vi) := by
    simp only [db_append_step]
    rw [e1, if_neg hkiN, e2, if_neg hviN]
  have hcc : ∀ k v, countKV (upsertPair db p) k v = countKV db k v :=
    fun k v => countKV_upsertPair db p k v hwf
  have hkeyset : ∀ k, k ∈ keySetOf db → k ∈ keySetOf (upsertPair db p) :=
    fun k hk => keySetOf_insert_key_mono db p.1 k hk
  have hvalset : ∀ v, v ∈ valSetOf db → v ∈ valSetOf (upsertPair db p) :=
    fun v hv => valSetOf_insert_value_mono (db_insert_key db p.1) p.2 v hv
  rw [hstep]
  by_cases hc : db_get_value_count (upsertPair db p) ki vi ≠ 0
  · rw [if_pos hc]
    have hex := getCountById_ne_zero_match (upsertPair db p).assoc ki vi hc
    refine ⟨?_, ?_, ?_, ?_⟩
    · exact WF_db_set_value_count (upsertPair db p) p.1 p.2 ki vi _ hwf1
        hki hvi (by omega)
    · intro k v
      rw [countKV_db_set_value_count (upsertPair db p) p.1 p.2 k v ki vi _
        hwf1 hki hvi hex]
      by_cases hkv : k = p.1 ∧ v = p.2
      · obtain ⟨hek, hev⟩ := hkv
        rw [hek, hev]
        rw [if_pos ⟨rfl, rfl⟩, if_pos ⟨rfl, rfl⟩]
        have h1 : countKV (upsertPair db p) p.1 p.2 =
            db_get_value_count (upsertPair db p) ki vi :=
          countKV_eq_get (upsertPair db p) p.1 p.2 ki vi hki hvi
        rw [← h1, hcc p.1 p.2]
      · rw [if_neg hkv,
          if_neg (fun hcc2 => hkv ⟨hcc2.1.symm, hcc2.2.symm⟩),
          Nat.add_zero]
        exact hcc k v
    · intro k hk
      exact hkeyset k hk
    · intro v hv
      exact hvalset v hv
  · rw [if_neg hc]
    have hz : db_get_value_count (upsertPair db p) ki vi = 0 :=
      not_not.mp hc
    refine ⟨?_, ?_, ?_, ?_⟩
    · exact WF_db_insert_key_value (upsertPair db p) p.1 p.2 ki vi hwf1
        hki hvi hz
    · intro k v
      rw [countKV_db_insert_key_value (upsertPair db p) p.1 p.2 k v ki vi
        hwf1 hki hvi hz, hcc k v]
      by_cases hkv : k = p.1 ∧ v = p.2
      · rw [if_pos hkv, if_pos ⟨hkv.1.symm, hkv.2.symm⟩]
      · rw [if_neg hkv,
          if_neg (fun hcc2 => hkv ⟨hcc2.1.symm, hcc2.2.symm⟩)]
    · intro k hk
      exact hkeyset k hk
    · intro v hv
      exact hvalset v hv

/-- Helper: db_append over a whole source is well-formed-preserving, adds
the source multiplicity to every stored count, and removes no key or
value row. -/
theorem db_append_flat_spec {K V : Type} [DecidableEq K] [DecidableEq V]
    (S : List (K × V)) (db : DBState K V) (hwf : WF db) :
    WF (db_append_flat (noFaults K V) S db) ∧
    (∀ k v, countKV (db_append_flat (noFaults K V) S db) k v =
      countKV db k v + multPair S k v) ∧
    (∀ k, k ∈ keySetOf db →
      k ∈ keySetOf (db_append_flat (noFaults K V) S db)) ∧
    (∀ v, v ∈ valSetOf db →
      v ∈ valSetOf (db_append_flat (noFaults K V) S db)) := by
  induction S generalizing db with
  | nil =>
      refine ⟨hwf, ?_, fun k h => h, fun v h => h⟩
      intro k v
      simp [db_append_flat, multPair]
  | cons p ps ih =>
      obtain ⟨hwfs, hcs, hks, hvs⟩ := db_append_step_spec db p hwf
      obtain ⟨hwfr, hcr, hkr, hvr⟩ := ih (db_append_step (noFaults K V) db p) hwfs
      refine ⟨hwfr, ?_, ?_, ?_⟩
      · intro k v
        show countKV (db_append_flat (noFaults K V) ps
          (db_append_step (noFaults K V) db p)) k v = _
        rw [hcr k v, hcs k v, multPair_cons]
        omega
      · intro k hk
        exact hkr k (hks k hk)
      · intro v hv
        exact hvr v (hvs v hv)

/-- Helper: the association-insert phase of the flat reconcile overload
throws as soon as any source pair's key or value lookup faults. -/
theorem assocInsertFlat_isErr_of_fault {K V : Type} [DecidableEq K]
    [DecidableEq V] (f : Faults K V) (S : List (K × V)) (db : DBState K V)
    (h : ∃ p ∈ S, f.failKey p.1 = true ∨ f.failVal p.2 = true) :
    isErr (assocInsertFlat f S db) = true := by
  induction S generalizing db with
  | nil => obtain ⟨p, hp, _⟩ := h; exact absurd hp (List.not_mem_nil p)
  | cons q ps ih =>
      by_cases hk : db_get_key_id f db q.1 = -1
      · simp [assocInsertFlat, hk, isErr]
      · by_cases hv : db_get_value_id f db q.2 = -1
        · simp [assocInsertFlat, hk, hv, isErr]
        · have hqk : f.failKey q.1 = false := by
            by_contra hc
            exact hk (by simp [db_get_key_id,
              eq_true_of_ne_false fun hh => hc hh])
          have hqv : f.failVal q.2 = false := by
            by_contra hc
            exact hv (by simp [db_get_value_id,
              eq_true_of_ne_false fun hh => hc hh])
          obtain ⟨p, hp, hf⟩ := h
          rcases List.mem_cons.mp hp with hpq | hps
          · subst hpq
            rcases hf with hf | hf
            · rw [hqk] at hf; exact absurd hf (by simp)
            · rw [hqv] at hf; exact absurd hf (by simp)
          · simp only [assocInsertFlat, hk, hv, if_false]
            exact ih _ ⟨p, hps, hf⟩

/-- C3 amended: in the flat-pair db_reconcile overload a key-id or
value-id lookup that reports not-found for a pair of the source is fatal:
the reconcile throws, the pair is not skipped.  (In the map-of-collections
overload, and in the count-set phase of both overloads, the same
situation is silently skipped with continue.) -/
theorem reconcile_flat_lookup_fault_throws {K V : Type} [DecidableEq K]
    [DecidableEq V] (f : Faults K V) (S : List (K × V)) (db : DBState K V)
    (h : ∃ p ∈ S, f.failKey p.1 = true ∨ f.failVal p.2 = true) :
    isErr (db_reconcile_flat f S db) = true := by
  unfold db_reconcile_flat
  have h2 := assocInsertFlat_isErr_of_fault f S
    (insertFreq (buildFreq S) (db_clear_temp_tables db)) h
  cases he : assocInsertFlat f S
      (insertFreq (buildFreq S) (db_clear_temp_tables db)) with
  | error d => simp [he, isErr]
  | ok d => rw [he] at h2; simp [isErr] at h2

/-- C3 amended witness: key 1 of the single source pair faults, and the
flat reconcile indeed ends in a throw. -/
theorem reconcile_flat_lookup_fault_throws_witness :
    (∃ p ∈ ([(1, 10)] : List (Nat × Nat)),
      faultKey1.failKey p.1 = true ∨ faultKey1.failVal p.2 = true) ∧
    isErr (db_reconcile_flat faultKey1 [(1, 10)] (emptyDB Nat Nat)) = true :=
  ⟨by decide,
   reconcile_flat_lookup_fault_throws faultKey1 [(1, 10)]
     (emptyDB Nat Nat) (by decide)⟩

/-- Helper: a fold that only ever appends to its accumulator factors as
the initial accumulator followed by the fold started from nil. -/
theorem foldl_append_shift {α β : Type} (g : β → List α) (rows : List β)
    (c : List α) :
    rows.foldl (fun acc r => acc ++ g r) c =
      c ++ rows.foldl (fun acc r => acc ++ g r) [] := by
  induction rows generalizing c with
  | nil => simp
  | cons r rows ih =>
      simp only [List.foldl_cons]
      rw [ih (c ++ g r), ih ([] ++ g r), List.nil_append, List.append_assoc]

/-- C9: db_load appends into the caller's container without clearing it:
loading into c yields c followed by exactly the pairs loaded into an
empty container (each read-back row replicated value_count times), so
every element held before the call is still present after it. -/
theorem db_load_flat_appends {K V : Type} [DecidableEq K] [DecidableEq V]
    (db : DBState K V) (c : List (K × V)) :
    db_load_flat db c = c ++ db_load_flat db [] := by
  unfold db_load_flat
  exact foldl_append_shift _ (readAll db) c

/-- Helper: when every row carries a positive count, the expansion of the
rows into an empty container is empty exactly when there are no rows. -/
theorem expandRows_nil_iff {V : Type} (rows : List (V × Nat))
    (hpos : ∀ r ∈ rows, 1 ≤ r.2) :
    (expandRows rows [] = [] ↔ rows = []) := by
  cases rows with
  | nil => simp [expandRows]
  | cons r rs =>
      constructor
      · intro h
        unfold expandRows at h
        rw [List.foldl_cons, foldl_append_shift, List.nil_append] at h
        have hr := hpos r (List.mem_cons_self r rs)
        have hlen := congrArg List.length h
        rw [List.length_append, List.length_replicate] at hlen
        simp only [List.length_nil] at hlen
        omega
      · intro h; exact absurd h (by simp)

/-- Helper: when every junction row's value id resolves, the find join
for a key produces no row exactly when the key has no association. -/
theorem findRows_nil_iff {K V : Type} [DecidableEq K] [DecidableEq V]
    (db : DBState K V) (k : K)
    (hfk : ∀ r ∈ db.assoc, memId db.vals r.2.1 = true) :
    (findRows db k = [] ↔ hasAssocB db k = false) := by
  unfold findRows hasAssocB
  rw [List.filterMap_eq_nil_iff, List.any_eq_false]
  constructor
  · intro h r hr
    have hv := hfk r hr
    unfold memId at hv
    obtain ⟨v, hv⟩ := Option.isSome_iff_exists.mp hv
    have h2 := h r hr
    by_contra hc
    have hk2 : lookupKeyById db.keys r.1 = some k := by
      simpa using hc
    rw [hk2, hv] at h2
    simp at h2
  · intro h r hr
    have h2 := h r hr
    cases hk2 : lookupKeyById db.keys r.1 with
    | none => cases hv : lookupKeyById db.vals r.2.1 <;> rfl
    | some k2 =>
        cases hv : lookupKeyById db.vals r.2.1 with
        | none => rfl
        | some v =>
            have : ¬ k2 = k := by
              intro he
              rw [hk2, he] at h2
              simp at h2
            simp [this]

/-- Helper: counts in the find join come from junction rows, so they are
positive whenever all stored counts are. -/
theorem findRows_pos {K V : Type} [DecidableEq K] [DecidableEq V]
    (db : DBState K V) (k : K)
    (hpos : ∀ r ∈ db.assoc, 1 ≤ r.2.2) :
    ∀ p ∈ findRows db k, 1 ≤ p.2 := by
  intro p hp
  unfold findRows at hp
  obtain ⟨r, hr, hf⟩ := List.mem_filterMap.mp hp
  split at hf
  · split at hf
    · have hp2 := Option.some.inj hf
      rw [← hp2]
      exact hpos r hr
    · exact absurd hf (by simp)
  · exact absurd hf (by simp)

/-- C10: db_find returns the emptiness test of the output container after
appending: the flag is true iff the container ends up non-empty, with an
initially empty container it is true exactly when the key has at least
one association, and with an initially non-empty container it is true
even when the key is absent. -/
theorem db_find_returns_nonempty {K V : Type} [DecidableEq K]
    [DecidableEq V] (db : DBState K V) (k : K) (c : List V)
    (hpos : ∀ r ∈ db.assoc, 1 ≤ r.2.2)
    (hfk : ∀ r ∈ db.assoc, memId db.vals r.2.1 = true) :
    ((db_find db k c).2 = true ↔ (db_find db k c).1 ≠ []) ∧
    (c = [] → ((db_find db k c).2 = true ↔ hasAssocB db k = true)) ∧
    (c ≠ [] → (db_find db k c).2 = true) := by
  have hfst : (db_find db k c).1 = c ++ expandRows (findRows db k) [] := by
    unfold db_find expandRows
    exact foldl_append_shift _ (findRows db k) c
  have hsnd : (db_find db k c).2 = !(db_find db k c).1.isEmpty := rfl
  have hbool : ((db_find db k c).2 = true ↔ (db_find db k c).1 ≠ []) := by
    rw [hsnd, Bool.not_eq_true', List.isEmpty_eq_false]
  refine ⟨hbool, ?_, ?_⟩
  · intro hc
    subst hc
    rw [hbool, hfst, List.nil_append]
    constructor
    · intro h
      by_contra hna
      have hrows : findRows db k = [] :=
        (findRows_nil_iff db k hfk).mpr (by
          cases hx : hasAssocB db k with
          | false => rfl
          | true => exact absurd hx hna)
      rw [hrows] at h
      exact h rfl
    · intro h hnil
      have := (expandRows_nil_iff (findRows db k)
        (findRows_pos db k hpos)).mp hnil
      rw [(findRows_nil_iff db k hfk).mp this] at h
      simp at h
  · intro hc
    rw [hbool, hfst]
    intro h
    exact hc (List.append_eq_nil.mp h).1

/-- C10 witness: on a database with one association for key 1 and an
empty input container, the find flag is true. -/
theorem db_find_returns_nonempty_witness :
    (∀ r ∈ c10DB.assoc, 1 ≤ r.2.2) ∧
    (∀ r ∈ c10DB.assoc, memId c10DB.vals r.2.1 = true) ∧
    (((db_find c10DB 1 []).2 = true ↔ (db_find c10DB 1 []).1 ≠ []) ∧
     (([] : List Nat) = [] →
       ((db_find c10DB 1 []).2 = true ↔ hasAssocB c10DB 1 = true)) ∧
     (([] : List Nat) ≠ [] → (db_find c10DB 1 []).2 = true)) :=
  ⟨by decide, by decide,
   db_find_returns_nonempty c10DB 1 [] (by decide) (by decide)⟩

/-- Helper: the temp-key insert touches only the temp keys table. -/
theorem db_insert_key_temp_fields {K V : Type} [DecidableEq K]
    [DecidableEq V] (db : DBState K V) (k : K) :
    (db_insert_key_temp db k).keys = db.keys ∧
    (db_insert_key_temp db k).vals = db.vals ∧
    (db_insert_key_temp db k).assoc = db.assoc ∧
    (db_insert_key_temp db k).tempVals = db.tempVals ∧
    (db_insert_key_temp db k).nextKeyId = db.nextKeyId ∧
    (db_insert_key_temp db k).nextValId = db.nextValId := by
  unfold db_insert_key_temp
  split <;> exact ⟨rfl, rfl, rfl, rfl, rfl, rfl⟩

/-- Helper: the temp-value insert touches only the temp values table. -/
theorem db_insert_value_temp_fields {K V : Type} [DecidableEq K]
    [DecidableEq V] (db : DBState K V) (v : V) :
    (db_insert_value_temp db v).keys = db.keys ∧
    (db_insert_value_temp db v).vals = db.vals ∧
    (db_insert_value_temp db v).assoc = db.assoc ∧
    (db_insert_value_temp db v).tempKeys = db.tempKeys ∧
    (db_insert_value_temp db v).nextKeyId = db.nextKeyId ∧
    (db_insert_value_temp db v).nextValId = db.nextValId := by
  unfold db_insert_value_temp
  split <;> exact ⟨rfl, rfl, rfl, rfl, rfl, rfl⟩

/-- Helper: membership in the temp keys table after a temp-key insert. -/
theorem db_insert_key_temp_mem {K V : Type} [DecidableEq K] [DecidableEq V]
    (db : DBState K V) (k k' : K) :
    k' ∈ (db_insert_key_temp db k).tempKeys ↔
      k' ∈ db.tempKeys ∨ k' = k := by
  unfold db_insert_key_temp
  split
  · constructor
    · exact fun h => Or.inl h
    · intro h
      rcases h with h | h
      · exact h
      · rw [h]; assumption
  · show k' ∈ db.tempKeys ++ [k] ↔ _
    rw [List.mem_append, List.mem_singleton]

/-- Helper: membership in the temp values table after a temp-value
insert. -/
theorem db_insert_value_temp_mem {K V : Type} [DecidableEq K]
    [DecidableEq V] (db : DBState K V) (v v' : V) :
    v' ∈ (db_insert_value_temp db v).tempVals ↔
      v' ∈ db.tempVals ∨ v' = v := by
  unfold db_insert_value_temp
  split
  · constructor
    · exact fun h => Or.inl h
    · intro h
      rcases h with h | h
      · exact h
      · rw [h]; assumption
  · show v' ∈ db.tempVals ++ [v] ↔ _
    rw [List.mem_append, List.mem_singleton]

/-- Helper: membership in the value column after a value upsert. -/
theorem db_insert_value_mem {K V : Type} [DecidableEq K] [DecidableEq V]
    (db : DBState K V) (v v' : V) :
    v' ∈ valSetOf (db_insert_value db v) ↔ v' ∈ valSetOf db ∨ v' = v := by
  cases h : lookupIdByKey db.vals v with
  | some i =>
      rw [db_insert_value_present db v i h]
      constructor
      · exact fun hm => Or.inl hm
      · intro hm
        rcases hm with hm | hm
        · exact hm
        · rw [hm]
          exact List.mem_map.mpr ⟨(i, v), lookupIdByKey_mem db.vals v i h, rfl⟩
  | none =>
      rw [db_insert_value_absent db v h]
      show v' ∈ (db.vals ++ [(db.nextValId, v)]).map (fun r => r.2) ↔
        v' ∈ db.vals.map (fun r => r.2) ∨ v' = v
      rw [List.map_append, List.mem_append]
      simp

/-- Helper: membership in the key column after a key upsert. -/
theorem db_insert_key_mem {K V : Type} [DecidableEq K] [DecidableEq V]
    (db : DBState K V) (k k' : K) :
    k' ∈ keySetOf (db_insert_key db k) ↔ k' ∈ keySetOf db ∨ k' = k := by
  cases h : lookupIdByKey db.keys k with
  | some i =>
      rw [db_insert_key_present db k i h]
      constructor
      · exact fun hm => Or.inl hm
      · intro hm
        rcases hm with hm | hm
        · exact hm
        · rw [hm]
          exact List.mem_map.mpr ⟨(i, k), lookupIdByKey_mem db.keys k i h, rfl⟩
  | none =>
      rw [db_insert_key_absent db k h]
      show k' ∈ (db.keys ++ [(db.nextKeyId, k)]).map (fun r => r.2) ↔
        k' ∈ db.keys.map (fun r => r.2) ∨ k' = k
      rw [List.map_append, List.mem_append]
      simp

/-- Helper: the value upsert phase of one frequency entry changes only
the values and temp values tables and the value counter. -/
theorem insertValuesPhase_fields {K V : Type} [DecidableEq K]
    [DecidableEq V] (vs : List (V × Nat)) (db : DBState K V) :
    (insertValuesPhase db vs).keys = db.keys ∧
    (insertValuesPhase db vs).assoc = db.assoc ∧
    (insertValuesPhase db vs).tempKeys = db.tempKeys ∧
    (insertValuesPhase db vs).nextKeyId = db.nextKeyId := by
  induction vs generalizing db with
  | nil => exact ⟨rfl, rfl, rfl, rfl⟩
  | cons p ps ih =>
      have hstep := db_insert_value_temp_fields (db_insert_value db p.1) p.1
      have h2 := ih (db_insert_value_temp (db_insert_value db p.1) p.1)
      refine ⟨?_, ?_, ?_, ?_⟩
      · rw [show (insertValuesPhase db (p :: ps)).keys =
          (insertValuesPhase
            (db_insert_value_temp (db_insert_value db p.1) p.1) ps).keys
          from rfl, h2.1, hstep.1]
        rfl
      · rw [show (insertValuesPhase db (p :: ps)).assoc =
          (insertValuesPhase
            (db_insert_value_temp (db_insert_value db p.1) p.1) ps).assoc
          from rfl, h2.2.1, hstep.2.2.1]
        rfl
      · rw [show (insertValuesPhase db (p :: ps)).tempKeys =
          (insertValuesPhase
            (db_insert_value_temp (db_insert_value db p.1) p.1) ps).tempKeys
          from rfl, h2.2.2.1, hstep.2.2.2.1]
        rfl
      · rw [show (insertValuesPhase db (p :: ps)).nextKeyId =
          (insertValuesPhase
            (db_insert_value_temp (db_insert_value db p.1) p.1) ps).nextKeyId
          from rfl, h2.2.2.2, hstep.2.2.2.2.1]
        rfl

/-- Helper: value-column membership after the value upsert phase. -/
theorem insertValuesPhase_vals_mem {K V : Type} [DecidableEq K]
    [DecidableEq V] (vs : List (V × Nat)) (db : DBState K V) (v : V) :
    v ∈ valSetOf (insertValuesPhase db vs) ↔
      v ∈ valSetOf db ∨ ∃ q ∈ vs, q.1 = v := by
  induction vs generalizing db with
  | nil => simp [insertValuesPhase]
  | cons p ps ih =>
      rw [show insertValuesPhase db (p :: ps) =
        insertValuesPhase
          (db_insert_value_temp (db_insert_value db p.1) p.1) ps from rfl]
      rw [ih]
      have hvv : valSetOf
          (db_insert_value_temp (db_insert_value db p.1) p.1) =
          valSetOf (db_insert_value db p.1) := by
        unfold valSetOf
        rw [(db_insert_value_temp_fields (db_insert_value db p.1) p.1).2.1]
      rw [hvv, db_insert_value_mem]
      constructor
      · intro h
        rcases h with (h | h) | ⟨q, hq, he⟩
        · exact Or.inl h
        · exact Or.inr ⟨p, List.mem_cons_self p ps, h.symm⟩
        · exact Or.inr ⟨q, List.mem_cons_of_mem p hq, he⟩
      · intro h
        rcases h with h | ⟨q, hq, he⟩
        · exact Or.inl (Or.inl h)
        · rcases List.mem_cons.mp hq with hh | hh
          · exact Or.inl (Or.inr (by rw [← he, hh]))
          · exact Or.inr ⟨q, hh, he⟩

/-- Helper: temp-value membership after the value upsert phase. -/
theorem insertValuesPhase_tempVals_mem {K V : Type} [DecidableEq K]
    [DecidableEq V] (vs : List (V × Nat)) (db : DBState K V) (v : V) :
    v ∈ (insertValuesPhase db vs).tempVals ↔
      v ∈ db.tempVals ∨ ∃ q ∈ vs, q.1 = v := by
  induction vs generalizing db with
  | nil => simp [insertValuesPhase]
  | cons p ps ih =>
      rw [show insertValuesPhase db (p :: ps) =
        insertValuesPhase
          (db_insert_value_temp (db_insert_value db p.1) p.1) ps from rfl]
      rw [ih]
      have h1 : (db_insert_value db p.1).tempVals = db.tempVals := rfl
      rw [db_insert_value_temp_mem, h1]
      constructor
      · intro h
        rcases h with (h | h) | ⟨q, hq, he⟩
        · exact Or.inl h
        · exact Or.inr ⟨p, List.mem_cons_self p ps, h.symm⟩
        · exact Or.inr ⟨q, List.mem_cons_of_mem p hq, he⟩
      · intro h
        rcases h with h | ⟨q, hq, he⟩
        · exact Or.inl (Or.inl h)
        · rcases List.mem_cons.mp hq with hh | hh
          · exact Or.inl (Or.inr (by rw [← he, hh]))
          · exact Or.inr ⟨q, hh, he⟩

/-- Helper: the fresh database is well-formed. -/
theorem WF_emptyDB {K V : Type} [DecidableEq K] [DecidableEq V] :
    WF (emptyDB K V) :=
  ⟨List.nodup_nil, List.nodup_nil, List.nodup_nil, List.nodup_nil,
   List.nodup_nil, fun r hr => absurd hr (List.not_mem_nil r),
   fun r hr => absurd hr (List.not_mem_nil r),
   fun e he => absurd he (List.not_mem_nil e),
   fun e he => absurd he (List.not_mem_nil e),
   fun r hr => absurd hr (List.not_mem_nil r),
   le_refl 1, le_refl 1⟩

/-- C6: append is purely additive.  For every well-formed starting state,
db_append adds each source pair's multiplicity to that pair's stored
count (creating the key, value and junction rows as needed, the fresh
junction row carrying the DEFAULT count 1), never removes a key or value
row and never decreases a count; consequently, appending S twice into an
empty database stores twice the multiplicity of every pair. -/
theorem append_additive {K V : Type} [DecidableEq K] [DecidableEq V]
    (S : List (K × V)) (db : DBState K V) (hwf : WF db) :
    (∀ k v, countKV (db_append_flat (noFaults K V) S db) k v =
      countKV db k v + multPair S k v) ∧
    (∀ k, k ∈ keySetOf db →
      k ∈ keySetOf (db_append_flat (noFaults K V) S db)) ∧
    (∀ v, v ∈ valSetOf db →
      v ∈ valSetOf (db_append_flat (noFaults K V) S db)) ∧
    (∀ k v, countKV (db_append_flat (noFaults K V) S
      (db_append_flat (noFaults K V) S (emptyDB K V))) k v =
      2 * multPair S k v) := by
  obtain ⟨hwf1, hc1, hk1, hv1⟩ := db_append_flat_spec S db hwf
  obtain ⟨hwfa, hca, hka, hva⟩ := db_append_flat_spec S (emptyDB K V)
    WF_emptyDB
  obtain ⟨hwfb, hcb, hkb2, hvb2⟩ := db_append_flat_spec S
    (db_append_flat (noFaults K V) S (emptyDB K V)) hwfa
  refine ⟨hc1, hk1, hv1, ?_⟩
  intro k v
  rw [hcb k v, hca k v]
  have hz : countKV (emptyDB K V) k v = 0 := rfl
  rw [hz]
  omega

/-- C6 witness: appending the single pair (1, 10) twice into an empty
store yields count 2 for it. -/
theorem append_additive_witness :
    WF (emptyDB Nat Nat) ∧
    countKV (db_append_flat (noFaults Nat Nat) [(1, 10)]
      (db_append_flat (noFaults Nat Nat) [(1, 10)] (emptyDB Nat Nat)))
      1 10 = 2 * multPair [(1, 10)] 1 10 :=
  ⟨by decide,
   (append_additive [(1, 10)] (emptyDB Nat Nat) (by decide)).2.2.2 1 10⟩

/-- C4 amended: the execute helper of Utils.hpp does retry a busy step
after the fixed delay -- its result on a busy-prefixed step sequence is
its result on the rest -- while the single-step lookups db_get_key_id and
db_get_value_count map SQLITE_BUSY to the same results as a completed
no-row statement (-1 and 0 respectively). -/
theorem execute_retries_busy :
    (∀ s : List StepResult,
      executeSteps (StepResult.busy :: s) = executeSteps s) ∧
    db_get_key_id_step StepResult.busy = db_get_key_id_step StepResult.done ∧
    db_get_value_count_step StepResult.busy =
      db_get_value_count_step StepResult.done :=
  ⟨fun _ => rfl, rfl, rfl⟩

/-- Helper: one freq-entry upsert leaves the junction table unchanged. -/
theorem insertFreqEntry_assoc {K V : Type} [DecidableEq K] [DecidableEq V]
    (db : DBState K V) (e : K × List (V × Nat)) :
    (insertFreqEntry db e).assoc = db.assoc := by
  unfold insertFreqEntry
  rw [(insertValuesPhase_fields e.2 _).2.1,
    (db_insert_key_temp_fields _ e.1).2.2.1]
  rfl

/-- Helper: the whole key upsert phase leaves the junction table
unchanged. -/
theorem insertFreq_assoc {K V : Type} [DecidableEq K] [DecidableEq V]
    (freq : List (K × List (V × Nat))) (db : DBState K V) :
    (insertFreq freq db).assoc = db.assoc := by
  induction freq generalizing db with
  | nil => rfl
  | cons e es ih =>
      rw [show insertFreq (e :: es) db =
        insertFreq es (insertFreqEntry db e) from rfl, ih,
        insertFreqEntry_assoc]

/-- Helper: key-column membership after one freq-entry upsert. -/
theorem insertFreqEntry_keys_mem {K V : Type} [DecidableEq K]
    [DecidableEq V] (db : DBState K V) (e : K × List (V × Nat)) (k : K) :
    k ∈ keySetOf (insertFreqEntry db e) ↔
      k ∈ keySetOf db ∨ k = e.1 := by
  unfold insertFreqEntry
  have h1 : keySetOf (insertValuesPhase
      (db_insert_key_temp (db_insert_key db e.1) e.1) e.2) =
      keySetOf (db_insert_key_temp (db_insert_key db e.1) e.1) := by
    unfold keySetOf
    rw [(insertValuesPhase_fields e.2 _).1]
  have h2 : keySetOf (db_insert_key_temp (db_insert_key db e.1) e.1) =
      keySetOf (db_insert_key db e.1) := by
    unfold keySetOf
    rw [(db_insert_key_temp_fields _ e.1).1]
  rw [h1, h2, db_insert_key_mem]

/-- Helper: temp-key membership after one freq-entry upsert. -/
theorem insertFreqEntry_tempKeys_mem {K V : Type} [DecidableEq K]
    [DecidableEq V] (db : DBState K V) (e : K × List (V × Nat)) (k : K) :
    k ∈ (insertFreqEntry db e).tempKeys ↔
      k ∈ db.tempKeys ∨ k = e.1 := by
  unfold insertFreqEntry
  rw [(insertValuesPhase_fields e.2 _).2.2.1, db_insert_key_temp_mem]
  have h1 : (db_insert_key db e.1).tempKeys = db.tempKeys := rfl
  rw [h1]

/-- Helper: value-column membership after one freq-entry upsert. -/
theorem insertFreqEntry_vals_mem {K V : Type} [DecidableEq K]
    [DecidableEq V] (db : DBState K V) (e : K × List (V × Nat)) (v : V) :
    v ∈ valSetOf (insertFreqEntry db e) ↔
      v ∈ valSetOf db ∨ ∃ q ∈ e.2, q.1 = v := by
  unfold insertFreqEntry
  rw [insertValuesPhase_vals_mem]
  have h1 : valSetOf (db_insert_key_temp (db_insert_key db e.1) e.1) =
      valSetOf db := by
    unfold valSetOf
    rw [(db_insert_key_temp_fields _ e.1).2.1]
    rfl
  rw [h1]

/-- Helper: temp-value membership after one freq-entry upsert. -/
theorem insertFreqEntry_tempVals_mem {K V : Type} [DecidableEq K]
    [DecidableEq V] (db : DBState K V) (e : K × List (V × Nat)) (v : V) :
    v ∈ (insertFreqEntry db e).tempVals ↔
      v ∈ db.tempVals ∨ ∃ q ∈ e.2, q.1 = v := by
  unfold insertFreqEntry
  rw [insertValuesPhase_tempVals_mem]
  have h1 : (db_insert_key_temp (db_insert_key db e.1) e.1).tempVals =
      db.tempVals := by
    rw [(db_insert_key_temp_fields _ e.1).2.2.2.1]
    rfl
  rw [h1]

/-- Helper: key-column membership after the key upsert phase. -/
theorem insertFreq_keys_mem {K V : Type} [DecidableEq K] [DecidableEq V]
    (freq : List (K × List (V × Nat))) (db : DBState K V) (k : K) :
    k ∈ keySetOf (insertFreq freq db) ↔
      k ∈ keySetOf db ∨ ∃ e ∈ freq, e.1 = k := by
  induction freq generalizing db with
  | nil => simp [insertFreq]
  | cons e es ih =>
      rw [show insertFreq (e :: es) db =
        insertFreq es (insertFreqEntry db e) from rfl, ih,
        insertFreqEntry_keys_mem]
      constructor
      · intro h
        rcases h with (h | h) | ⟨e2, he2, hk⟩
        · exact Or.inl h
        · exact Or.inr ⟨e, List.mem_cons_self e es, h.symm⟩
        · exact Or.inr ⟨e2, List.mem_cons_of_mem e he2, hk⟩
      · intro h
        rcases h with h | ⟨e2, he2, hk⟩
        · exact Or.inl (Or.inl h)
        · rcases List.mem_cons.mp he2 with hh | hh
          · exact Or.inl (Or.inr (by rw [← hk, hh]))
          · exact Or.inr ⟨e2, hh, hk⟩

/-- Helper: temp-key membership after the key upsert phase. -/
theorem insertFreq_tempKeys_mem {K V : Type} [DecidableEq K]
    [DecidableEq V] (freq : List (K × List (V × Nat))) (db : DBState K V)
    (k : K) :
    k ∈ (insertFreq freq db).tempKeys ↔
      k ∈ db.tempKeys ∨ ∃ e ∈ freq, e.1 = k := by
  induction freq generalizing db with
  | nil => simp [insertFreq]
  | cons e es ih =>
      rw [show insertFreq (e :: es) db =
        insertFreq es (insertFreqEntry db e) from rfl, ih,
        insertFreqEntry_tempKeys_mem]
      constructor
      · intro h
        rcases h with (h | h) | ⟨e2, he2, hk⟩
        · exact Or.inl h
        · exact Or.inr ⟨e, List.mem_cons_self e es, h.symm⟩
        · exact Or.inr ⟨e2, List.mem_cons_of_mem e he2, hk⟩
      · intro h
        rcases h with h | ⟨e2, he2, hk⟩
        · exact Or.inl (Or.inl h)
        · rcases List.mem_cons.mp he2 with hh | hh
          · exact Or.inl (Or.inr (by rw [← hk, hh]))
          · exact Or.inr ⟨e2, hh, hk⟩

/-- Helper: value-column membership after the key upsert phase. -/
theorem insertFreq_vals_mem {K V : Type} [DecidableEq K] [DecidableEq V]
    (freq : List (K × List (V × Nat))) (db : DBState K V) (v : V) :
    v ∈ valSetOf (insertFreq freq db) ↔
      v ∈ valSetOf db ∨ ∃ e ∈ freq, ∃ q ∈ e.2, q.1 = v := by
  induction freq generalizing db with
  | nil => simp [insertFreq]
  | cons e es ih =>
      rw [show insertFreq (e :: es) db =
        insertFreq es (insertFreqEntry db e) from rfl, ih,
        insertFreqEntry_vals_mem]
      constructor
      · intro h
        rcases h with (h | ⟨q, hq, he⟩) | ⟨e2, he2, hv⟩
        · exact Or.inl h
        · exact Or.inr ⟨e, List.mem_cons_self e es, q, hq, he⟩
        · exact Or.inr ⟨e2, List.mem_cons_of_mem e he2, hv⟩
      · intro h
        rcases h with h | ⟨e2, he2, q, hq, he⟩
        · exact Or.inl (Or.inl h)
        · rcases List.mem_cons.mp he2 with hh | hh
          · exact Or.inl (Or.inr ⟨q, hh ▸ hq, he⟩)
          · exact Or.inr ⟨e2, hh, q, hq, he⟩

/-- Helper: temp-value membership after the key upsert phase. -/
theorem insertFreq_tempVals_mem {K V : Type} [DecidableEq K]
    [DecidableEq V] (freq : List (K × List (V × Nat))) (db : DBState K V)
    (v : V) :
    v ∈ (insertFreq freq db).tempVals ↔
      v ∈ db.tempVals ∨ ∃ e ∈ freq, ∃ q ∈ e.2, q.1 = v := by
  induction freq generalizing db with
  | nil => simp [insertFreq]
  | cons e es ih =>
      rw [show insertFreq (e :: es) db =
        insertFreq es (insertFreqEntry db e) from rfl, ih,
        insertFreqEntry_tempVals_mem]
      constructor
      · intro h
        rcases h with (h | ⟨q, hq, he⟩) | ⟨e2, he2, hv⟩
        · exact Or.inl h
        · exact Or.inr ⟨e, List.mem_cons_self e es, q, hq, he⟩
        · exact Or.inr ⟨e2, List.mem_cons_of_mem e he2, hv⟩
      · intro h
        rcases h with h | ⟨e2, he2, q, hq, he⟩
        · exact Or.inl (Or.inl h)
        · rcases List.mem_cons.mp he2 with hh | hh
          · exact Or.inl (Or.inr ⟨q, hh ▸ hq, he⟩)
          · exact Or.inr ⟨e2, hh, q, hq, he⟩

/-- Helper: the purge leaves temps and counters unchanged. -/
theorem db_purge_fields {K V : Type} [DecidableEq K] [DecidableEq V]
    (db : DBState K V) :
    (db_purge_old_data db).tempKeys = db.tempKeys ∧
    (db_purge_old_data db).tempVals = db.tempVals ∧
    (db_purge_old_data db).nextKeyId = db.nextKeyId ∧
    (db_purge_old_data db).nextValId = db.nextValId :=
  ⟨rfl, rfl, rfl, rfl⟩

/-- Helper: key-column membership after the purge: a key survives exactly
when it was present and is staged. -/
theorem db_purge_keys_mem {K V : Type} [DecidableEq K] [DecidableEq V]
    (db : DBState K V) (k : K) :
    k ∈ keySetOf (db_purge_old_data db) ↔
      k ∈ keySetOf db ∧ k ∈ db.tempKeys := by
  unfold db_purge_old_data keySetOf
  constructor
  · intro h
    obtain ⟨r, hr, he⟩ := List.mem_map.mp h
    have hf := List.mem_filter.mp hr
    refine ⟨List.mem_map.mpr ⟨r, hf.1, he⟩, ?_⟩
    have := of_decide_eq_true hf.2
    rw [← he]
    exact this
  · intro ⟨h1, h2⟩
    obtain ⟨r, hr, he⟩ := List.mem_map.mp h1
    refine List.mem_map.mpr ⟨r, List.mem_filter.mpr ⟨hr, ?_⟩, he⟩
    exact decide_eq_true (he ▸ h2)

/-- Helper: one iteration of the map-overload association-insert value
loop changes only the junction table. -/
theorem assocInsertMapStep_fields {K V : Type} [DecidableEq K]
    [DecidableEq V] (f : Faults K V) (ki : Int) (d : DBState K V)
    (v : V) :
    (assocInsertMapStep f ki d v).keys = d.keys ∧
    (assocInsertMapStep f ki d v).vals = d.vals ∧
    (assocInsertMapStep f ki d v).tempKeys = d.tempKeys ∧
    (assocInsertMapStep f ki d v).tempVals = d.tempVals ∧
    (assocInsertMapStep f ki d v).nextKeyId = d.nextKeyId ∧
    (assocInsertMapStep f ki d v).nextValId = d.nextValId := by
  simp only [assocInsertMapStep]
  split
  · exact ⟨rfl, rfl, rfl, rfl, rfl, rfl⟩
  · split
    · exact ⟨rfl, rfl, rfl, rfl, rfl, rfl⟩
    · exact ⟨rfl, rfl, rfl, rfl, rfl, rfl⟩

/-- Helper: the inner association-insert value loop of the map overload
changes only the junction table. -/
theorem assocInsertMapVals_fields {K V : Type} [DecidableEq K]
    [DecidableEq V] (f : Faults K V) (ki : Int) (vs : List V)
    (db : DBState K V) :
    (assocInsertMapVals f ki db vs).keys = db.keys ∧
    (assocInsertMapVals f ki db vs).vals = db.vals ∧
    (assocInsertMapVals f ki db vs).tempKeys = db.tempKeys ∧
    (assocInsertMapVals f ki db vs).tempVals = db.tempVals ∧
    (assocInsertMapVals f ki db vs).nextKeyId = db.nextKeyId ∧
    (assocInsertMapVals f ki db vs).nextValId = db.nextValId := by
  induction vs generalizing db with
  | nil => exact ⟨rfl, rfl, rfl, rfl, rfl, rfl⟩
  | cons v rest ih =>
      have heq : assocInsertMapVals f ki db (v :: rest) =
          assocInsertMapVals f ki (assocInsertMapStep f ki db v) rest := rfl
      have h1 := assocInsertMapStep_fields f ki db v
      have h2 := ih (assocInsertMapStep f ki db v)
      exact ⟨by rw [heq, h2.1, h1.1],
        by rw [heq, h2.2.1, h1.2.1],
        by rw [heq, h2.2.2.1, h1.2.2.1],
        by rw [heq, h2.2.2.2.1, h1.2.2.2.1],
        by rw [heq, h2.2.2.2.2.1, h1.2.2.2.2.1],
        by rw [heq, h2.2.2.2.2.2, h1.2.2.2.2.2]⟩

/-- Helper: one entry of the map-overload association-insert phase
changes only the junction table. -/
theorem assocInsertMapEntry_fields {K V : Type} [DecidableEq K]
    [DecidableEq V] (f : Faults K V) (d : DBState K V) (e : K × List V) :
    (assocInsertMapEntry f d e).keys = d.keys ∧
    (assocInsertMapEntry f d e).vals = d.vals ∧
    (assocInsertMapEntry f d e).tempKeys = d.tempKeys ∧
    (assocInsertMapEntry f d e).tempVals = d.tempVals ∧
    (assocInsertMapEntry f d e).nextKeyId = d.nextKeyId ∧
    (assocInsertMapEntry f d e).nextValId = d.nextValId := by
  simp only [assocInsertMapEntry]
  split
  · exact ⟨rfl, rfl, rfl, rfl, rfl, rfl⟩
  · exact assocInsertMapVals_fields f _ e.2 d

/-- Helper: the association-insert phase of the map overload changes only
the junction table. -/
theorem assocInsertMap_fields {K V : Type} [DecidableEq K] [DecidableEq V]
    (f : Faults K V) (S : List (K × List V)) (db : DBState K V) :
    (assocInsertMap f S db).keys = db.keys ∧
    (assocInsertMap f S db).vals = db.vals ∧
    (assocInsertMap f S db).tempKeys = db.tempKeys ∧
    (assocInsertMap f S db).tempVals = db.tempVals ∧
    (assocInsertMap f S db).nextKeyId = db.nextKeyId ∧
    (assocInsertMap f S db).nextValId = db.nextValId := by
  induction S generalizing db with
  | nil => exact ⟨rfl, rfl, rfl, rfl, rfl, rfl⟩
  | cons e es ih =>
      have heq : assocInsertMap f (e :: es) db =
          assocInsertMap f es (assocInsertMapEntry f db e) := rfl
      have h1 := assocInsertMapEntry_fields f db e
      have h2 := ih (assocInsertMapEntry f db e)
      exact ⟨by rw [heq, h2.1, h1.1],
        by rw [heq, h2.2.1, h1.2.1],
        by rw [heq, h2.2.2.1, h1.2.2.1],
        by rw [heq, h2.2.2.2.1, h1.2.2.2.1],
        by rw [heq, h2.2.2.2.2.1, h1.2.2.2.2.1],
        by rw [heq, h2.2.2.2.2.2, h1.2.2.2.2.2]⟩

/-- Helper: one iteration of the count-set value loop changes only the
junction table. -/
theorem setCountsStep_fields {K V : Type} [DecidableEq K] [DecidableEq V]
    (f : Faults K V) (ki : Int) (d : DBState K V) (p : V × Nat) :
    (setCountsStep f ki d p).keys = d.keys ∧
    (setCountsStep f ki d p).vals = d.vals ∧
    (setCountsStep f ki d p).tempKeys = d.tempKeys ∧
    (setCountsStep f ki d p).tempVals = d.tempVals ∧
    (setCountsStep f ki d p).nextKeyId = d.nextKeyId ∧
    (setCountsStep f ki d p).nextValId = d.nextValId := by
  simp only [setCountsStep]
  split
  · exact ⟨rfl, rfl, rfl, rfl, rfl, rfl⟩
  · exact ⟨rfl, rfl, rfl, rfl, rfl, rfl⟩

/-- Helper: the inner count-set value loop changes only the junction
table. -/
theorem setCountsVals_fields {K V : Type} [DecidableEq K] [DecidableEq V]
    (f : Faults K V) (ki : Int) (vs : List (V × Nat)) (db : DBState K V) :
    (setCountsVals f ki db vs).keys = db.keys ∧
    (setCountsVals f ki db vs).vals = db.vals ∧
    (setCountsVals f ki db vs).tempKeys = db.tempKeys ∧
    (setCountsVals f ki db vs).tempVals = db.tempVals ∧
    (setCountsVals f ki db vs).nextKeyId = db.nextKeyId ∧
    (setCountsVals f ki db vs).nextValId = db.nextValId := by
  induction vs generalizing db with
  | nil => exact ⟨rfl, rfl, rfl, rfl, rfl, rfl⟩
  | cons p rest ih =>
      have heq : setCountsVals f ki db (p :: rest) =
          setCountsVals f ki (setCountsStep f ki db p) rest := rfl
      have h1 := setCountsStep_fields f ki db p
      have h2 := ih (setCountsStep f ki db p)
      exact ⟨by rw [heq, h2.1, h1.1],
        by rw [heq, h2.2.1, h1.2.1],
        by rw [heq, h2.2.2.1, h1.2.2.1],
        by rw [heq, h2.2.2.2.1, h1.2.2.2.1],
        by rw [heq, h2.2.2.2.2.1, h1.2.2.2.2.1],
        by rw [heq, h2.2.2.2.2.2, h1.2.2.2.2.2]⟩

/-- Helper: one entry of the count-set phase changes only the junction
table. -/
theorem setCountsEntry_fields {K V : Type} [DecidableEq K] [DecidableEq V]
    (f : Faults K V) (db : DBState K V) (e : K × List (V × Nat)) :
    (setCountsEntry f db e).keys = db.keys ∧
    (setCountsEntry f db e).vals = db.vals ∧
    (setCountsEntry f db e).tempKeys = db.tempKeys ∧
    (setCountsEntry f db e).tempVals = db.tempVals ∧
    (setCountsEntry f db e).nextKeyId = db.nextKeyId ∧
    (setCountsEntry f db e).nextValId = db.nextValId := by
  simp only [setCountsEntry]
  split
  · exact ⟨rfl, rfl, rfl, rfl, rfl, rfl⟩
  · exact setCountsVals_fields f _ e.2 db

/-- Helper: the count-set phase changes only the junction table. -/
theorem setCounts_fields {K V : Type} [DecidableEq K] [DecidableEq V]
    (f : Faults K V) (freq : List (K × List (V × Nat)))
    (db : DBState K V) :
    (setCounts f freq db).keys = db.keys ∧
    (setCounts f freq db).vals = db.vals ∧
    (setCounts f freq db).tempKeys = db.tempKeys ∧
    (setCounts f freq db).tempVals = db.tempVals ∧
    (setCounts f freq db).nextKeyId = db.nextKeyId ∧
    (setCounts f freq db).nextValId = db.nextValId := by
  induction freq generalizing db with
  | nil => exact ⟨rfl, rfl, rfl, rfl, rfl, rfl⟩
  | cons e es ih =>
      have heq : setCounts f (e :: es) db =
          setCounts f es (setCountsEntry f db e) := rfl
      have h1 := setCountsEntry_fields f db e
      have h2 := ih (setCountsEntry f db e)
      exact ⟨by rw [heq, h2.1, h1.1],
        by rw [heq, h2.2.1, h1.2.1],
        by rw [heq, h2.2.2.1, h1.2.2.1],
        by rw [heq, h2.2.2.2.1, h1.2.2.2.1],
        by rw [heq, h2.2.2.2.2.1, h1.2.2.2.2.1],
        by rw [heq, h2.2.2.2.2.2, h1.2.2.2.2.2]⟩

/-- Helper: the found-test of the map-overload frequency builder. -/
theorem freqFound_iff {K V : Type} [DecidableEq K] [DecidableEq V]
    (acc : List (K × List (V × Nat))) (k : K) :
    freqFound acc k = true ↔ ∃ e ∈ acc, e.1 = k := by
  unfold freqFound
  rw [List.any_eq_true]
  simp

/-- Helper: updating a found entry keeps the key column of the frequency
map unchanged. -/
theorem applyFound_keys {K V : Type} [DecidableEq K] [DecidableEq V]
    (acc : List (K × List (V × Nat))) (k0 : K) (vs : List V) :
    (applyFound acc k0 vs).map (fun e => e.1) =
      acc.map (fun e => e.1) := by
  induction acc with
  | nil => rfl
  | cons e es ih =>
      unfold applyFound
      split
      · rw [List.map_cons, List.map_cons]
      · rw [List.map_cons, List.map_cons, ih]

/-- Helper: key membership after one outer iteration of the map-overload
frequency builder. -/
theorem buildFreqMapStep_keys_mem {K V : Type} [DecidableEq K]
    [DecidableEq V] (acc : List (K × List (V × Nat))) (e : K × List V)
    (k : K) :
    (∃ q ∈ buildFreqMapStep acc e, q.1 = k) ↔
      (∃ q ∈ acc, q.1 = k) ∨ (e.1 = k ∧ e.2 ≠ []) := by
  unfold buildFreqMapStep
  by_cases hf : freqFound acc e.1 = true
  · rw [if_pos hf]
    have hmap : ∀ q, (q ∈ applyFound acc e.1 e.2 ∧ q.1 = k) →
        k ∈ (applyFound acc e.1 e.2).map (fun e => e.1) :=
      fun q hq => List.mem_map.mpr ⟨q, hq.1, hq.2⟩
    constructor
    · intro ⟨q, hq, he⟩
      have := hmap q ⟨hq, he⟩
      rw [applyFound_keys] at this
      obtain ⟨q2, hq2, he2⟩ := List.mem_map.mp this
      exact Or.inl ⟨q2, hq2, he2⟩
    · intro h
      rcases h with ⟨q, hq, he⟩ | ⟨he, hne⟩
      · have : k ∈ (applyFound acc e.1 e.2).map (fun e => e.1) := by
          rw [applyFound_keys]
          exact List.mem_map.mpr ⟨q, hq, he⟩
        obtain ⟨q2, hq2, he2⟩ := List.mem_map.mp this
        exact ⟨q2, hq2, he2⟩
      · have hmf : k ∈ (applyFound acc e.1 e.2).map (fun e => e.1) := by
          rw [applyFound_keys]
          obtain ⟨q, hq, he2⟩ := (freqFound_iff acc e.1).mp hf
          exact List.mem_map.mpr ⟨q, hq, by rw [he2, he]⟩
        obtain ⟨q2, hq2, he3⟩ := List.mem_map.mp hmf
        exact ⟨q2, hq2, he3⟩
  · rw [if_neg hf]
    by_cases hemp : e.2.isEmpty = true
    · rw [if_pos hemp]
      have hnil : e.2 = [] := List.isEmpty_iff.mp hemp
      constructor
      · exact fun h => Or.inl h
      · intro h
        rcases h with h | ⟨_, hne⟩
        · exact h
        · exact absurd hnil hne
    · rw [if_neg hemp]
      have hne : e.2 ≠ [] := by
        intro hc
        exact hemp (by rw [hc]; rfl)
      constructor
      · intro ⟨q, hq, he⟩
        rcases List.mem_append.mp hq with hm | hm
        · exact Or.inl ⟨q, hm, he⟩
        · simp only [List.mem_singleton] at hm
          refine Or.inr ⟨?_, hne⟩
          rw [← he, hm]
      · intro h
        rcases h with ⟨q, hq, he⟩ | ⟨he, _⟩
        · exact ⟨q, List.mem_append_left _ hq, he⟩
        · refine ⟨(e.1, e.2.foldl assignOne []), ?_, he⟩
          exact List.mem_append_right _ (List.mem_singleton.mpr rfl)

/-- Helper: key membership in the map-overload frequency map: exactly the
source keys carrying at least one value. -/
theorem buildFreqMap_keys_mem {K V : Type} [DecidableEq K] [DecidableEq V]
    (S : List (K × List V)) (k : K) :
    (∃ q ∈ buildFreqMap S, q.1 = k) ↔ ∃ e ∈ S, e.1 = k ∧ e.2 ≠ [] := by
  have hgen : ∀ (acc : List (K × List (V × Nat))),
      (∃ q ∈ S.foldl buildFreqMapStep acc, q.1 = k) ↔
        (∃ q ∈ acc, q.1 = k) ∨ ∃ e ∈ S, e.1 = k ∧ e.2 ≠ [] := by
    induction S with
    | nil => intro acc; simp
    | cons e es ih =>
        intro acc
        rw [List.foldl_cons, ih (buildFreqMapStep acc e),
          buildFreqMapStep_keys_mem]
        constructor
        · intro h
          rcases h with (h | ⟨he, hne⟩) | ⟨e2, he2, hk⟩
          · exact Or.inl h
          · exact Or.inr ⟨e, List.mem_cons_self e es, he, hne⟩
          · exact Or.inr ⟨e2, List.mem_cons_of_mem e he2, hk⟩
        · intro h
          rcases h with h | ⟨e2, he2, hk⟩
          · exact Or.inl (Or.inl h)
          · rcases List.mem_cons.mp he2 with hh | hh
            · exact Or.inl (Or.inr (by rw [← hh]; exact hk))
            · exact Or.inr ⟨e2, hh, hk⟩
  have h2 := hgen []
  rw [show buildFreqMap S = S.foldl buildFreqMapStep [] from rfl]
  rw [h2]
  simp

/-- C7: in the map-of-collections reconcile, a key whose every source
entry carries an empty value collection is ignored: the call succeeds and
the resulting database has no key row for it -- no row is created for it
and a pre-existing row is purged, since the key never reaches the
staging table. -/
theorem reconcile_map_empty_collection_key_purged {K V : Type}
    [DecidableEq K] [DecidableEq V] (S : List (K × List V))
    (db : DBState K V) (k : K)
    (_hmem : (k, ([] : List V)) ∈ S)
    (hall : ∀ e ∈ S, e.1 = k → e.2 = []) :
    ∃ d, db_reconcile_map (noFaults K V) S db = Except.ok d ∧
      k ∉ keySetOf d := by
  refine ⟨_, rfl, ?_⟩
  intro hk
  have h1 : keySetOf (setCounts (noFaults K V) (buildFreqMap S)
      (db_clear_temp_tables (db_purge_old_data
        (assocInsertMap (noFaults K V) S
          (insertFreq (buildFreqMap S) (db_clear_temp_tables db)))))) =
      keySetOf (db_purge_old_data
        (assocInsertMap (noFaults K V) S
          (insertFreq (buildFreqMap S) (db_clear_temp_tables db)))) := by
    unfold keySetOf
    rw [(setCounts_fields (noFaults K V) (buildFreqMap S) _).1]
    rfl
  rw [h1] at hk
  have h2 := (db_purge_keys_mem _ k).mp hk
  have h3 : (assocInsertMap (noFaults K V) S
      (insertFreq (buildFreqMap S) (db_clear_temp_tables db))).tempKeys =
      (insertFreq (buildFreqMap S) (db_clear_temp_tables db)).tempKeys :=
    (assocInsertMap_fields (noFaults K V) S _).2.2.1
  rw [h3] at h2
  have h4 := (insertFreq_tempKeys_mem (buildFreqMap S)
    (db_clear_temp_tables db) k).mp h2.2
  rcases h4 with h4 | h4
  · exact absurd h4 (List.not_mem_nil k)
  · have h5 := (buildFreqMap_keys_mem S k).mp h4
    obtain ⟨e, he, hk2, hne⟩ := h5
    exact hne (hall e he hk2)

/-- C7 witness: key 7 pre-exists and is mapped only to an empty
collection; after reconciling, no key row for 7 remains. -/
theorem reconcile_map_empty_collection_key_purged_witness :
    ((7, ([] : List Nat)) ∈ c7Src) ∧
    (∀ e ∈ c7Src, e.1 = 7 → e.2 = []) ∧
    (∃ d, db_reconcile_map (noFaults Nat Nat) c7Src c7DB = Except.ok d ∧
      7 ∉ keySetOf d) :=
  ⟨by decide, by decide,
   reconcile_map_empty_collection_key_purged c7Src c7DB 7 (by decide)
     (by decide)⟩

/-- Helper: one find_or_insert plus increment bumps exactly the counter
of its value. -/
theorem vcount_bumpValue {V : Type} [DecidableEq V]
    (m : List (V × Nat)) (v0 v : V) :
    vcount (bumpValue m v0) v = vcount m v + (if v0 = v then 1 else 0) := by
  induction m with
  | nil =>
      by_cases h : v0 = v
      · simp [bumpValue, vcount, h]
      · simp [bumpValue, vcount, h]
  | cons p ps ih =>
      by_cases hp : p.1 = v0
      · rw [bumpValue, if_pos hp]
        by_cases hv : p.1 = v
        · rw [vcount, if_pos hv, vcount, if_pos hv,
            if_pos (by rw [← hp, hv])]
        · rw [vcount, if_neg hv, vcount, if_neg hv,
            if_neg (by rw [← hp]; exact hv), Nat.add_zero]
      · rw [bumpValue, if_neg hp]
        by_cases hv : p.1 = v
        · rw [vcount, if_pos hv, vcount, if_pos hv]
          have : ¬ v0 = v := by
            intro hc
            exact hp (by rw [hv, hc])
          rw [if_neg this, Nat.add_zero]
        · rw [vcount, if_neg hv, vcount, if_neg hv, ih]

/-- Helper: unfolding of the frequency lookup at a literal entry. -/
theorem freqCount_cons_pair {K V : Type} [DecidableEq K] [DecidableEq V]
    (k1 : K) (m : List (V × Nat)) (es : List (K × List (V × Nat)))
    (k : K) (v : V) :
    freqCount ((k1, m) :: es) k v =
      if k1 = k then vcount m v else freqCount es k v := rfl

/-- Helper: one source pair bumps exactly its own frequency. -/
theorem freqCount_updateEntry {K V : Type} [DecidableEq K] [DecidableEq V]
    (acc : List (K × List (V × Nat))) (k0 : K) (v0 : V) (k : K) (v : V) :
    freqCount (updateEntry acc k0 v0) k v =
      freqCount acc k v + (if k0 = k ∧ v0 = v then 1 else 0) := by
  induction acc with
  | nil =>
      rw [updateEntry, freqCount_cons_pair]
      by_cases hk : k0 = k
      · rw [if_pos hk, vcount_bumpValue]
        by_cases hv : v0 = v
        · rw [if_pos hv, if_pos ⟨hk, hv⟩]
          rfl
        · rw [if_neg hv, if_neg (fun hc => hv hc.2)]
          rfl
      · rw [if_neg hk, if_neg (fun hc => hk hc.1)]
        rfl
  | cons e es ih =>
      by_cases he : e.1 = k0
      · rw [updateEntry, if_pos he, freqCount_cons_pair,
          show freqCount (e :: es) k v =
            if e.1 = k then vcount e.2 v else freqCount es k v from rfl]
        by_cases hk : e.1 = k
        · rw [if_pos hk, if_pos hk, vcount_bumpValue]
          by_cases hv : v0 = v
          · rw [if_pos hv, if_pos ⟨by rw [← he, hk], hv⟩]
          · rw [if_neg hv, if_neg (fun hc => hv hc.2)]
        · rw [if_neg hk, if_neg hk,
            if_neg (fun hc => hk (by rw [he, hc.1]))]
          rw [Nat.add_zero]
      · rw [updateEntry, if_neg he,
          show freqCount (e :: updateEntry es k0 v0) k v =
            if e.1 = k then vcount e.2 v
            else freqCount (updateEntry es k0 v0) k v from rfl,
          show freqCount (e :: es) k v =
            if e.1 = k then vcount e.2 v else freqCount es k v from rfl]
        by_cases hk : e.1 = k
        · rw [if_pos hk, if_pos hk]
          have : ¬ (k0 = k ∧ v0 = v) := by
            intro hc
            exact he (by rw [hc.1, hk])
          rw [if_neg this, Nat.add_zero]
        · rw [if_neg hk, if_neg hk, ih]

/-- Helper: the flat frequency builder stores exactly the source
multiplicities. -/
theorem buildFreq_freqCount {K V : Type} [DecidableEq K] [DecidableEq V]
    (S : List (K × V)) (k : K) (v : V) :
    freqCount (buildFreq S) k v = multPair S k v := by
  have hgen : ∀ acc : List (K × List (V × Nat)),
      freqCount (S.foldl (fun a p => updateEntry a p.1 p.2) acc) k v =
        freqCount acc k v + multPair S k v := by
    induction S with
    | nil => intro acc; simp [multPair]
    | cons p ps ih =>
        intro acc
        rw [List.foldl_cons, ih (updateEntry acc p.1 p.2),
          freqCount_updateEntry, multPair_cons]
        by_cases h : p.1 = k ∧ p.2 = v
        · rw [if_pos h]
          omega
        · rw [if_neg h]
          omega
  rw [show buildFreq S = S.foldl (fun a p => updateEntry a p.1 p.2) []
    from rfl, hgen [], show freqCount ([] : List (K × List (V × Nat))) k v = 0
    from rfl, Nat.zero_add]

/-- Helper: a pair occurs in the source exactly when its multiplicity is
positive. -/
theorem multPair_pos_iff {K V : Type} [DecidableEq K] [DecidableEq V]
    (S : List (K × V)) (k : K) (v : V) :
    1 ≤ multPair S k v ↔ (k, v) ∈ S := by
  unfold multPair
  rw [Nat.one_le_iff_ne_zero]
  constructor
  · intro h
    rcases List.exists_mem_of_length_pos (Nat.pos_of_ne_zero h) with ⟨p, hp⟩
    have hf := List.mem_filter.mp hp
    have hc := of_decide_eq_true hf.2
    have : p = (k, v) := by
      calc p = (p.1, p.2) := rfl
      _ = (k, v) := by rw [hc.1, hc.2]
    exact this ▸ hf.1
  · intro h hc
    rw [List.length_eq_zero] at hc
    have : (k, v) ∈ S.filter (fun p => decide (p.1 = k ∧ p.2 = v)) :=
      List.mem_filter.mpr ⟨h, decide_eq_true ⟨rfl, rfl⟩⟩
    rw [hc] at this
    exact List.not_mem_nil _ this

/-- Helper: a positive value counter exhibits a stored value entry. -/
theorem vcount_pos_mem {V : Type} [DecidableEq V]
    (vs : List (V × Nat)) (v : V) (h : 1 ≤ vcount vs v) :
    ∃ m, (v, m) ∈ vs := by
  induction vs with
  | nil => simp [vcount] at h
  | cons p ps ih =>
      by_cases hp : p.1 = v
      · refine ⟨p.2, ?_⟩
        have : p = (v, p.2) := by
          calc p = (p.1, p.2) := rfl
          _ = (v, p.2) := by rw [hp]
        rw [← this]
        exact List.mem_cons_self p ps
      · rw [vcount, if_neg hp] at h
        obtain ⟨m, hm⟩ := ih h
        exact ⟨m, List.mem_cons_of_mem p hm⟩

/-- Helper: a positive frequency exhibits a frequency-map entry. -/
theorem freqCount_pos_entry {K V : Type} [DecidableEq K] [DecidableEq V]
    (freq : List (K × List (V × Nat))) (k : K) (v : V)
    (h : 1 ≤ freqCount freq k v) :
    ∃ e ∈ freq, e.1 = k ∧ ∃ m, (v, m) ∈ e.2 := by
  induction freq with
  | nil => simp [freqCount] at h
  | cons e es ih =>
      by_cases hk : e.1 = k
      · rw [freqCount, if_pos hk] at h
        obtain ⟨m, hm⟩ := vcount_pos_mem e.2 v h
        exact ⟨e, List.mem_cons_self e es, hk, m, hm⟩
      · rw [freqCount, if_neg hk] at h
        obtain ⟨e2, he2, hk2, hm⟩ := ih h
        exact ⟨e2, List.mem_cons_of_mem e he2, hk2, hm⟩

/-- Helper: every counter the flat frequency builder stores is
positive. -/
theorem bumpValue_counts_pos {V : Type} [DecidableEq V]
    (m : List (V × Nat)) (v0 : V) (h : ∀ q ∈ m, 1 ≤ q.2) :
    ∀ q ∈ bumpValue m v0, 1 ≤ q.2 := by
  induction m with
  | nil =>
      intro q hq
      rw [bumpValue] at hq
      simp only [List.mem_singleton] at hq
      rw [hq]
  | cons p ps ih =>
      intro q hq
      by_cases hp : p.1 = v0
      · rw [bumpValue, if_pos hp] at hq
        rcases List.mem_cons.mp hq with he | hm
        · rw [he]
          show 1 ≤ p.2 + 1
          omega
        · exact h q (List.mem_cons_of_mem p hm)
      · rw [bumpValue, if_neg hp] at hq
        rcases List.mem_cons.mp hq with he | hm
        · rw [he]
          exact h p (List.mem_cons_self p ps)
        · exact ih (fun q2 hq2 => h q2 (List.mem_cons_of_mem p hq2)) q hm

/-- Helper: every counter stored by updateEntry is positive. -/
theorem updateEntry_counts_pos {K V : Type} [DecidableEq K] [DecidableEq V]
    (acc : List (K × List (V × Nat))) (k0 : K) (v0 : V)
    (h : ∀ e ∈ acc, ∀ q ∈ e.2, 1 ≤ q.2) :
    ∀ e ∈ updateEntry acc k0 v0, ∀ q ∈ e.2, 1 ≤ q.2 := by
  induction acc with
  | nil =>
      intro e he q hq
      rw [updateEntry] at he
      simp only [List.mem_singleton] at he
      rw [he] at hq
      exact bumpValue_counts_pos [] v0 (by intro q2 hq2; simp at hq2) q hq
  | cons e2 es ih =>
      intro e he q hq
      by_cases h2 : e2.1 = k0
      · rw [updateEntry, if_pos h2] at he
        rcases List.mem_cons.mp he with hee | hm
        · rw [hee] at hq
          exact bumpValue_counts_pos e2.2 v0
            (h e2 (List.mem_cons_self e2 es)) q hq
        · exact h e (List.mem_cons_of_mem e2 hm) q hq
      · rw [updateEntry, if_neg h2] at he
        rcases List.mem_cons.mp he with hee | hm
        · rw [hee] at hq
          exact h e2 (List.mem_cons_self e2 es) q hq
        · exact ih (fun e3 he3 => h e3 (List.mem_cons_of_mem e2 he3))
            e hm q hq

/-- Helper: every counter in the flat frequency map is positive. -/
theorem buildFreq_counts_pos {K V : Type} [DecidableEq K] [DecidableEq V]
    (S : List (K × V)) :
    ∀ e ∈ buildFreq S, ∀ q ∈ e.2, 1 ≤ q.2 := by
  have hgen : ∀ acc : List (K × List (V × Nat)),
      (∀ e ∈ acc, ∀ q ∈ e.2, 1 ≤ q.2) →
      ∀ e ∈ S.foldl (fun a p => updateEntry a p.1 p.2) acc,
        ∀ q ∈ e.2, 1 ≤ q.2 := by
    induction S with
    | nil => intro acc h; exact h
    | cons p ps ih =>
        intro acc h
        rw [List.foldl_cons]
        exact ih (updateEntry acc p.1 p.2)
          (updateEntry_counts_pos acc p.1 p.2 h)
  exact hgen [] (by intro e he; simp at he)

/-- Helper: unfolding of the counter lookup at a literal pair. -/
theorem vcount_cons_pair {V : Type} [DecidableEq V]
    (v1 : V) (c1 : Nat) (ps : List (V × Nat)) (v : V) :
    vcount ((v1, c1) :: ps) v = if v1 = v then c1 else vcount ps v := rfl

/-- Helper: the values of a bumped counter list come from the original
values or the bumped value. -/
theorem bumpValue_firsts_mem {V : Type} [DecidableEq V]
    (m : List (V × Nat)) (v0 : V) (x : V)
    (h : x ∈ (bumpValue m v0).map (fun q => q.1)) :
    x ∈ m.map (fun q => q.1) ∨ x = v0 := by
  induction m with
  | nil =>
      rw [bumpValue] at h
      simp only [List.map_cons, List.map_nil, List.mem_singleton] at h
      exact Or.inr h
  | cons p ps ih =>
      by_cases hp : p.1 = v0
      · rw [bumpValue, if_pos hp] at h
        simp only [List.map_cons, List.mem_cons] at h
        rcases h with h | h
        · exact Or.inl (List.mem_cons.mpr (Or.inl h))
        · exact Or.inl (List.mem_cons.mpr (Or.inr h))
      · rw [bumpValue, if_neg hp] at h
        simp only [List.map_cons, List.mem_cons] at h
        rcases h with h | h
        · exact Or.inl (List.mem_cons.mpr (Or.inl h))
        · rcases ih h with h2 | h2
          · exact Or.inl (List.mem_cons.mpr (Or.inr h2))
          · exact Or.inr h2

/-- Helper: bumping a value keeps the stored values distinct. -/
theorem bumpValue_firsts_nodup {V : Type} [DecidableEq V]
    (m : List (V × Nat)) (v0 : V)
    (h : (m.map (fun q => q.1)).Nodup) :
    ((bumpValue m v0).map (fun q => q.1)).Nodup := by
  induction m with
  | nil =>
      rw [bumpValue]
      simp
  | cons p ps ih =>
      rw [List.map_cons, List.nodup_cons] at h
      by_cases hp : p.1 = v0
      · rw [bumpValue, if_pos hp, List.map_cons, List.nodup_cons]
        exact ⟨h.1, h.2⟩
      · rw [bumpValue, if_neg hp, List.map_cons, List.nodup_cons]
        refine ⟨?_, ih h.2⟩
        intro hc
        rcases bumpValue_firsts_mem ps v0 p.1 hc with h2 | h2
        · exact h.1 h2
        · exact hp h2

/-- Helper: bumping never empties the counter list. -/
theorem bumpValue_ne_nil {V : Type} [DecidableEq V]
    (m : List (V × Nat)) (v0 : V) : bumpValue m v0 ≠ [] := by
  cases m with
  | nil =>
      rw [bumpValue]
      exact List.cons_ne_nil _ _
  | cons p ps =>
      rw [bumpValue]
      split
      · exact List.cons_ne_nil _ _
      · exact List.cons_ne_nil _ _

/-- Helper: under distinct stored values the counter lookup returns the
stored pair's counter. -/
theorem vcount_of_mem {V : Type} [DecidableEq V]
    (m : List (V × Nat)) (v : V) (c : Nat)
    (hnd : (m.map (fun q => q.1)).Nodup) (h : (v, c) ∈ m) :
    vcount m v = c := by
  induction m with
  | nil => simp at h
  | cons p ps ih =>
      rw [List.map_cons, List.nodup_cons] at hnd
      rcases List.mem_cons.mp h with he | hm
      · rw [← he, vcount_cons_pair, if_pos rfl]
      · have hp : ¬ p.1 = v := by
          intro hc
          exact hnd.1 (hc ▸ List.mem_map.mpr ⟨(v, c), hm, rfl⟩)
        rw [show vcount (p :: ps) v =
          if p.1 = v then p.2 else vcount ps v from rfl, if_neg hp]
        exact ih hnd.2 hm

/-- Helper: under distinct keys the frequency lookup returns the stored
entry's counter list. -/
theorem freqCount_of_mem {K V : Type} [DecidableEq K] [DecidableEq V]
    (freq : List (K × List (V × Nat))) (k : K) (m : List (V × Nat))
    (v : V) (hnd : (freq.map (fun e => e.1)).Nodup)
    (h : (k, m) ∈ freq) : freqCount freq k v = vcount m v := by
  induction freq with
  | nil => simp at h
  | cons e es ih =>
      rw [List.map_cons, List.nodup_cons] at hnd
      rcases List.mem_cons.mp h with he | hm
      · rw [← he, freqCount_cons_pair, if_pos rfl]
      · have hk : ¬ e.1 = k := by
          intro hc
          exact hnd.1 (hc ▸ List.mem_map.mpr ⟨(k, m), hm, rfl⟩)
        rw [show freqCount (e :: es) k v =
          if e.1 = k then vcount e.2 v else freqCount es k v from rfl,
          if_neg hk]
        exact ih hnd.2 hm

/-- Helper: the keys of an updated frequency map come from the original
keys or the updated key. -/
theorem updateEntry_firsts_mem {K V : Type} [DecidableEq K] [DecidableEq V]
    (acc : List (K × List (V × Nat))) (k0 : K) (v0 : V) (x : K)
    (h : x ∈ (updateEntry acc k0 v0).map (fun e => e.1)) :
    x ∈ acc.map (fun e => e.1) ∨ x = k0 := by
  induction acc with
  | nil =>
      rw [updateEntry] at h
      simp only [List.map_cons, List.map_nil, List.mem_singleton] at h
      exact Or.inr h
  | cons e es ih =>
      by_cases he : e.1 = k0
      · rw [updateEntry, if_pos he] at h
        simp only [List.map_cons, List.mem_cons] at h
        rcases h with h | h
        · exact Or.inl (List.mem_cons.mpr (Or.inl h))
        · exact Or.inl (List.mem_cons.mpr (Or.inr h))
      · rw [updateEntry, if_neg he] at h
        simp only [List.map_cons, List.mem_cons] at h
        rcases h with h | h
        · exact Or.inl (List.mem_cons.mpr (Or.inl h))
        · rcases ih h with h2 | h2
          · exact Or.inl (List.mem_cons.mpr (Or.inr h2))
          · exact Or.inr h2

/-- Helper: one frequency update preserves the structural invariants of
the flat frequency map: distinct keys, distinct values inside each
entry, and no empty entry. -/
theorem updateEntry_invariant {K V : Type} [DecidableEq K] [DecidableEq V]
    (acc : List (K × List (V × Nat))) (k0 : K) (v0 : V)
    (hnd : (acc.map (fun e => e.1)).Nodup)
    (hin : ∀ e ∈ acc, (e.2.map (fun q => q.1)).Nodup ∧ e.2 ≠ []) :
    ((updateEntry acc k0 v0).map (fun e => e.1)).Nodup ∧
    ∀ e ∈ updateEntry acc k0 v0,
      (e.2.map (fun q => q.1)).Nodup ∧ e.2 ≠ [] := by
  induction acc with
  | nil =>
      rw [updateEntry]
      refine ⟨by simp, ?_⟩
      intro e he
      simp only [List.mem_singleton] at he
      rw [he]
      exact ⟨bumpValue_firsts_nodup [] v0 (by simp), bumpValue_ne_nil [] v0⟩
  | cons e es ih =>
      rw [List.map_cons, List.nodup_cons] at hnd
      by_cases he : e.1 = k0
      · rw [updateEntry, if_pos he]
        refine ⟨?_, ?_⟩
        · rw [List.map_cons, List.nodup_cons]
          exact ⟨hnd.1, hnd.2⟩
        · intro e2 he2
          rcases List.mem_cons.mp he2 with hee | hm
          · rw [hee]
            refine ⟨?_, bumpValue_ne_nil e.2 v0⟩
            exact bumpValue_firsts_nodup e.2 v0
              (hin e (List.mem_cons_self e es)).1
          · exact hin e2 (List.mem_cons_of_mem e hm)
      · rw [updateEntry, if_neg he]
        have ih2 := ih hnd.2 (fun e2 he2 => hin e2 (List.mem_cons_of_mem e he2))
        refine ⟨?_, ?_⟩
        · rw [List.map_cons, List.nodup_cons]
          refine ⟨?_, ih2.1⟩
          intro hc
          rcases updateEntry_firsts_mem es k0 v0 e.1 hc with h2 | h2
          · exact hnd.1 h2
          · exact he h2
        · intro e2 he2
          rcases List.mem_cons.mp he2 with hee | hm
          · rw [hee]
            exact hin e (List.mem_cons_self e es)
          · exact ih2.2 e2 hm

/-- Helper: the flat frequency map has distinct keys, distinct values
inside each entry, and no empty entry. -/
theorem buildFreq_nodup {K V : Type} [DecidableEq K] [DecidableEq V]
    (S : List (K × V)) :
    ((buildFreq S).map (fun e => e.1)).Nodup ∧
    ∀ e ∈ buildFreq S, (e.2.map (fun q => q.1)).Nodup ∧ e.2 ≠ [] := by
  have hgen : ∀ acc : List (K × List (V × Nat)),
      (acc.map (fun e => e.1)).Nodup →
      (∀ e ∈ acc, (e.2.map (fun q => q.1)).Nodup ∧ e.2 ≠ []) →
      ((S.foldl (fun a p => updateEntry a p.1 p.2) acc).map
        (fun e => e.1)).Nodup ∧
      ∀ e ∈ S.foldl (fun a p => updateEntry a p.1 p.2) acc,
        (e.2.map (fun q => q.1)).Nodup ∧ e.2 ≠ [] := by
    induction S with
    | nil => intro acc h1 h2; exact ⟨h1, h2⟩
    | cons p ps ih =>
        intro acc h1 h2
        rw [List.foldl_cons]
        have hstep := updateEntry_invariant acc p.1 p.2 h1 h2
        exact ih (updateEntry acc p.1 p.2) hstep.1 hstep.2
  exact hgen [] (by simp) (by intro e he; simp at he)

/-- Helper: a counter stored in the flat frequency map is exactly the
source multiplicity of its pair. -/
theorem buildFreq_count_eq {K V : Type} [DecidableEq K] [DecidableEq V]
    (S : List (K × V)) (k : K) (m : List (V × Nat)) (v : V) (c : Nat)
    (he : (k, m) ∈ buildFreq S) (hv : (v, c) ∈ m) :
    c = multPair S k v := by
  have hnd := buildFreq_nodup S
  have h1 : vcount m v = c :=
    vcount_of_mem m v c (hnd.2 (k, m) he).1 hv
  have h2 : freqCount (buildFreq S) k v = vcount m v :=
    freqCount_of_mem (buildFreq S) k m v hnd.1 he
  rw [← h1, ← h2, buildFreq_freqCount]

/-- Helper: a frequency-map pair occurs in the source. -/
theorem buildFreq_pair_mem {K V : Type} [DecidableEq K] [DecidableEq V]
    (S : List (K × V)) (k : K) (m : List (V × Nat)) (v : V) (c : Nat)
    (he : (k, m) ∈ buildFreq S) (hv : (v, c) ∈ m) : (k, v) ∈ S := by
  refine (multPair_pos_iff S k v).mp ?_
  rw [← buildFreq_count_eq S k m v c he hv]
  exact buildFreq_counts_pos S (k, m) he (v, c) hv

/-- Helper: a frequency-map key occurs in the source. -/
theorem buildFreq_key_mem_S {K V : Type} [DecidableEq K] [DecidableEq V]
    (S : List (K × V)) (k : K) (m : List (V × Nat))
    (he : (k, m) ∈ buildFreq S) : ∃ v, (k, v) ∈ S := by
  have hne := ((buildFreq_nodup S).2 (k, m) he).2
  cases hm : m with
  | nil => exact absurd hm hne
  | cons q qs =>
      refine ⟨q.1, buildFreq_pair_mem S k m q.1 q.2 he ?_⟩
      rw [hm]
      exact List.mem_cons_self q qs

/-- Helper: a source pair has a frequency-map entry. -/
theorem mem_S_buildFreq {K V : Type} [DecidableEq K] [DecidableEq V]
    (S : List (K × V)) (k : K) (v : V) (h : (k, v) ∈ S) :
    ∃ m c, (k, m) ∈ buildFreq S ∧ (v, c) ∈ m := by
  have h1 : 1 ≤ freqCount (buildFreq S) k v := by
    rw [buildFreq_freqCount]
    exact (multPair_pos_iff S k v).mpr h
  obtain ⟨e, he, hk, c, hc⟩ := freqCount_pos_entry (buildFreq S) k v h1
  refine ⟨e.2, c, ?_, hc⟩
  have : e = (k, e.2) := by
    calc e = (e.1, e.2) := rfl
    _ = (k, e.2) := by rw [hk]
  exact this ▸ he

/-- Helper: the frequency-map keys are exactly the source keys. -/
theorem buildFreq_keys_iff {K V : Type} [DecidableEq K] [DecidableEq V]
    (S : List (K × V)) (k : K) :
    (∃ e ∈ buildFreq S, e.1 = k) ↔ ∃ v, (k, v) ∈ S := by
  constructor
  · intro ⟨e, he, hk⟩
    have : e = (k, e.2) := by
      calc e = (e.1, e.2) := rfl
      _ = (k, e.2) := by rw [hk]
    exact buildFreq_key_mem_S S k e.2 (this ▸ he)
  · intro ⟨v, hv⟩
    obtain ⟨m, c, hm, _⟩ := mem_S_buildFreq S k v hv
    exact ⟨(k, m), hm, rfl⟩

/-- Helper: two database states with equal fields are equal. -/
theorem dbstate_ext {K V : Type} [DecidableEq K] [DecidableEq V]
    (a b : DBState K V) (h1 : a.keys = b.keys) (h2 : a.vals = b.vals)
    (h3 : a.assoc = b.assoc) (h4 : a.tempKeys = b.tempKeys)
    (h5 : a.tempVals = b.tempVals) (h6 : a.nextKeyId = b.nextKeyId)
    (h7 : a.nextValId = b.nextValId) : a = b := by
  cases a
  cases b
  congr 1

/-- Helper: well-formedness only reads the persistent tables and the id
counters. -/
theorem WF_congr {K V : Type} [DecidableEq K] [DecidableEq V]
    (a b : DBState K V) (h1 : a.keys = b.keys) (h2 : a.vals = b.vals)
    (h3 : a.assoc = b.assoc) (h6 : a.nextKeyId = b.nextKeyId)
    (h7 : a.nextValId = b.nextValId) : WF a ↔ WF b := by
  unfold WF
  rw [h1, h2, h3, h6, h7]

/-- Helper: the stored pair count only reads the persistent tables. -/
theorem countKV_congr {K V : Type} [DecidableEq K] [DecidableEq V]
    (a b : DBState K V) (h1 : a.keys = b.keys) (h2 : a.vals = b.vals)
    (h3 : a.assoc = b.assoc) (k : K) (v : V) :
    countKV a k v = countKV b k v := by
  unfold countKV
  rw [h1, h2, h3]

/-- Helper: clearing already empty staging tables is the identity. -/
theorem clear_eq_self {K V : Type} [DecidableEq K] [DecidableEq V]
    (db : DBState K V) (h1 : db.tempKeys = []) (h2 : db.tempVals = []) :
    db_clear_temp_tables db = db :=
  dbstate_ext _ _ rfl rfl rfl h1.symm h2.symm rfl rfl

/-- Helper: a temp-key insert preserves well-formedness either way. -/
theorem WF_db_insert_key_temp {K V : Type} [DecidableEq K] [DecidableEq V]
    (db : DBState K V) (k : K) :
    WF (db_insert_key_temp db k) ↔ WF db := by
  have hf := db_insert_key_temp_fields db k
  exact WF_congr _ _ hf.1 hf.2.1 hf.2.2.1 hf.2.2.2.2.1 hf.2.2.2.2.2

/-- Helper: a temp-value insert preserves well-formedness either way. -/
theorem WF_db_insert_value_temp {K V : Type} [DecidableEq K]
    [DecidableEq V] (db : DBState K V) (v : V) :
    WF (db_insert_value_temp db v) ↔ WF db := by
  have hf := db_insert_value_temp_fields db v
  exact WF_congr _ _ hf.1 hf.2.1 hf.2.2.1 hf.2.2.2.2.1 hf.2.2.2.2.2

/-- Helper: clearing the staging tables preserves well-formedness either
way. -/
theorem WF_db_clear_temp_tables {K V : Type} [DecidableEq K]
    [DecidableEq V] (db : DBState K V) :
    WF (db_clear_temp_tables db) ↔ WF db :=
  WF_congr _ _ rfl rfl rfl rfl rfl

/-- Helper: the value upsert phase preserves well-formedness. -/
theorem WF_insertValuesPhase {K V : Type} [DecidableEq K] [DecidableEq V]
    (vs : List (V × Nat)) :
    ∀ db : DBState K V, WF db → WF (insertValuesPhase db vs) := by
  induction vs with
  | nil => intro db h; exact h
  | cons p ps ih =>
      intro db h
      rw [show insertValuesPhase db (p :: ps) =
        insertValuesPhase
          (db_insert_value_temp (db_insert_value db p.1) p.1) ps from rfl]
      exact ih _ ((WF_db_insert_value_temp _ p.1).mpr
        (WF_db_insert_value db p.1 h))

/-- Helper: one freq-entry upsert preserves well-formedness. -/
theorem WF_insertFreqEntry {K V : Type} [DecidableEq K] [DecidableEq V]
    (db : DBState K V) (e : K × List (V × Nat)) (h : WF db) :
    WF (insertFreqEntry db e) := by
  unfold insertFreqEntry
  exact WF_insertValuesPhase e.2 _
    ((WF_db_insert_key_temp _ e.1).mpr (WF_db_insert_key db e.1 h))

/-- Helper: the key upsert phase preserves well-formedness. -/
theorem WF_insertFreq {K V : Type} [DecidableEq K] [DecidableEq V]
    (freq : List (K × List (V × Nat))) :
    ∀ db : DBState K V, WF db → WF (insertFreq freq db) := by
  induction freq with
  | nil => intro db h; exact h
  | cons e es ih =>
      intro db h
      rw [show insertFreq (e :: es) db =
        insertFreq es (insertFreqEntry db e) from rfl]
      exact ih _ (WF_insertFreqEntry db e h)

/-- Helper: when every value is already stored the value upsert phase
leaves the values table and the value counter unchanged. -/
theorem insertValuesPhase_present {K V : Type} [DecidableEq K]
    [DecidableEq V] (vs : List (V × Nat)) :
    ∀ db : DBState K V, (∀ q ∈ vs, q.1 ∈ valSetOf db) →
    (insertValuesPhase db vs).vals = db.vals ∧
    (insertValuesPhase db vs).nextValId = db.nextValId := by
  induction vs with
  | nil => intro db _; exact ⟨rfl, rfl⟩
  | cons p ps ih =>
      intro db h
      have hp := h p (List.mem_cons_self p ps)
      have hsome : (lookupIdByKey db.vals p.1).isSome = true :=
        (lookupIdByKey_isSome_iff db.vals p.1).mpr hp
      obtain ⟨i, hi⟩ := Option.isSome_iff_exists.mp hsome
      rw [show insertValuesPhase db (p :: ps) =
        insertValuesPhase
          (db_insert_value_temp (db_insert_value db p.1) p.1) ps from rfl,
        db_insert_value_present db p.1 i hi]
      have hf := db_insert_value_temp_fields db p.1
      have h2 := ih (db_insert_value_temp db p.1) (by
        intro q hq
        show q.1 ∈ valSetOf (db_insert_value_temp db p.1)
        unfold valSetOf
        rw [hf.2.1]
        exact h q (List.mem_cons_of_mem p hq))
      exact ⟨by rw [h2.1, hf.2.1], by rw [h2.2, hf.2.2.2.2.2]⟩

/-- Helper: when the key and every value of one frequency entry are
already stored, its upsert leaves the persistent tables and counters
unchanged. -/
theorem insertFreqEntry_present {K V : Type} [DecidableEq K]
    [DecidableEq V] (db : DBState K V) (e : K × List (V × Nat))
    (hk : e.1 ∈ keySetOf db) (hv : ∀ q ∈ e.2, q.1 ∈ valSetOf db) :
    (insertFreqEntry db e).keys = db.keys ∧
    (insertFreqEntry db e).vals = db.vals ∧
    (insertFreqEntry db e).nextKeyId = db.nextKeyId ∧
    (insertFreqEntry db e).nextValId = db.nextValId := by
  unfold insertFreqEntry
  have hsome : (lookupIdByKey db.keys e.1).isSome = true :=
    (lookupIdByKey_isSome_iff db.keys e.1).mpr hk
  obtain ⟨i, hi⟩ := Option.isSome_iff_exists.mp hsome
  rw [db_insert_key_present db e.1 i hi]
  have hf := db_insert_key_temp_fields db e.1
  have hpres := insertValuesPhase_present e.2 (db_insert_key_temp db e.1)
    (by
      intro q hq
      show q.1 ∈ valSetOf (db_insert_key_temp db e.1)
      unfold valSetOf
      rw [hf.2.1]
      exact hv q hq)
  have hfields := insertValuesPhase_fields e.2 (db_insert_key_temp db e.1)
  exact ⟨by rw [hfields.1, hf.1], by rw [hpres.1, hf.2.1],
    by rw [hfields.2.2.2, hf.2.2.2.2.1], by rw [hpres.2, hf.2.2.2.2.2]⟩

/-- Helper: when every frequency key and value is already stored, the key
upsert phase leaves the persistent tables and counters unchanged. -/
theorem insertFreq_present {K V : Type} [DecidableEq K] [DecidableEq V]
    (freq : List (K × List (V × Nat))) :
    ∀ db : DBState K V,
    (∀ e ∈ freq, e.1 ∈ keySetOf db ∧ ∀ q ∈ e.2, q.1 ∈ valSetOf db) →
    (insertFreq freq db).keys = db.keys ∧
    (insertFreq freq db).vals = db.vals ∧
    (insertFreq freq db).nextKeyId = db.nextKeyId ∧
    (insertFreq freq db).nextValId = db.nextValId := by
  induction freq with
  | nil => intro db _; exact ⟨rfl, rfl, rfl, rfl⟩
  | cons e es ih =>
      intro db h
      have he := h e (List.mem_cons_self e es)
      have hpres := insertFreqEntry_present db e he.1 he.2
      rw [show insertFreq (e :: es) db =
        insertFreq es (insertFreqEntry db e) from rfl]
      have h2 := ih (insertFreqEntry db e) (by
        intro e2 he2
        have h3 := h e2 (List.mem_cons_of_mem e he2)
        constructor
        · show e2.1 ∈ keySetOf (insertFreqEntry db e)
          unfold keySetOf
          rw [hpres.1]
          exact h3.1
        · intro q hq
          show q.1 ∈ valSetOf (insertFreqEntry db e)
          unfold valSetOf
          rw [hpres.2.1]
          exact h3.2 q hq)
      exact ⟨by rw [h2.1, hpres.1], by rw [h2.2.1, hpres.2.1],
        by rw [h2.2.2.1, hpres.2.2.1], by rw [h2.2.2.2, hpres.2.2.2]⟩

/-- Helper: a payload lookup ignores filtered-out rows of other
payloads when every row of its own payload is kept. -/
theorem lookupIdByKey_filter {K : Type} [DecidableEq K]
    (q : Int × K → Bool) (t : List (Int × K)) (k : K)
    (h : ∀ r ∈ t, r.2 = k → q r = true) :
    lookupIdByKey (t.filter q) k = lookupIdByKey t k := by
  induction t with
  | nil => rfl
  | cons r rs ih =>
      by_cases hk : r.2 = k
      · rw [List.filter_cons, if_pos (h r (List.mem_cons_self r rs) hk),
          lookupIdByKey, if_pos hk, lookupIdByKey, if_pos hk]
      · rw [List.filter_cons]
        by_cases hq : q r = true
        · rw [if_pos hq, lookupIdByKey, if_neg hk,
            show lookupIdByKey (r :: rs) k = lookupIdByKey rs k from by
              rw [lookupIdByKey, if_neg hk]]
          exact ih (fun r2 hr2 => h r2 (List.mem_cons_of_mem r hr2))
        · rw [if_neg hq,
            show lookupIdByKey (r :: rs) k = lookupIdByKey rs k from by
              rw [lookupIdByKey, if_neg hk]]
          exact ih (fun r2 hr2 => h r2 (List.mem_cons_of_mem r hr2))

/-- Helper: a count lookup ignores filtered-out rows of other id pairs
when every row of its own id pair is kept. -/
theorem getCountById_filter (q : Int × Int × Nat → Bool)
    (a : List (Int × Int × Nat)) (ki vi : Int)
    (h : ∀ r ∈ a, r.1 = ki → r.2.1 = vi → q r = true) :
    getCountById (a.filter q) ki vi = getCountById a ki vi := by
  induction a with
  | nil => rfl
  | cons r rs ih =>
      by_cases hm : r.1 = ki ∧ r.2.1 = vi
      · rw [List.filter_cons,
          if_pos (h r (List.mem_cons_self r rs) hm.1 hm.2),
          getCountById, if_pos hm, getCountById, if_pos hm]
      · rw [List.filter_cons]
        by_cases hq : q r = true
        · rw [if_pos hq, getCountById, if_neg hm,
            show getCountById (r :: rs) ki vi = getCountById rs ki vi from by
              rw [getCountById, if_neg hm]]
          exact ih (fun r2 hr2 => h r2 (List.mem_cons_of_mem r hr2))
        · rw [if_neg hq,
            show getCountById (r :: rs) ki vi = getCountById rs ki vi from by
              rw [getCountById, if_neg hm]]
          exact ih (fun r2 hr2 => h r2 (List.mem_cons_of_mem r hr2))

/-- Helper: the purge keeps a staged pair's stored count intact. -/
theorem purge_countKV {K V : Type} [DecidableEq K] [DecidableEq V]
    (db : DBState K V) (k : K) (v : V)
    (hk : k ∈ db.tempKeys) (hv : v ∈ db.tempVals) :
    countKV (db_purge_old_data db) k v = countKV db k v := by
  have hK : (db_purge_old_data db).keys =
      db.keys.filter (fun r => decide (r.2 ∈ db.tempKeys)) := rfl
  have hV : (db_purge_old_data db).vals =
      db.vals.filter (fun r => decide (r.2 ∈ db.tempVals)) := rfl
  have hA : (db_purge_old_data db).assoc =
      ((db.assoc.filter (fun r =>
          memId (db.keys.filter
            (fun r2 => decide (r2.2 ∈ db.tempKeys))) r.1)).filter
        (fun r =>
          memId (db.vals.filter
            (fun r2 => decide (r2.2 ∈ db.tempVals))) r.2.1)) := rfl
  have hlk : lookupIdByKey
      (db.keys.filter (fun r => decide (r.2 ∈ db.tempKeys))) k =
      lookupIdByKey db.keys k :=
    lookupIdByKey_filter _ db.keys k
      (fun r _ hr => decide_eq_true (hr ▸ hk))
  have hlv : lookupIdByKey
      (db.vals.filter (fun r => decide (r.2 ∈ db.tempVals))) v =
      lookupIdByKey db.vals v :=
    lookupIdByKey_filter _ db.vals v
      (fun r _ hr => decide_eq_true (hr ▸ hv))
  cases hck : lookupIdByKey db.keys k with
  | none =>
      rw [countKV_eq_zero_left db k v hck,
        countKV_eq_zero_left (db_purge_old_data db) k v
          (by rw [hK, hlk]; exact hck)]
  | some ki =>
      cases hcv : lookupIdByKey db.vals v with
      | none =>
          rw [countKV_eq_zero_right db k v hcv,
            countKV_eq_zero_right (db_purge_old_data db) k v
              (by rw [hV, hlv]; exact hcv)]
      | some vi =>
          rw [countKV_eq_get db k v ki vi hck hcv,
            countKV_eq_get (db_purge_old_data db) k v ki vi
              (by rw [hK, hlk]; exact hck)
              (by rw [hV, hlv]; exact hcv), hA]
          have hmemK : memId (db.keys.filter
              (fun r2 => decide (r2.2 ∈ db.tempKeys))) ki = true :=
            memId_of_lookup _ k ki (by rw [hlk]; exact hck)
          have hmemV : memId (db.vals.filter
              (fun r2 => decide (r2.2 ∈ db.tempVals))) vi = true :=
            memId_of_lookup _ v vi (by rw [hlv]; exact hcv)
          rw [getCountById_filter _ _ ki vi
            (fun r _ _ h2 => by rw [h2]; exact hmemV)]
          exact getCountById_filter _ db.assoc ki vi
            (fun r _ h1 _ => by rw [h1]; exact hmemK)

/-- Helper: value-column membership after the purge. -/
theorem db_purge_vals_mem {K V : Type} [DecidableEq K] [DecidableEq V]
    (db : DBState K V) (v : V) :
    v ∈ valSetOf (db_purge_old_data db) ↔
      v ∈ valSetOf db ∧ v ∈ db.tempVals := by
  unfold db_purge_old_data valSetOf
  constructor
  · intro h
    obtain ⟨r, hr, he⟩ := List.mem_map.mp h
    have hf := List.mem_filter.mp hr
    refine ⟨List.mem_map.mpr ⟨r, hf.1, he⟩, ?_⟩
    have := of_decide_eq_true hf.2
    rw [← he]
    exact this
  · intro ⟨h1, h2⟩
    obtain ⟨r, hr, he⟩ := List.mem_map.mp h1
    refine List.mem_map.mpr ⟨r, List.mem_filter.mpr ⟨hr, ?_⟩, he⟩
    exact decide_eq_true (he ▸ h2)

/-- Helper: the purge preserves well-formedness. -/
theorem WF_db_purge {K V : Type} [DecidableEq K] [DecidableEq V]
    (db : DBState K V) (hwf : WF db) : WF (db_purge_old_data db) := by
  obtain ⟨hk1, hk2, hv1, hv2, ha, hfk, hfv, hkb, hvb, hcnt, hnk, hnv⟩ := hwf
  have hK : (db_purge_old_data db).keys =
      db.keys.filter (fun r => decide (r.2 ∈ db.tempKeys)) := rfl
  have hV : (db_purge_old_data db).vals =
      db.vals.filter (fun r => decide (r.2 ∈ db.tempVals)) := rfl
  have hA : (db_purge_old_data db).assoc =
      ((db.assoc.filter (fun r =>
          memId (db.keys.filter
            (fun r2 => decide (r2.2 ∈ db.tempKeys))) r.1)).filter
        (fun r =>
          memId (db.vals.filter
            (fun r2 => decide (r2.2 ∈ db.tempVals))) r.2.1)) := rfl
  have hsubK : List.Sublist
      (db.keys.filter (fun r => decide (r.2 ∈ db.tempKeys))) db.keys :=
    List.filter_sublist db.keys
  have hsubV : List.Sublist
      (db.vals.filter (fun r => decide (r.2 ∈ db.tempVals))) db.vals :=
    List.filter_sublist db.vals
  have hsubA : List.Sublist (db_purge_old_data db).assoc db.assoc := by
    rw [hA]
    exact (List.filter_sublist _).trans (List.filter_sublist db.assoc)
  have hNK : (db_purge_old_data db).nextKeyId = db.nextKeyId := rfl
  have hNV : (db_purge_old_data db).nextValId = db.nextValId := rfl
  refine ⟨?_, ?_, ?_, ?_, ?_, ?_, ?_, ?_, ?_, ?_, ?_, ?_⟩
  · rw [hK]
    exact List.Nodup.sublist (hsubK.map _) hk1
  · rw [hK]
    exact List.Nodup.sublist (hsubK.map _) hk2
  · rw [hV]
    exact List.Nodup.sublist (hsubV.map _) hv1
  · rw [hV]
    exact List.Nodup.sublist (hsubV.map _) hv2
  · exact List.Nodup.sublist (hsubA.map _) ha
  · intro r hr
    rw [hA] at hr
    have hf := List.mem_filter.mp hr
    have hf2 := List.mem_filter.mp hf.1
    rw [hK]
    exact hf2.2
  · intro r hr
    rw [hA] at hr
    have hf := List.mem_filter.mp hr
    rw [hV]
    exact hf.2
  · intro e he
    rw [hK] at he
    rw [hNK]
    exact hkb e (List.mem_filter.mp he).1
  · intro e he
    rw [hV] at he
    rw [hNV]
    exact hvb e (List.mem_filter.mp he).1
  · intro r hr
    exact hcnt r (hsubA.mem hr)
  · rw [hNK]
    exact hnk
  · rw [hNV]
    exact hnv

/-- Helper: when every stored key and value is staged and the foreign
keys resolve, the purge deletes nothing. -/
theorem purge_eq_self {K V : Type} [DecidableEq K] [DecidableEq V]
    (db : DBState K V)
    (h1 : ∀ r ∈ db.keys, r.2 ∈ db.tempKeys)
    (h2 : ∀ r ∈ db.vals, r.2 ∈ db.tempVals)
    (h3 : ∀ r ∈ db.assoc, memId db.keys r.1 = true)
    (h4 : ∀ r ∈ db.assoc, memId db.vals r.2.1 = true) :
    db_purge_old_data db = db := by
  have hkeys : db.keys.filter (fun r => decide (r.2 ∈ db.tempKeys)) =
      db.keys :=
    List.filter_eq_self.mpr (fun r hr => decide_eq_true (h1 r hr))
  have hvals : db.vals.filter (fun r => decide (r.2 ∈ db.tempVals)) =
      db.vals :=
    List.filter_eq_self.mpr (fun r hr => decide_eq_true (h2 r hr))
  have hA : (db_purge_old_data db).assoc =
      ((db.assoc.filter (fun r =>
          memId (db.keys.filter
            (fun r2 => decide (r2.2 ∈ db.tempKeys))) r.1)).filter
        (fun r =>
          memId (db.vals.filter
            (fun r2 => decide (r2.2 ∈ db.tempVals))) r.2.1)) := rfl
  have hassoc : (db_purge_old_data db).assoc = db.assoc := by
    rw [hA, hkeys, hvals, List.filter_eq_self.mpr h3,
      List.filter_eq_self.mpr h4]
  refine dbstate_ext _ _ ?_ ?_ hassoc rfl rfl rfl rfl
  · show db.keys.filter (fun r => decide (r.2 ∈ db.tempKeys)) = db.keys
    exact hkeys
  · show db.vals.filter (fun r => decide (r.2 ∈ db.tempVals)) = db.vals
    exact hvals

/-- Helper: fault-free key-id lookup of a stored key. -/
theorem db_get_key_id_noFaults_some {K V : Type} [DecidableEq K]
    [DecidableEq V] (db : DBState K V) (k : K) (i : Int)
    (h : lookupIdByKey db.keys k = some i) :
    db_get_key_id (noFaults K V) db k = i := by
  simp [db_get_key_id, noFaults, h]

/-- Helper: fault-free key-id lookup of an absent key. -/
theorem db_get_key_id_noFaults_none {K V : Type} [DecidableEq K]
    [DecidableEq V] (db : DBState K V) (k : K)
    (h : lookupIdByKey db.keys k = none) :
    db_get_key_id (noFaults K V) db k = -1 := by
  simp [db_get_key_id, noFaults, h]

/-- Helper: fault-free value-id lookup of a stored value. -/
theorem db_get_value_id_noFaults_some {K V : Type} [DecidableEq K]
    [DecidableEq V] (db : DBState K V) (v : V) (i : Int)
    (h : lookupIdByKey db.vals v = some i) :
    db_get_value_id (noFaults K V) db v = i := by
  simp [db_get_value_id, noFaults, h]

/-- Helper: fault-free value-id lookup of an absent value. -/
theorem db_get_value_id_noFaults_none {K V : Type} [DecidableEq K]
    [DecidableEq V] (db : DBState K V) (v : V)
    (h : lookupIdByKey db.vals v = none) :
    db_get_value_id (noFaults K V) db v = -1 := by
  simp [db_get_value_id, noFaults, h]

/-- Helper: a positive stored pair count exhibits successful lookups and
a positive id-level count. -/
theorem countKV_pos_resolve {K V : Type} [DecidableEq K] [DecidableEq V]
    (db : DBState K V) (k : K) (v : V) (h : 1 ≤ countKV db k v) :
    ∃ ki vi, lookupIdByKey db.keys k = some ki ∧
      lookupIdByKey db.vals v = some vi ∧
      1 ≤ getCountById db.assoc ki vi := by
  cases hck : lookupIdByKey db.keys k with
  | none => rw [countKV_eq_zero_left db k v hck] at h; omega
  | some ki =>
      cases hcv : lookupIdByKey db.vals v with
      | none => rw [countKV_eq_zero_right db k v hcv] at h; omega
      | some vi =>
          rw [countKV_eq_get db k v ki vi hck hcv] at h
          exact ⟨ki, vi, rfl, rfl, h⟩

/-- Helper: with every pair's key and value stored, the fault-free
association-insert phase of the flat overload succeeds, touching only
the junction table, never lowering a stored count, and leaving every
processed pair with a positive count. -/
theorem assocInsertFlat_ok {K V : Type} [DecidableEq K] [DecidableEq V]
    (ps : List (K × V)) :
    ∀ db : DBState K V, WF db →
    (∀ p ∈ ps, p.1 ∈ keySetOf db ∧ p.2 ∈ valSetOf db) →
    ∃ d2, assocInsertFlat (noFaults K V) ps db = .ok d2 ∧ WF d2 ∧
      d2.keys = db.keys ∧ d2.vals = db.vals ∧
      d2.tempKeys = db.tempKeys ∧ d2.tempVals = db.tempVals ∧
      d2.nextKeyId = db.nextKeyId ∧ d2.nextValId = db.nextValId ∧
      (∀ k v, countKV db k v ≤ countKV d2 k v) ∧
      (∀ p ∈ ps, 1 ≤ countKV d2 p.1 p.2) := by
  induction ps with
  | nil =>
      intro db hwf _
      exact ⟨db, rfl, hwf, rfl, rfl, rfl, rfl, rfl, rfl,
        fun k v => Nat.le_refl _, by intro p hp; simp at hp⟩
  | cons p ps ih =>
      intro db hwf h
      have hp := h p (List.mem_cons_self p ps)
      obtain ⟨ki, hki⟩ := Option.isSome_iff_exists.mp
        ((lookupIdByKey_isSome_iff db.keys p.1).mpr hp.1)
      obtain ⟨vi, hvi⟩ := Option.isSome_iff_exists.mp
        ((lookupIdByKey_isSome_iff db.vals p.2).mpr hp.2)
      have hkne : ¬ (db_get_key_id (noFaults K V) db p.1 = -1) := by
        rw [db_get_key_id_noFaults_some db p.1 ki hki]
        have := (lookup_key_id_bounds db p.1 ki hwf hki).1
        omega
      have hvne : ¬ (db_get_value_id (noFaults K V) db p.2 = -1) := by
        rw [db_get_value_id_noFaults_some db p.2 vi hvi]
        have := (lookup_val_id_bounds db p.2 vi hwf hvi).1
        omega
      simp only [assocInsertFlat]
      rw [if_neg hkne, if_neg hvne,
        db_get_key_id_noFaults_some db p.1 ki hki,
        db_get_value_id_noFaults_some db p.2 vi hvi]
      by_cases hz : db_get_value_count db ki vi = 0
      · rw [if_pos hz]
        have hz2 : getCountById db.assoc ki vi = 0 := hz
        have hwf2 := WF_db_insert_key_value db p.1 p.2 ki vi hwf hki hvi hz2
        have hcc := countKV_db_insert_key_value db p.1 p.2
        have hmem2 : ∀ q ∈ ps,
            q.1 ∈ keySetOf (db_insert_key_value db ki vi) ∧
            q.2 ∈ valSetOf (db_insert_key_value db ki vi) := by
          intro q hq
          exact h q (List.mem_cons_of_mem p hq)
        obtain ⟨d2, hrun, hwf3, hf1, hf2, hf3, hf4, hf5, hf6, hmono, hpos⟩ :=
          ih (db_insert_key_value db ki vi) hwf2 hmem2
        refine ⟨d2, hrun, hwf3, hf1, hf2, hf3, hf4, hf5, hf6, ?_, ?_⟩
        · intro k v
          have h1 := hcc k v ki vi hwf hki hvi hz2
          have h2 := hmono k v
          omega
        · intro q hq
          rcases List.mem_cons.mp hq with he | hm
          · have h1 := hcc q.1 q.2 ki vi hwf hki hvi hz2
            have h2 := hmono q.1 q.2
            rw [he] at h1 h2 ⊢
            rw [if_pos ⟨rfl, rfl⟩] at h1
            omega
          · exact hpos q hm
      · rw [if_neg hz]
        have hmem2 : ∀ q ∈ ps, q.1 ∈ keySetOf db ∧ q.2 ∈ valSetOf db :=
          fun q hq => h q (List.mem_cons_of_mem p hq)
        obtain ⟨d2, hrun, hwf3, hf1, hf2, hf3, hf4, hf5, hf6, hmono, hpos⟩ :=
          ih db hwf hmem2
        refine ⟨d2, hrun, hwf3, hf1, hf2, hf3, hf4, hf5, hf6, hmono, ?_⟩
        intro q hq
        rcases List.mem_cons.mp hq with he | hm
        · have h2 := hmono q.1 q.2
          have h3 : 1 ≤ countKV db q.1 q.2 := by
            rw [he, countKV_eq_get db p.1 p.2 ki vi hki hvi]
            have : getCountById db.assoc ki vi ≠ 0 := hz
            omega
          omega
        · exact hpos q hm

/-- Helper: when every pair already has a positive stored count the
fault-free association-insert phase of the flat overload is the
identity. -/
theorem assocInsertFlat_noop {K V : Type} [DecidableEq K] [DecidableEq V]
    (ps : List (K × V)) :
    ∀ db : DBState K V, WF db →
    (∀ p ∈ ps, 1 ≤ countKV db p.1 p.2) →
    assocInsertFlat (noFaults K V) ps db = .ok db := by
  induction ps with
  | nil => intro db _ _; rfl
  | cons p ps ih =>
      intro db hwf h
      obtain ⟨ki, vi, hki, hvi, hcnt⟩ :=
        countKV_pos_resolve db p.1 p.2 (h p (List.mem_cons_self p ps))
      have hkne : ¬ (db_get_key_id (noFaults K V) db p.1 = -1) := by
        rw [db_get_key_id_noFaults_some db p.1 ki hki]
        have := (lookup_key_id_bounds db p.1 ki hwf hki).1
        omega
      have hvne : ¬ (db_get_value_id (noFaults K V) db p.2 = -1) := by
        rw [db_get_value_id_noFaults_some db p.2 vi hvi]
        have := (lookup_val_id_bounds db p.2 vi hwf hvi).1
        omega
      have hz : ¬ (db_get_value_count db
          (db_get_key_id (noFaults K V) db p.1)
          (db_get_value_id (noFaults K V) db p.2) = 0) := by
        rw [db_get_key_id_noFaults_some db p.1 ki hki,
          db_get_value_id_noFaults_some db p.2 vi hvi]
        show ¬ (getCountById db.assoc ki vi = 0)
        omega
      simp only [assocInsertFlat]
      rw [if_neg hkne, if_neg hvne, if_neg hz]
      exact ih db hwf (fun q hq => h q (List.mem_cons_of_mem p hq))

/-- Helper: the fault-free inner count-set loop writes each listed
value's count and leaves every other pair's count unchanged. -/
theorem setCountsVals_spec {K V : Type} [DecidableEq K] [DecidableEq V]
    (k0 : K) (ki : Int) (vs : List (V × Nat)) :
    ∀ db : DBState K V, WF db →
    lookupIdByKey db.keys k0 = some ki →
    (vs.map (fun q => q.1)).Nodup →
    (∀ q ∈ vs, 1 ≤ q.2) →
    (∀ q ∈ vs, 1 ≤ countKV db k0 q.1) →
    WF (setCountsVals (noFaults K V) ki db vs) ∧
    (∀ q ∈ vs,
      countKV (setCountsVals (noFaults K V) ki db vs) k0 q.1 = q.2) ∧
    (∀ k v, (k ≠ k0 ∨ ∀ q ∈ vs, q.1 ≠ v) →
      countKV (setCountsVals (noFaults K V) ki db vs) k v =
        countKV db k v) := by
  induction vs with
  | nil =>
      intro db hwf _ _ _ _
      exact ⟨hwf, by intro q hq; simp at hq, fun k v _ => rfl⟩
  | cons q qs ih =>
      intro db hwf hk0 hnd hpos hcnt
      rw [List.map_cons, List.nodup_cons] at hnd
      obtain ⟨ki2, vi, hki2, hvi, hget⟩ :=
        countKV_pos_resolve db k0 q.1 (hcnt q (List.mem_cons_self q qs))
      have hkieq : ki2 = ki := by
        rw [hk0] at hki2
        exact (Option.some.inj hki2).symm
      rw [hkieq] at hget
      have hvne : ¬ (db_get_value_id (noFaults K V) db q.1 = -1) := by
        rw [db_get_value_id_noFaults_some db q.1 vi hvi]
        have := (lookup_val_id_bounds db q.1 vi hwf hvi).1
        omega
      have hstep : setCountsStep (noFaults K V) ki db q =
          db_set_value_count db ki vi q.2 := by
        simp only [setCountsStep]
        rw [if_neg hvne, db_get_value_id_noFaults_some db q.1 vi hvi]
      have hex : ∃ r ∈ db.assoc, r.1 = ki ∧ r.2.1 = vi :=
        getCountById_ne_zero_match db.assoc ki vi (by omega)
      have hwf1 : WF (db_set_value_count db ki vi q.2) :=
        WF_db_set_value_count db k0 q.1 ki vi q.2 hwf hk0 hvi
          (hpos q (List.mem_cons_self q qs))
      have hchar : ∀ k v, countKV (db_set_value_count db ki vi q.2) k v =
          if k = k0 ∧ v = q.1 then q.2 else countKV db k v :=
        fun k v =>
          countKV_db_set_value_count db k0 q.1 k v ki vi q.2 hwf hk0 hvi hex
      have hcnt2 : ∀ q2 ∈ qs,
          1 ≤ countKV (db_set_value_count db ki vi q.2) k0 q2.1 := by
        intro q2 hq2
        rw [hchar k0 q2.1, if_neg]
        · exact hcnt q2 (List.mem_cons_of_mem q hq2)
        · intro hc
          exact hnd.1 (hc.2 ▸ List.mem_map.mpr ⟨q2, hq2, rfl⟩)
      obtain ⟨hwfr, hsetr, hframer⟩ :=
        ih (db_set_value_count db ki vi q.2) hwf1 hk0 hnd.2
          (fun q2 hq2 => hpos q2 (List.mem_cons_of_mem q hq2)) hcnt2
      have hunfold : setCountsVals (noFaults K V) ki db (q :: qs) =
          setCountsVals (noFaults K V) ki
            (db_set_value_count db ki vi q.2) qs := by
        rw [show setCountsVals (noFaults K V) ki db (q :: qs) =
          setCountsVals (noFaults K V) ki
            (setCountsStep (noFaults K V) ki db q) qs from rfl, hstep]
      refine ⟨by rw [hunfold]; exact hwfr, ?_, ?_⟩
      · intro q2 hq2
        rcases List.mem_cons.mp hq2 with he | hm
        · rw [hunfold, he]
          have hfr := hframer k0 q.1 (Or.inr (by
            intro q3 hq3 hc
            exact hnd.1 (hc ▸ List.mem_map.mpr ⟨q3, hq3, rfl⟩)))
          rw [hfr, hchar k0 q.1, if_pos ⟨rfl, rfl⟩]
        · rw [hunfold]
          exact hsetr q2 hm
      · intro k v hcond
        have hcond2 : k ≠ k0 ∨ ∀ q2 ∈ qs, q2.1 ≠ v := by
          rcases hcond with h | h
          · exact Or.inl h
          · exact Or.inr (fun q2 hq2 => h q2 (List.mem_cons_of_mem q hq2))
        rw [hunfold, hframer k v hcond2, hchar k v, if_neg]
        intro hc
        rcases hcond with h | h
        · exact h hc.1
        · exact h q (List.mem_cons_self q qs) hc.2.symm

/-- Helper: the fault-free count-set phase for one frequency entry
writes the entry's counts and leaves the other pairs unchanged. -/
theorem setCountsEntry_spec {K V : Type} [DecidableEq K] [DecidableEq V]
    (db : DBState K V) (e : K × List (V × Nat)) (hwf : WF db)
    (hnd : (e.2.map (fun q => q.1)).Nodup)
    (hpos : ∀ q ∈ e.2, 1 ≤ q.2)
    (hcnt : ∀ q ∈ e.2, 1 ≤ countKV db e.1 q.1) :
    WF (setCountsEntry (noFaults K V) db e) ∧
    (∀ q ∈ e.2,
      countKV (setCountsEntry (noFaults K V) db e) e.1 q.1 = q.2) ∧
    (∀ k v, (k ≠ e.1 ∨ ∀ q ∈ e.2, q.1 ≠ v) →
      countKV (setCountsEntry (noFaults K V) db e) k v =
        countKV db k v) := by
  by_cases hvs : e.2 = []
  · have hid : setCountsEntry (noFaults K V) db e = db := by
      simp only [setCountsEntry]
      split
      · rfl
      · rw [hvs]
        rfl
    rw [hid]
    refine ⟨hwf, ?_, fun k v _ => rfl⟩
    intro q hq
    rw [hvs] at hq
    simp at hq
  · obtain ⟨q0, hq0⟩ := List.exists_mem_of_ne_nil e.2 hvs
    obtain ⟨ki, vi, hki, _, _⟩ :=
      countKV_pos_resolve db e.1 q0.1 (hcnt q0 hq0)
    have hkne : ¬ (db_get_key_id (noFaults K V) db e.1 = -1) := by
      rw [db_get_key_id_noFaults_some db e.1 ki hki]
      have := (lookup_key_id_bounds db e.1 ki hwf hki).1
      omega
    have hred : setCountsEntry (noFaults K V) db e =
        setCountsVals (noFaults K V) ki db e.2 := by
      simp only [setCountsEntry]
      rw [if_neg hkne, db_get_key_id_noFaults_some db e.1 ki hki]
    obtain ⟨h1, h2, h3⟩ :=
      setCountsVals_spec e.1 ki e.2 db hwf hki hnd hpos hcnt
    rw [hred]
    exact ⟨h1, h2, h3⟩

/-- Helper: the fault-free count-set phase writes every frequency
entry's counts and leaves pairs of unlisted keys unchanged. -/
theorem setCounts_spec {K V : Type} [DecidableEq K] [DecidableEq V]
    (freq : List (K × List (V × Nat))) :
    ∀ db : DBState K V, WF db →
    (freq.map (fun e => e.1)).Nodup →
    (∀ e ∈ freq, (e.2.map (fun q => q.1)).Nodup) →
    (∀ e ∈ freq, ∀ q ∈ e.2, 1 ≤ q.2) →
    (∀ e ∈ freq, ∀ q ∈ e.2, 1 ≤ countKV db e.1 q.1) →
    WF (setCounts (noFaults K V) freq db) ∧
    (∀ e ∈ freq, ∀ q ∈ e.2,
      countKV (setCounts (noFaults K V) freq db) e.1 q.1 = q.2) ∧
    (∀ k v, (∀ e ∈ freq, e.1 ≠ k) →
      countKV (setCounts (noFaults K V) freq db) k v = countKV db k v) := by
  induction freq with
  | nil =>
      intro db hwf _ _ _ _
      exact ⟨hwf, by intro e he; simp at he, fun k v _ => rfl⟩
  | cons e es ih =>
      intro db hwf hnd hinnd hpos hcnt
      rw [List.map_cons, List.nodup_cons] at hnd
      obtain ⟨hwf1, hset1, hfr1⟩ := setCountsEntry_spec db e hwf
        (hinnd e (List.mem_cons_self e es))
        (hpos e (List.mem_cons_self e es))
        (hcnt e (List.mem_cons_self e es))
      have hcnt2 : ∀ e2 ∈ es, ∀ q ∈ e2.2,
          1 ≤ countKV (setCountsEntry (noFaults K V) db e) e2.1 q.1 := by
        intro e2 he2 q hq
        have hne : e2.1 ≠ e.1 := by
          intro hc
          exact hnd.1 (hc ▸ List.mem_map.mpr ⟨e2, he2, rfl⟩)
        rw [hfr1 e2.1 q.1 (Or.inl hne)]
        exact hcnt e2 (List.mem_cons_of_mem e he2) q hq
      obtain ⟨hwfr, hsetr, hfrr⟩ :=
        ih (setCountsEntry (noFaults K V) db e) hwf1 hnd.2
          (fun e2 he2 => hinnd e2 (List.mem_cons_of_mem e he2))
          (fun e2 he2 => hpos e2 (List.mem_cons_of_mem e he2)) hcnt2
      have hunfold : setCounts (noFaults K V) (e :: es) db =
          setCounts (noFaults K V) es
            (setCountsEntry (noFaults K V) db e) := rfl
      refine ⟨by rw [hunfold]; exact hwfr, ?_, ?_⟩
      · intro e2 he2 q hq
        rcases List.mem_cons.mp he2 with hee | hm
        · rw [hee] at hq ⊢
          rw [hunfold, hfrr e.1 q.1 (by
            intro e3 he3 hc
            exact hnd.1 (hc ▸ List.mem_map.mpr ⟨e3, he3, rfl⟩))]
          exact hset1 q hq
        · rw [hunfold]
          exact hsetr e2 hm q hq
      · intro k v hcond
        rw [hunfold,
          hfrr k v (fun e2 he2 => hcond e2 (List.mem_cons_of_mem e he2)),
          hfr1 k v (Or.inl (Ne.symm (hcond e (List.mem_cons_self e es))))]

/-- Helper: the fault-free inner count-set loop is the identity when
every listed count is already stored. -/
theorem setCountsVals_noop {K V : Type} [DecidableEq K] [DecidableEq V]
    (k0 : K) (ki : Int) (vs : List (V × Nat)) :
    ∀ db : DBState K V, WF db →
    lookupIdByKey db.keys k0 = some ki →
    (∀ q ∈ vs, countKV db k0 q.1 = q.2) →
    setCountsVals (noFaults K V) ki db vs = db := by
  induction vs with
  | nil => intro db _ _ _; rfl
  | cons q qs ih =>
      intro db hwf hk0 h
      have hstep : setCountsStep (noFaults K V) ki db q = db := by
        simp only [setCountsStep]
        cases hcv : lookupIdByKey db.vals q.1 with
        | none =>
            rw [db_get_value_id_noFaults_none db q.1 hcv, if_pos rfl]
        | some vi =>
            rw [db_get_value_id_noFaults_some db q.1 vi hcv]
            by_cases hvi : vi = -1
            · rw [if_pos hvi]
            · rw [if_neg hvi]
              have hg : getCountById db.assoc ki vi = q.2 := by
                have h2 := h q (List.mem_cons_self q qs)
                rw [countKV_eq_get db k0 q.1 ki vi hk0 hcv] at h2
                exact h2
              show db_set_value_count db ki vi q.2 = db
              unfold db_set_value_count
              rw [setCountById_self_eq db.assoc ki vi q.2
                hwf.2.2.2.2.1 hg]
      rw [show setCountsVals (noFaults K V) ki db (q :: qs) =
        setCountsVals (noFaults K V) ki
          (setCountsStep (noFaults K V) ki db q) qs from rfl, hstep]
      exact ih db hwf hk0 (fun q2 hq2 => h q2 (List.mem_cons_of_mem q hq2))

/-- Helper: one entry of the fault-free count-set phase is the identity
when its counts are already stored. -/
theorem setCountsEntry_noop {K V : Type} [DecidableEq K] [DecidableEq V]
    (db : DBState K V) (e : K × List (V × Nat)) (hwf : WF db)
    (h : ∀ q ∈ e.2, countKV db e.1 q.1 = q.2) :
    setCountsEntry (noFaults K V) db e = db := by
  simp only [setCountsEntry]
  cases hck : lookupIdByKey db.keys e.1 with
  | none =>
      rw [db_get_key_id_noFaults_none db e.1 hck, if_pos rfl]
  | some ki =>
      rw [db_get_key_id_noFaults_some db e.1 ki hck]
      by_cases hkival : ki = -1
      · rw [if_pos hkival]
      · rw [if_neg hkival]
        exact setCountsVals_noop e.1 ki e.2 db hwf hck h

/-- Helper: the fault-free count-set phase is the identity when every
frequency count is already stored. -/
theorem setCounts_noop {K V : Type} [DecidableEq K] [DecidableEq V]
    (freq : List (K × List (V × Nat))) :
    ∀ db : DBState K V, WF db →
    (∀ e ∈ freq, ∀ q ∈ e.2, countKV db e.1 q.1 = q.2) →
    setCounts (noFaults K V) freq db = db := by
  induction freq with
  | nil => intro db _ _; rfl
  | cons e es ih =>
      intro db hwf h
      rw [show setCounts (noFaults K V) (e :: es) db =
        setCounts (noFaults K V) es
          (setCountsEntry (noFaults K V) db e) from rfl,
        setCountsEntry_noop db e hwf (h e (List.mem_cons_self e es))]
      exact ih db hwf (fun e2 he2 => h e2 (List.mem_cons_of_mem e he2))

/-- Helper: the frequency-map values are exactly the source values. -/
theorem buildFreq_vals_iff {K V : Type} [DecidableEq K] [DecidableEq V]
    (S : List (K × V)) (v : V) :
    (∃ e ∈ buildFreq S, ∃ q ∈ e.2, q.1 = v) ↔ ∃ k, (k, v) ∈ S := by
  constructor
  · intro ⟨e, he, q, hq, hv⟩
    refine ⟨e.1, ?_⟩
    have h2 := buildFreq_pair_mem S e.1 e.2 q.1 q.2 he hq
    rw [hv] at h2
    exact h2
  · intro ⟨k, hk⟩
    obtain ⟨m, c, hm, hc⟩ := mem_S_buildFreq S k v hk
    exact ⟨(k, m), hm, (v, c), hc, rfl⟩

/-- Helper: one fault-free flat reconcile from a well-formed state
succeeds and leaves a well-formed state with empty staging tables whose
keys, values and pair counts are exactly those of the source. -/
theorem db_reconcile_flat_run1 {K V : Type} [DecidableEq K] [DecidableEq V]
    (S : List (K × V)) (db : DBState K V) (hwf : WF db) :
    ∃ d1, db_reconcile_flat (noFaults K V) S db = .ok d1 ∧
      WF d1 ∧ d1.tempKeys = [] ∧ d1.tempVals = [] ∧
      (∀ k, k ∈ keySetOf d1 ↔ ∃ v, (k, v) ∈ S) ∧
      (∀ v, v ∈ valSetOf d1 ↔ ∃ k, (k, v) ∈ S) ∧
      (∀ k v, (k, v) ∈ S → countKV d1 k v = multPair S k v) := by
  have hwf0 : WF (db_clear_temp_tables db) :=
    (WF_db_clear_temp_tables db).mpr hwf
  have hwf1 : WF (insertFreq (buildFreq S) (db_clear_temp_tables db)) :=
    WF_insertFreq (buildFreq S) _ hwf0
  have hmemS : ∀ p ∈ S,
      p.1 ∈ keySetOf (insertFreq (buildFreq S) (db_clear_temp_tables db)) ∧
      p.2 ∈ valSetOf (insertFreq (buildFreq S) (db_clear_temp_tables db)) := by
    intro p hp
    have hp2 : (p.1, p.2) ∈ S := hp
    obtain ⟨m, c, hm, hc⟩ := mem_S_buildFreq S p.1 p.2 hp2
    exact ⟨(insertFreq_keys_mem (buildFreq S) _ p.1).mpr
        (Or.inr ⟨(p.1, m), hm, rfl⟩),
      (insertFreq_vals_mem (buildFreq S) _ p.2).mpr
        (Or.inr ⟨(p.1, m), hm, (p.2, c), hc, rfl⟩)⟩
  obtain ⟨db2, hrun2, hwf2, hf2k, hf2v, hf2tk, hf2tv, hf2nk, hf2nv,
    hmono2, hpos2⟩ :=
    assocInsertFlat_ok S (insertFreq (buildFreq S) (db_clear_temp_tables db))
      hwf1 hmemS
  have htk2 : ∀ x : K, x ∈ db2.tempKeys ↔ ∃ e ∈ buildFreq S, e.1 = x := by
    intro x
    rw [hf2tk, insertFreq_tempKeys_mem]
    constructor
    · intro h
      rcases h with h | h
      · exact absurd h (List.not_mem_nil x)
      · exact h
    · exact Or.inr
  have htv2 : ∀ x : V, x ∈ db2.tempVals ↔
      ∃ e ∈ buildFreq S, ∃ q ∈ e.2, q.1 = x := by
    intro x
    rw [hf2tv, insertFreq_tempVals_mem]
    constructor
    · intro h
      rcases h with h | h
      · exact absurd h (List.not_mem_nil x)
      · exact h
    · exact Or.inr
  have hks2 : ∀ x : K, x ∈ keySetOf db2 ↔
      x ∈ keySetOf db ∨ ∃ e ∈ buildFreq S, e.1 = x := by
    intro x
    have h1 : keySetOf db2 =
        keySetOf (insertFreq (buildFreq S) (db_clear_temp_tables db)) := by
      unfold keySetOf
      rw [hf2k]
    rw [h1, insertFreq_keys_mem]
    exact Iff.rfl
  have hvs2 : ∀ x : V, x ∈ valSetOf db2 ↔
      x ∈ valSetOf db ∨ ∃ e ∈ buildFreq S, ∃ q ∈ e.2, q.1 = x := by
    intro x
    have h1 : valSetOf db2 =
        valSetOf (insertFreq (buildFreq S) (db_clear_temp_tables db)) := by
      unfold valSetOf
      rw [hf2v]
    rw [h1, insertFreq_vals_mem]
    exact Iff.rfl
  have hstK : ∀ p ∈ S, p.1 ∈ db2.tempKeys := by
    intro p hp
    have hp2 : (p.1, p.2) ∈ S := hp
    obtain ⟨m, c, hm, _⟩ := mem_S_buildFreq S p.1 p.2 hp2
    exact (htk2 p.1).mpr ⟨(p.1, m), hm, rfl⟩
  have hstV : ∀ p ∈ S, p.2 ∈ db2.tempVals := by
    intro p hp
    have hp2 : (p.1, p.2) ∈ S := hp
    obtain ⟨m, c, hm, hc⟩ := mem_S_buildFreq S p.1 p.2 hp2
    exact (htv2 p.2).mpr ⟨(p.1, m), hm, (p.2, c), hc, rfl⟩
  have hwf3 : WF (db_purge_old_data db2) := WF_db_purge db2 hwf2
  have hwf4 : WF (db_clear_temp_tables (db_purge_old_data db2)) :=
    (WF_db_clear_temp_tables _).mpr hwf3
  have hc4 : ∀ k v,
      countKV (db_clear_temp_tables (db_purge_old_data db2)) k v =
      countKV (db_purge_old_data db2) k v :=
    fun k v => countKV_congr _ _ rfl rfl rfl k v
  have hcntS2 : ∀ p ∈ S,
      1 ≤ countKV (db_clear_temp_tables (db_purge_old_data db2))
        p.1 p.2 := by
    intro p hp
    rw [hc4, purge_countKV db2 p.1 p.2 (hstK p hp) (hstV p hp)]
    exact hpos2 p hp
  have hnod := buildFreq_nodup S
  have hcnt4 : ∀ e ∈ buildFreq S, ∀ q ∈ e.2,
      1 ≤ countKV (db_clear_temp_tables (db_purge_old_data db2))
        e.1 q.1 := by
    intro e he q hq
    have hmem : (e.1, q.1) ∈ S := buildFreq_pair_mem S e.1 e.2 q.1 q.2 he hq
    exact hcntS2 (e.1, q.1) hmem
  obtain ⟨hwfF, hsetF, _⟩ := setCounts_spec (buildFreq S)
    (db_clear_temp_tables (db_purge_old_data db2)) hwf4 hnod.1
    (fun e he => (hnod.2 e he).1) (buildFreq_counts_pos S) hcnt4
  have hFfields := setCounts_fields (noFaults K V) (buildFreq S)
    (db_clear_temp_tables (db_purge_old_data db2))
  simp only [db_reconcile_flat]
  rw [hrun2]
  refine ⟨setCounts (noFaults K V) (buildFreq S)
    (db_clear_temp_tables (db_purge_old_data db2)), rfl, hwfF,
    ?_, ?_, ?_, ?_, ?_⟩
  · rw [hFfields.2.2.1]
    rfl
  · rw [hFfields.2.2.2.1]
    rfl
  · intro k
    have h1 : keySetOf (setCounts (noFaults K V) (buildFreq S)
        (db_clear_temp_tables (db_purge_old_data db2))) =
        keySetOf (db_clear_temp_tables (db_purge_old_data db2)) := by
      unfold keySetOf
      rw [hFfields.1]
    rw [h1]
    have h2 : k ∈ keySetOf (db_clear_temp_tables (db_purge_old_data db2)) ↔
        k ∈ keySetOf db2 ∧ k ∈ db2.tempKeys := db_purge_keys_mem db2 k
    rw [h2]
    constructor
    · intro ⟨h3, h4⟩
      exact (buildFreq_keys_iff S k).mp ((htk2 k).mp h4)
    · intro h3
      obtain ⟨e, hee, hk⟩ := (buildFreq_keys_iff S k).mpr h3
      exact ⟨(hks2 k).mpr (Or.inr ⟨e, hee, hk⟩),
        (htk2 k).mpr ⟨e, hee, hk⟩⟩
  · intro v
    have h1 : valSetOf (setCounts (noFaults K V) (buildFreq S)
        (db_clear_temp_tables (db_purge_old_data db2))) =
        valSetOf (db_clear_temp_tables (db_purge_old_data db2)) := by
      unfold valSetOf
      rw [hFfields.2.1]
    rw [h1]
    have h2 : v ∈ valSetOf (db_clear_temp_tables (db_purge_old_data db2)) ↔
        v ∈ valSetOf db2 ∧ v ∈ db2.tempVals := db_purge_vals_mem db2 v
    rw [h2]
    constructor
    · intro ⟨h3, h4⟩
      exact (buildFreq_vals_iff S v).mp ((htv2 v).mp h4)
    · intro h3
      obtain ⟨e, hee, q, hq, hv⟩ := (buildFreq_vals_iff S v).mpr h3
      exact ⟨(hvs2 v).mpr (Or.inr ⟨e, hee, q, hq, hv⟩),
        (htv2 v).mpr ⟨e, hee, q, hq, hv⟩⟩
  · intro k v hmem
    obtain ⟨m, c, hm, hc⟩ := mem_S_buildFreq S k v hmem
    have h1 := hsetF (k, m) hm (v, c) hc
    have h2 : c = multPair S k v := buildFreq_count_eq S k m v c hm hc
    rw [← h2]
    exact h1

/-- Helper: a fault-free flat reconcile is the identity on a well-formed
state with empty staging tables whose keys, values and pair counts
already agree with the source. -/
theorem db_reconcile_flat_stable {K V : Type} [DecidableEq K]
    [DecidableEq V] (S : List (K × V)) (db : DBState K V) (hwf : WF db)
    (ht1 : db.tempKeys = []) (ht2 : db.tempVals = [])
    (hkeys : ∀ k, k ∈ keySetOf db ↔ ∃ v, (k, v) ∈ S)
    (hvals : ∀ v, v ∈ valSetOf db ↔ ∃ k, (k, v) ∈ S)
    (hcnt : ∀ k v, (k, v) ∈ S → countKV db k v = multPair S k v) :
    db_reconcile_flat (noFaults K V) S db = .ok db := by
  have hpresent : ∀ e ∈ buildFreq S,
      e.1 ∈ keySetOf db ∧ ∀ q ∈ e.2, q.1 ∈ valSetOf db := by
    intro e he
    have he2 : (e.1, e.2) ∈ buildFreq S := he
    constructor
    · exact (hkeys e.1).mpr (buildFreq_key_mem_S S e.1 e.2 he2)
    · intro q hq
      have hq2 : (q.1, q.2) ∈ e.2 := hq
      exact (hvals q.1).mpr
        ⟨e.1, buildFreq_pair_mem S e.1 e.2 q.1 q.2 he2 hq2⟩
  have hIF := insertFreq_present (buildFreq S) db hpresent
  have hwf1 : WF (insertFreq (buildFreq S) db) :=
    WF_insertFreq (buildFreq S) db hwf
  have hcnt1 : ∀ k v, countKV (insertFreq (buildFreq S) db) k v =
      countKV db k v :=
    fun k v => countKV_congr _ db hIF.1 hIF.2.1
      (insertFreq_assoc (buildFreq S) db) k v
  have hposS : ∀ p ∈ S,
      1 ≤ countKV (insertFreq (buildFreq S) db) p.1 p.2 := by
    intro p hp
    have hp2 : (p.1, p.2) ∈ S := hp
    rw [hcnt1 p.1 p.2, hcnt p.1 p.2 hp2]
    exact (multPair_pos_iff S p.1 p.2).mpr hp2
  have hpurge : db_purge_old_data (insertFreq (buildFreq S) db) =
      insertFreq (buildFreq S) db := by
    apply purge_eq_self
    · intro r hr
      rw [hIF.1] at hr
      have hks : r.2 ∈ keySetOf db := List.mem_map.mpr ⟨r, hr, rfl⟩
      obtain ⟨v, hv⟩ := (hkeys r.2).mp hks
      obtain ⟨m, c, hm, _⟩ := mem_S_buildFreq S r.2 v hv
      exact (insertFreq_tempKeys_mem (buildFreq S) db r.2).mpr
        (Or.inr ⟨(r.2, m), hm, rfl⟩)
    · intro r hr
      rw [hIF.2.1] at hr
      have hvs : r.2 ∈ valSetOf db := List.mem_map.mpr ⟨r, hr, rfl⟩
      obtain ⟨k, hk⟩ := (hvals r.2).mp hvs
      obtain ⟨m, c, hm, hc⟩ := mem_S_buildFreq S k r.2 hk
      exact (insertFreq_tempVals_mem (buildFreq S) db r.2).mpr
        (Or.inr ⟨(k, m), hm, (r.2, c), hc, rfl⟩)
    · exact hwf1.2.2.2.2.2.1
    · exact hwf1.2.2.2.2.2.2.1
  have hclear : db_clear_temp_tables (insertFreq (buildFreq S) db) = db :=
    dbstate_ext _ _ hIF.1 hIF.2.1 (insertFreq_assoc (buildFreq S) db)
      ht1.symm ht2.symm hIF.2.2.1 hIF.2.2.2
  have hfinal : setCounts (noFaults K V) (buildFreq S)
      (db_clear_temp_tables
        (db_purge_old_data (insertFreq (buildFreq S) db))) = db := by
    rw [hpurge, hclear]
    apply setCounts_noop (buildFreq S) db hwf
    intro e he q hq
    have he2 : (e.1, e.2) ∈ buildFreq S := he
    have hq2 : (q.1, q.2) ∈ e.2 := hq
    have hmem : (e.1, q.1) ∈ S :=
      buildFreq_pair_mem S e.1 e.2 q.1 q.2 he2 hq2
    rw [hcnt e.1 q.1 hmem]
    exact (buildFreq_count_eq S e.1 e.2 q.1 q.2 he2 hq2).symm
  simp only [db_reconcile_flat]
  rw [clear_eq_self db ht1 ht2,
    assocInsertFlat_noop S (insertFreq (buildFreq S) db) hwf1 hposS]
  exact congrArg Except.ok hfinal

/-- C5: in the fault-free model, db_reconcile for a flat container is
idempotent: from any well-formed state, reconciling S succeeds with some
state d1, reconciling S again from d1 succeeds and returns d1 itself,
and hence the snapshot read back after the second run equals the
snapshot read back after the first. -/
theorem reconcile_flat_idempotent {K V : Type} [DecidableEq K]
    [DecidableEq V] (S : List (K × V)) (db : DBState K V) (hwf : WF db) :
    ∃ d1, db_reconcile_flat (noFaults K V) S db = .ok d1 ∧
      db_reconcile_flat (noFaults K V) S d1 = .ok d1 ∧
      readAll (okD (db_reconcile_flat (noFaults K V) S d1) d1) =
        readAll d1 := by
  obtain ⟨d1, hrun, hwf1, ht1, ht2, hkeys, hvals, hcnt⟩ :=
    db_reconcile_flat_run1 S db hwf
  have hrun2 := db_reconcile_flat_stable S d1 hwf1 ht1 ht2 hkeys hvals hcnt
  refine ⟨d1, hrun, hrun2, ?_⟩
  rw [hrun2]
  rfl

/-- Witness for the reconcile idempotence theorem at the concrete source
[(1, 10), (1, 10), (2, 20)] over the fresh database. -/
theorem reconcile_flat_idempotent_witness :
    WF (emptyDB Nat Nat) ∧
    ∃ d1, db_reconcile_flat (noFaults Nat Nat) c5Src (emptyDB Nat Nat) =
        .ok d1 ∧
      db_reconcile_flat (noFaults Nat Nat) c5Src d1 = .ok d1 ∧
      readAll (okD (db_reconcile_flat (noFaults Nat Nat) c5Src d1) d1) =
        readAll d1 :=
  ⟨by decide, reconcile_flat_idempotent c5Src (emptyDB Nat Nat) (by decide)⟩

end SqliteContainers
